import Mathlib

/-!
# Verification of the circular doubly-linked queue of `queue.c`

The C program keeps every queue as a circular doubly-linked list of `element_t`
cells rooted at a sentinel.  The embedding below keeps that representation: a heap
maps addresses to cells, every cell carries its `value`, `prev` and `next` fields,
and each C function is a function on heaps that performs the same field reads and
writes in the same order.  Dereferencing `NULL` or a cell that is not allocated is
undefined behaviour and makes the function return `none`.  Loops run on a fuel
counter; the theorems state how much fuel is enough.

`q_size` counts in an `int`, and incrementing an `int` beyond `INT_MAX` is undefined:
the theorems about the functions that call `q_size` are stated for queues of at most
`INT_MAX` elements.  The answers of `malloc` are arguments of the functions that
allocate: `NULL` for a failure, otherwise an address that holds no live cell.  The
answers of `rand()` are an argument of `q_shuffle`, one for every call in order.
-/

namespace LabQueue

/-! ## Memory model -/

/-- A pointer: `NULL` or the address of a cell. -/
inductive Ptr where
  | null : Ptr
  | addr (a : Nat) : Ptr
deriving DecidableEq

/-- The bytes of a character buffer; the C string it holds ends before the first `0`
byte, or at the end of the list when there is none. -/
abbrev Str := List Nat

/-- One `element_t`: the owned string `value` (or `NULL`) and the embedded
`struct list_head` fields `prev` and `next`. -/
structure Node where
  value : Option Str
  prev : Ptr
  next : Ptr
deriving DecidableEq

/-- The heap: `none` at an address means no live cell there. -/
structure Heap where
  cell : Nat → Option Node

/-- Largest value of the C type `int`. -/
def INT_MAX : Nat := 2147483647

/-- The cell a pointer refers to; there is none behind `NULL` or a dangling pointer. -/
def load (h : Heap) : Ptr → Option Node
  | .null => none
  | .addr a => h.cell a

/-- Read `p->next`. -/
def getNext (h : Heap) (p : Ptr) : Option Ptr := (load h p).map Node.next

/-- Read `p->prev`. -/
def getPrev (h : Heap) (p : Ptr) : Option Ptr := (load h p).map Node.prev

/-- Read `list_entry(p, element_t, list)->value`. -/
def getValue (h : Heap) (p : Ptr) : Option (Option Str) := (load h p).map Node.value

/-- The heap after the store `a->next = q` on a live cell. -/
def updNext (h : Heap) (a : Nat) (q : Ptr) : Heap :=
  ⟨fun x => if x = a then (h.cell a).map (fun n => { n with next := q }) else h.cell x⟩

/-- The heap after the store `a->prev = q` on a live cell. -/
def updPrev (h : Heap) (a : Nat) (q : Ptr) : Heap :=
  ⟨fun x => if x = a then (h.cell a).map (fun n => { n with prev := q }) else h.cell x⟩

/-- The heap after the store `a->value = v` on a live cell. -/
def updValue (h : Heap) (a : Nat) (v : Option Str) : Heap :=
  ⟨fun x => if x = a then (h.cell a).map (fun n => { n with value := v }) else h.cell x⟩

/-- The heap after releasing the cell at `a`. -/
def updFree (h : Heap) (a : Nat) : Heap :=
  ⟨fun x => if x = a then none else h.cell x⟩

/-- The store `p->next = q`. -/
def setNext (h : Heap) (p : Ptr) (q : Ptr) : Option Heap :=
  match p with
  | .null => none
  | .addr a => if (h.cell a).isSome then some (updNext h a q) else none

/-- The store `p->prev = q`. -/
def setPrev (h : Heap) (p : Ptr) (q : Ptr) : Option Heap :=
  match p with
  | .null => none
  | .addr a => if (h.cell a).isSome then some (updPrev h a q) else none

/-- The store `list_entry(p, element_t, list)->value = v`. -/
def setValue (h : Heap) (p : Ptr) (v : Option Str) : Option Heap :=
  match p with
  | .null => none
  | .addr a => if (h.cell a).isSome then some (updValue h a v) else none

/-- The heap with a new cell at `a`, its fields all `NULL`. -/
def updAlloc (h : Heap) (a : Nat) : Heap :=
  ⟨fun x => if x = a then some ⟨none, .null, .null⟩ else h.cell x⟩

/-- Model of `malloc(sizeof(element_t))`: `cell` is the allocator's answer, `NULL` on
failure and otherwise an address that holds no live cell.  The new cell has
indeterminate contents, fixed here to all-`NULL` fields. -/
def malloc (h : Heap) (cell : Ptr) : Option (Heap × Ptr) :=
  match cell with
  | .null => some (h, .null)
  | .addr a => if (h.cell a).isSome then none else some (updAlloc h a, .addr a)

/-- Model of `free` on an element cell; the owned string goes with the cell.
`free(NULL)` does nothing. -/
def free (h : Heap) (p : Ptr) : Option Heap :=
  match p with
  | .null => some h
  | .addr a => if (h.cell a).isSome then some (updFree h a) else none

/-! ## The string functions of the C library -/

/-- Largest value of the C type `size_t` (64-bit target). -/
def SIZE_MAX : Nat := 18446744073709551615

/-- The function `strlen`: the number of bytes before the terminator. -/
def strlen (s : Str) : Nat := (s.takeWhile (fun c => c ≠ 0)).length

/-- The function `strcmp` on two strings: the difference of the first pair of bytes
that differ (bytes compared as `unsigned char`), `0` when the strings are equal.  The
end of a list reads as the terminating `0` byte and comparison stops at a `0`. -/
def strcmp : Str → Str → Int
  | [], [] => 0
  | [], b :: _ => 0 - (b : Int)
  | a :: _, [] => (a : Int) - 0
  | a :: as, b :: bs =>
    if a ≠ b then (a : Int) - (b : Int) else if a = 0 then 0 else strcmp as bs

/-- The call `strcmp(p, q)` on two `char *`; a `NULL` argument is undefined. -/
def strcmpPtr (p q : Option Str) : Option Int :=
  match p, q with
  | some a, some b => some (strcmp a b)
  | _, _ => none

/-- The string that `malloc(strlen(s) + 1)` followed by
`strncpy(new_s, s, strlen(s) + 1)` produces: the bytes of `s` before its terminator. -/
def copyString (s : Str) : Str := s.take (strlen s)

/-- The memory behind a `char *` buffer: the byte at each offset. -/
abbrev Buf := Nat → Nat

/-- The function `strncpy(dst, src, n)`: exactly `n` bytes are written, the bytes of
`src` before its terminator and then `0` bytes. -/
def strncpy (dst : Buf) (src : Str) (n : Nat) : Buf :=
  fun i => if i < n then (if i < strlen src then src.getD i 0 else 0) else dst i

/-- The store `dst[i] = c`. -/
def storeByte (dst : Buf) (i : Nat) (c : Nat) : Buf :=
  fun j => if j = i then c else dst j

/-! ## The helpers of `list.h` -/

/-- Modelled from the spec: `INIT_LIST_HEAD` of `list.h`, which is not part of the
sources; it makes the cell self-referential (both links point to the cell). -/
def INIT_LIST_HEAD (h : Heap) (p : Ptr) : Option Heap := do
  let h ← setNext h p p
  setPrev h p p

/-- Modelled from the spec: `list_empty` of `list.h`; a list is empty when the
sentinel refers to itself. -/
def list_empty (h : Heap) (head : Ptr) : Option Bool := do
  let nx ← getNext h head
  pure (decide (nx = head))

/-- Modelled from the spec: `list_add` of `list.h`; links `node` right after
`head`. -/
def list_add (h : Heap) (node head : Ptr) : Option Heap := do
  let next ← getNext h head
  let h ← setPrev h next node
  let h ← setNext h node next
  let h ← setPrev h node head
  setNext h head node

/-- Modelled from the spec: `list_add_tail` of `list.h`; links `node` right before
`head`. -/
def list_add_tail (h : Heap) (node head : Ptr) : Option Heap := do
  let prev ← getPrev h head
  let h ← setNext h prev node
  let h ← setNext h node head
  let h ← setPrev h node prev
  setPrev h head node

/-- Modelled from the spec: `list_del` of `list.h`; unlinks `node` from its
neighbours and releases nothing. -/
def list_del (h : Heap) (node : Ptr) : Option Heap := do
  let next ← getNext h node
  let prev ← getPrev h node
  let h ← setPrev h next prev
  setNext h prev next

/-! ## Basic operations -/

/-- The function `q_new`; `cell` is the answer of `malloc`. -/
def q_new (h : Heap) (cell : Ptr) : Option (Heap × Ptr) := do
  let (h, e) ← malloc h cell
  if e = .null then pure (h, .null)
  else
    let h ← setValue h e none
    let h ← INIT_LIST_HEAD h e
    pure (h, e)

/-- The loop `list_for_each (li, head) len++` of `q_size`; incrementing an `int`
beyond `INT_MAX` is undefined. -/
def q_size_loop : Nat → Heap → Ptr → Ptr → Nat → Option Nat
  | 0, _, _, _, _ => none
  | fuel + 1, h, head, li, len =>
    if li = head then some len
    else if INT_MAX < len + 1 then none
    else do
      let nx ← getNext h li
      q_size_loop fuel h head nx (len + 1)

/-- The function `q_size`. -/
def q_size (fuel : Nat) (h : Heap) (head : Ptr) : Option Nat :=
  if head = .null then some 0
  else do
    let first ← getNext h head
    q_size_loop fuel h head first 0

/-- The function `q_insert_head`; `str_ok` tells whether `malloc` for the string
succeeds and `cell` is the answer of `malloc` for the element. -/
def q_insert_head (h : Heap) (head : Ptr) (s : Str) (str_ok : Bool) (cell : Ptr) :
    Option (Heap × Bool) :=
  if head = .null then some (h, false)
  else if str_ok = false then some (h, false)
  else do
    let new_s := copyString s
    let (h, new_e) ← malloc h cell
    if new_e = .null then pure (h, false)
    else
      let h ← setValue h new_e (some new_s)
      let h ← INIT_LIST_HEAD h new_e
      let h ← list_add h new_e head
      pure (h, true)

/-- The function `q_insert_tail`; `str_ok` tells whether `malloc` for the string
succeeds and `cell` is the answer of `malloc` for the element. -/
def q_insert_tail (h : Heap) (head : Ptr) (s : Str) (str_ok : Bool) (cell : Ptr) :
    Option (Heap × Bool) :=
  if head = .null then some (h, false)
  else if str_ok = false then some (h, false)
  else do
    let new_s := copyString s
    let (h, new_e) ← malloc h cell
    if new_e = .null then pure (h, false)
    else
      let h ← setValue h new_e (some new_s)
      let h ← INIT_LIST_HEAD h new_e
      let h ← list_add_tail h new_e head
      pure (h, true)

/-- The statements `strncpy(sp, e->value, bufsize - 1); sp[bufsize - 1] = 0;` guarded
by `if (sp)`; `bufsize - 1` is computed in `size_t`.  The buffer has no end here, so
the stores are recorded whatever their offset: with a buffer and `bufsize = 0` the
`SIZE_MAX` bytes that `strncpy` writes overrun every real buffer, and the theorems
about a removal that returns are stated for `sp = NULL` or `1 ≤ bufsize ≤ SIZE_MAX`. -/
def copyOut (h : Heap) (e : Ptr) (sp : Option Buf) (bufsize : Nat) : Option (Option Buf) :=
  match sp with
  | none => some none
  | some buf => do
    let v ← getValue h e
    let s ← v
    let n := (bufsize + SIZE_MAX) % (SIZE_MAX + 1)
    pure (some (storeByte (strncpy buf s n) n 0))

/-- The function `q_remove_head`; it returns the heap, the removed element (or
`NULL`) and the buffer. -/
def q_remove_head (h : Heap) (head : Ptr) (sp : Option Buf) (bufsize : Nat) :
    Option (Heap × Ptr × Option Buf) :=
  if head = .null then some (h, .null, sp)
  else do
    if (← list_empty h head) then pure (h, .null, sp)
    else
      let e ← getNext h head
      let sp ← copyOut h e sp bufsize
      let h ← list_del h (← getNext h head)
      pure (h, e, sp)

/-- The function `q_remove_tail`; it returns the heap, the removed element (or
`NULL`) and the buffer. -/
def q_remove_tail (h : Heap) (head : Ptr) (sp : Option Buf) (bufsize : Nat) :
    Option (Heap × Ptr × Option Buf) :=
  if head = .null then some (h, .null, sp)
  else do
    if (← list_empty h head) then pure (h, .null, sp)
    else
      let e ← getPrev h head
      let sp ← copyOut h e sp bufsize
      let h ← list_del h (← getPrev h head)
      pure (h, e, sp)

/-- The function `q_release_element`: `free(e->value); free(e);`. -/
def q_release_element (h : Heap) (e : Ptr) : Option Heap := do
  let _ ← getValue h e
  free h e

/-- The loop `for (i = 0; i < idx; i++) head = head->next;` of `q_delete_mid`. -/
def q_delete_mid_walk : Nat → Heap → Ptr → Option Ptr
  | 0, _, head => some head
  | k + 1, h, head => do
    let nx ← getNext h head
    q_delete_mid_walk k h nx

/-- The function `q_delete_mid`. -/
def q_delete_mid (fuel : Nat) (h : Heap) (head : Ptr) : Option (Heap × Bool) := do
  if (← q_size fuel h head) = 0 then pure (h, false)
  else
    let idx := (← q_size fuel h head) / 2
    let head ← q_delete_mid_walk idx h head
    let e ← getNext h head
    let h ← list_del h (← getNext h head)
    let h ← q_release_element h e
    pure (h, true)

/-- The statements `list_del(dup_start_head); q_release_element(dup_start_e);` of
`q_delete_dup`, guarded by `if (count)`. -/
def q_delete_dup_flush (h : Heap) (dup_start_head : Ptr) (count : Nat) : Option Heap :=
  if count ≠ 0 then do
    let h ← list_del h dup_start_head
    q_release_element h dup_start_head
  else pure h

/-- The test `(e->value && !value) || (strcmp(e->value, value) != 0)` of
`q_delete_dup`. -/
def q_delete_dup_test (ev value : Option Str) : Option Bool :=
  if ev.isSome ∧ value.isNone then some true
  else do
    let c ← strcmpPtr ev value
    pure (decide (c ≠ 0))

/-- The body of the `list_for_each_safe` loop of `q_delete_dup`; it returns the heap
and the new values of `value`, `dup_start_head` and `count`. -/
def q_delete_dup_body (h : Heap) (li : Ptr) (value : Option Str) (dup_start_head : Ptr)
    (count : Nat) : Option (Heap × Option Str × Ptr × Nat) := do
  let ev ← getValue h li
  if (← q_delete_dup_test ev value) then
    let h ← q_delete_dup_flush h dup_start_head count
    pure (h, ev, li, 0)
  else
    let h ← list_del h li
    let h ← q_release_element h li
    pure (h, value, dup_start_head, count + 1)

/-- The `list_for_each_safe (li, lx, head)` loop of `q_delete_dup`; it returns the
heap and the final values of `dup_start_head` and `count`. -/
def q_delete_dup_loop : Nat → Heap → Ptr → Ptr → Ptr → Option Str → Ptr → Nat →
    Option (Heap × Ptr × Nat)
  | 0, _, _, _, _, _, _, _ => none
  | fuel + 1, h, head, li, lx, value, dup_start_head, count =>
    if li ≠ head then do
      let (h, value, dup_start_head, count) ← q_delete_dup_body h li value dup_start_head count
      let safe ← getNext h lx
      q_delete_dup_loop fuel h head lx safe value dup_start_head count
    else pure (h, dup_start_head, count)

/-- The function `q_delete_dup`. -/
def q_delete_dup (fuel : Nat) (h : Heap) (head : Ptr) : Option (Heap × Bool) := do
  if (← q_size fuel h head) = 0 then pure (h, false)
  else
    let li ← getNext h head
    let lx ← getNext h li
    let (h, dup_start_head, count) ← q_delete_dup_loop fuel h head li lx none .null 0
    let h ← q_delete_dup_flush h dup_start_head count
    pure (h, true)

/-- The `do ... while (head != start)` loop of `q_reverse`. -/
def q_reverse_loop : Nat → Heap → Ptr → Ptr → Option Heap
  | 0, _, _, _ => none
  | fuel + 1, h, start, head => do
    let tmp ← getNext h head
    let pv ← getPrev h head
    let h ← setNext h head pv
    let h ← setPrev h head tmp
    if tmp ≠ start then q_reverse_loop fuel h start tmp else pure h

/-- The function `q_reverse`. -/
def q_reverse (fuel : Nat) (h : Heap) (head : Ptr) : Option Heap := do
  if (← q_size fuel h head) ≤ 1 then pure h
  else q_reverse_loop fuel h head head

/-- The two stores `slow->prev->next = slow->next; fast->next->prev = fast->prev;`
of the loop body of `q_swap`. -/
def q_swap_unlink (h : Heap) (slow fast : Ptr) : Option Heap := do
  let h ← setNext h (← getPrev h slow) (← getNext h slow)
  setPrev h (← getNext h fast) (← getPrev h fast)

/-- The four stores `fast->next = to_slow; slow->prev = to_fast;
slow->next = fast_next; fast->prev = slow_prev;` of the loop body of `q_swap`. -/
def q_swap_relink (h : Heap) (slow fast to_slow to_fast fast_next slow_prev : Ptr) :
    Option Heap := do
  let h ← setNext h fast to_slow
  let h ← setPrev h slow to_fast
  let h ← setNext h slow fast_next
  setPrev h fast slow_prev

/-- One pass through the body of the `while` loop of `q_swap`; it returns the heap
and the new values of `slow` and `fast`. -/
def q_swap_body (h : Heap) (slow fast : Ptr) : Option (Heap × Ptr × Ptr) := do
  let to_slow ← getNext h (← getPrev h slow)
  let to_fast ← getPrev h (← getNext h fast)
  let fast_next ← getNext h fast
  let slow_prev ← getPrev h slow
  let h ← q_swap_unlink h slow fast
  let h ← q_swap_relink h slow fast to_slow to_fast fast_next slow_prev
  let slow ← getNext h slow
  let fast ← getNext h slow
  pure (h, slow, fast)

/-- The `while` loop of `q_swap`. -/
def q_swap_loop : Nat → Heap → Ptr → Ptr → Ptr → Option Heap
  | 0, _, _, _, _ => none
  | fuel + 1, h, start, slow, fast =>
    if slow ≠ start ∧ fast ≠ start then do
      let (h, slow, fast) ← q_swap_body h slow fast
      q_swap_loop fuel h start slow fast
    else pure h

/-- The function `q_swap`. -/
def q_swap (fuel : Nat) (h : Heap) (head : Ptr) : Option Heap := do
  if (← q_size fuel h head) ≤ 1 then pure h
  else
    let slow ← getNext h head
    let fast ← getNext h slow
    q_swap_loop fuel h head slow fast

/-- The statements of `q_merge` that append the cell `l` to the merged chain:
`if (!new_head) { new_head = l; new_head_result = new_head; }
else { new_head->next = l; new_head = new_head->next; }`.  It returns the heap and
the new values of `new_head` and `new_head_result`. -/
def q_merge_append (h : Heap) (l new_head new_head_result : Ptr) :
    Option (Heap × Ptr × Ptr) :=
  if new_head = .null then some (h, l, l)
  else do
    let h ← setNext h new_head l
    let new_head ← getNext h new_head
    pure (h, new_head, new_head_result)

/-- The `while (l1 && l2)` loop of `q_merge`; it returns the heap and the final
values of `l1`, `l2`, `new_head` and `new_head_result`. -/
def q_merge_loop : Nat → Heap → Ptr → Ptr → Ptr → Ptr → Option (Heap × Ptr × Ptr × Ptr × Ptr)
  | 0, _, _, _, _, _ => none
  | fuel + 1, h, l1, l2, new_head, new_head_result =>
    if l1 ≠ .null ∧ l2 ≠ .null then do
      let c ← strcmpPtr (← getValue h l1) (← getValue h l2)
      if c > 0 then
        let (h, new_head, new_head_result) ← q_merge_append h l2 new_head new_head_result
        let l2 ← getNext h l2
        q_merge_loop fuel h l1 l2 new_head new_head_result
      else
        let (h, new_head, new_head_result) ← q_merge_append h l1 new_head new_head_result
        let l1 ← getNext h l1
        q_merge_loop fuel h l1 l2 new_head new_head_result
    else pure (h, l1, l2, new_head, new_head_result)

/-- The statements `if (l1) { new_head->next = l1; } else if (l2) { new_head->next = l2; }`
that end `q_merge`. -/
def q_merge_tail (h : Heap) (l1 l2 new_head : Ptr) : Option Heap :=
  if l1 ≠ .null then setNext h new_head l1
  else if l2 ≠ .null then setNext h new_head l2
  else some h

/-- The function `q_merge`; it returns the heap and the head of the merged chain. -/
def q_merge (fuel : Nat) (h : Heap) (l1 l2 : Ptr) : Option (Heap × Ptr) := do
  let (h, l1, l2, new_head, new_head_result) ← q_merge_loop fuel h l1 l2 .null .null
  let h ← q_merge_tail h l1 l2 new_head
  pure (h, new_head_result)

/-- The loop `while (fast && fast->next) { slow = slow->next; fast = fast->next->next; }`
of `merge_sort`; it returns the final value of `slow`. -/
def merge_sort_walk : Nat → Heap → Ptr → Ptr → Option Ptr
  | 0, _, _, _ => none
  | fuel + 1, h, slow, fast =>
    if fast = .null then some slow
    else do
      let fn ← getNext h fast
      if fn = .null then pure slow
      else
        let slow ← getNext h slow
        let fast ← getNext h fn
        merge_sort_walk fuel h slow fast

/-- The function `merge_sort`; it returns the heap and the head of the sorted
chain. -/
def merge_sort : Nat → Heap → Ptr → Option (Heap × Ptr)
  | 0, _, _ => none
  | fuel + 1, h, head =>
    if head = .null then some (h, head)
    else do
      if (← getNext h head) = .null then pure (h, head)
      else
        let fast ← getNext h head
        let slow ← merge_sort_walk fuel h head fast
        let fast ← getNext h slow
        let h ← setNext h slow .null
        let (h, head) ← merge_sort fuel h head
        let (h, fast) ← merge_sort fuel h fast
        q_merge fuel h head fast

/-- The loop of `q_sort` that assigns every element its new `prev` pointer; it
returns the heap and the final value of `prev`. -/
def q_sort_relink : Nat → Heap → Ptr → Ptr → Option (Heap × Ptr)
  | 0, _, _, _ => none
  | fuel + 1, h, prev, sorted_list =>
    if sorted_list ≠ .null then do
      let h ← setPrev h sorted_list prev
      let nx ← getNext h sorted_list
      q_sort_relink fuel h sorted_list nx
    else pure (h, prev)

/-- The function `q_sort`. -/
def q_sort (fuel : Nat) (h : Heap) (head : Ptr) : Option Heap := do
  if (← q_size fuel h head) ≤ 1 then pure h
  else
    let h ← setNext h (← getPrev h head) .null
    let (h, sorted_list) ← merge_sort fuel h (← getNext h head)
    let h ← setNext h head sorted_list
    let (h, prev) ← q_sort_relink fuel h head sorted_list
    let h ← setPrev h head prev
    setNext h prev head

/-- The loop `while (j) { lj = lj->next; j--; }` of `q_shuffle`. -/
def q_shuffle_walk : Nat → Heap → Ptr → Option Ptr
  | 0, _, lj => some lj
  | j + 1, h, lj => do
    let nx ← getNext h lj
    q_shuffle_walk j h nx

/-- The statements of `q_shuffle` run when `i != j`: walk to `lj` from `head->next`
and exchange the `value` pointers of the elements of `li` and `lj`. -/
def q_shuffle_swap (h : Heap) (head li : Ptr) (j : Nat) : Option Heap := do
  let lj ← q_shuffle_walk j h (← getNext h head)
  let tmp ← getValue h li
  let h ← setValue h li (← getValue h lj)
  setValue h lj tmp

/-- The `for (li = head->prev; li != head; li = li->prev)` loop of `q_shuffle`.
The `int` counter `i` is an integer; `rnd k` is the answer of the call number `k` of
`rand()`, which is never negative, so that `%` agrees with the C operator as long as
the divisor `i + 1` is not zero; dividing by zero is undefined. -/
def q_shuffle_loop : Nat → Heap → Ptr → Ptr → Int → (Nat → Nat) → Nat → Option Heap
  | 0, _, _, _, _, _, _ => none
  | fuel + 1, h, head, li, i, rnd, k =>
    if li ≠ head then
      if i + 1 = 0 then none
      else do
        let j : Int := (rnd k : Int) % (i + 1)
        let h ← if i ≠ j then q_shuffle_swap h head li j.toNat else pure h
        let li ← getPrev h li
        q_shuffle_loop fuel h head li (i - 1) rnd (k + 1)
    else pure h

/-- The function `q_shuffle`; `rnd k` is the answer of the call number `k` of
`rand()`. -/
def q_shuffle (fuel : Nat) (h : Heap) (head : Ptr) (rnd : Nat → Nat) : Option Heap := do
  let size ← q_size fuel h head
  if size ≤ 1 then pure h
  else q_shuffle_loop fuel h head (← getPrev h head) ((size : Int) - 1) rnd 0

/-- The function `merge_sort` once more, returning in addition the two arguments of
every call of `q_merge` it makes, in the order of the calls. -/
def merge_sort_traced : Nat → Heap → Ptr → Option ((Heap × Ptr) × List (Ptr × Ptr))
  | 0, _, _ => none
  | fuel + 1, h, head =>
    if head = .null then some ((h, head), [])
    else do
      if (← getNext h head) = .null then pure ((h, head), [])
      else
        let fast ← getNext h head
        let slow ← merge_sort_walk fuel h head fast
        let fast ← getNext h slow
        let h ← setNext h slow .null
        let ((h, head), c1) ← merge_sort_traced fuel h head
        let ((h, fast), c2) ← merge_sort_traced fuel h fast
        let r ← q_merge fuel h head fast
        pure (r, c1 ++ c2 ++ [(head, fast)])

/-! ## Sequences of calls -/

/-- One call on a queue: an insertion with its string and the address `malloc`
answers for the element, or a removal with its buffer and capacity. -/
inductive Call where
  | insert_head (s : Str) (cell : Nat) : Call
  | insert_tail (s : Str) (cell : Nat) : Call
  | remove_head (sp : Option Buf) (bufsize : Nat) : Call
  | remove_tail (sp : Option Buf) (bufsize : Nat) : Call

/-- Runs one call with every allocation succeeding; next to the heap it reports how
many elements the call inserted (the insertion returned `true`) and how many it
removed (the removal returned an element). -/
def runCall (h : Heap) (head : Ptr) : Call → Option (Heap × Nat × Nat)
  | .insert_head s a =>
    (q_insert_head h head s true (.addr a)).map (fun r => (r.1, if r.2 then 1 else 0, 0))
  | .insert_tail s a =>
    (q_insert_tail h head s true (.addr a)).map (fun r => (r.1, if r.2 then 1 else 0, 0))
  | .remove_head sp n =>
    (q_remove_head h head sp n).map (fun r => (r.1, 0, if r.2.1 = .null then 0 else 1))
  | .remove_tail sp n =>
    (q_remove_tail h head sp n).map (fun r => (r.1, 0, if r.2.1 = .null then 0 else 1))

/-- Runs the calls in order, adding up the insertions and the removals performed. -/
def runCalls (head : Ptr) : List Call → Heap → Nat → Nat → Option (Heap × Nat × Nat)
  | [], h, ins, rem => some (h, ins, rem)
  | c :: cs, h, ins, rem => do
    let (h, i, r) ← runCall h head c
    runCalls head cs h (ins + i) (rem + r)

/-- The buffer arguments of a call are in the range where the call returns: a
removal passes no buffer, or a capacity of at least one that fits `size_t`. -/
def callFits : Call → Prop
  | .remove_head sp bufsize => sp = none ∨ (1 ≤ bufsize ∧ bufsize ≤ SIZE_MAX)
  | .remove_tail sp bufsize => sp = none ∨ (1 ≤ bufsize ∧ bufsize ≤ SIZE_MAX)
  | _ => True

/-- The addresses the insertions of a sequence of calls receive from `malloc`. -/
def callCells : List Call → List Nat
  | [] => []
  | .insert_head _ a :: cs => a :: callCells cs
  | .insert_tail _ a :: cs => a :: callCells cs
  | _ :: cs => callCells cs

/-! ## Well-formed queues -/

/-- Cell `a` is linked to cell `b`: `a->next == b` and `b->prev == a`. -/
def Link (h : Heap) (a b : Nat) : Prop :=
  getNext h (.addr a) = some (.addr b) ∧ getPrev h (.addr b) = some (.addr a)

instance (h : Heap) (a b : Nat) : Decidable (Link h a b) :=
  inferInstanceAs (Decidable (_ ∧ _))

/-- The heap `h` holds a queue with sentinel `head` whose elements are, from the head
on, the cells `ps`: the cells are pairwise distinct, consecutive cells of the cycle
`head, ps, head` are linked in both directions, and every element owns a string. -/
structure IsQueue (h : Heap) (head : Nat) (ps : List Nat) : Prop where
  nodup : (head :: ps).Nodup
  links : List.Chain' (Link h) (head :: ps ++ [head])
  vals : ∀ p ∈ ps, ((getValue h (.addr p)).join).isSome = true

/-- Deciding whether consecutive cells of a list are linked. -/
def decLinks (h : Heap) : (l : List Nat) → Decidable (List.Chain' (Link h) l)
  | [] => isTrue List.chain'_nil
  | [a] => isTrue (List.chain'_singleton a)
  | a :: b :: r =>
    match decLinks h (b :: r) with
    | isTrue hr =>
      if hl : Link h a b then isTrue (List.chain'_cons.2 ⟨hl, hr⟩)
      else isFalse (fun hc => hl (List.chain'_cons.1 hc).1)
    | isFalse hr => isFalse (fun hc => hr (List.chain'_cons.1 hc).2)

instance (h : Heap) (head : Nat) (ps : List Nat) : Decidable (IsQueue h head ps) :=
  match decLinks h (head :: ps ++ [head]) with
  | isTrue hl =>
    if hq : (head :: ps).Nodup ∧ (∀ p ∈ ps, ((getValue h (.addr p)).join).isSome = true) then
      isTrue ⟨hq.1, hl, hq.2⟩
    else isFalse (fun q => hq ⟨q.nodup, q.vals⟩)
  | isFalse hl => isFalse (fun q => hl q.links)

/-- The payload owned by the cell at `p` (empty when there is none). -/
def payload (h : Heap) (p : Nat) : Str := ((getValue h (.addr p)).join).getD []

/-- The payloads of the cells `ps`, in order. -/
def payloads (h : Heap) (ps : List Nat) : List Str := ps.map (payload h)

/-! ## Notions used in the statements and proofs -/

/-- The cell at `p` is live. -/
def isLive (h : Heap) (p : Ptr) : Bool := (load h p).isSome

/-- Following `next` from the pointer `p` visits exactly the cells `xs` and then
arrives at the pointer `e`. -/
def Path (h : Heap) : Ptr → List Nat → Ptr → Prop
  | p, [], e => p = e
  | p, x :: xs, e => p = .addr x ∧ ∃ nx, getNext h (.addr x) = some nx ∧ Path h nx xs e

/-- The cell with its two links exchanged. -/
def swapLinks (n : Node) : Node := { n with next := n.prev, prev := n.next }

/-- The heap in which the cells `xs` have their two links exchanged. -/
def swapOn (h : Heap) (xs : List Nat) : Heap :=
  ⟨fun x => if x ∈ xs then (h.cell x).map swapLinks else h.cell x⟩

/-- The list with every adjacent pair exchanged; an unpaired last entry stays. -/
def swapPairs : List Nat → List Nat
  | a :: b :: r => b :: a :: swapPairs r
  | l => l

/-- The pointer to the first cell of a list. -/
def hdPtr : List Nat → Ptr
  | [] => .null
  | a :: _ => .addr a

/-- The heap after `malloc` gave the cell `a`, the string `v` was stored in it and
`INIT_LIST_HEAD` ran on it. -/
def freshCell (h : Heap) (a : Nat) (v : Str) : Heap :=
  updPrev (updNext (updValue (updAlloc h a) a (some v)) a (.addr a)) a (.addr a)

/-- The merged chain under construction in `q_merge`: it starts at `res`, runs
through the cells `D` and its last cell is `nh`, whose `next` field is not yet
set; with no cell so far both pointers are `NULL`. -/
def Built (h : Heap) (res nh : Ptr) (D : List Nat) : Prop :=
  (D = [] ∧ res = .null ∧ nh = .null) ∨
  (∃ D0 n, D = D0 ++ [n] ∧ nh = .addr n ∧ Path h res D0 (.addr n) ∧
    isLive h (.addr n) = true)

/-- The comparison `q_merge` makes between two cells: the first goes first unless
`strcmp` of their payloads is positive. -/
def cellLe (key : Nat → Str) (a b : Nat) : Bool := decide (strcmp (key a) (key b) ≤ 0)

/-- The pointer held in `dup_start_head`: `NULL` before the first element is seen. -/
def optPtr : Option Nat → Ptr
  | none => .null
  | some a => .addr a

/-- The loop of `q_delete_dup` on the list of cells: `K0` are the cells kept so far
(the start of the current run excluded), `d` is the start of the current run, `count`
the number of cells of the run released so far and the last argument the cells still
to visit.  The result is the list of cells that stay. -/
def dedupLoop (key : Nat → Str) : List Nat → Option Nat → Nat → List Nat → List Nat
  | K0, d, count, [] => if count ≠ 0 then K0 else K0 ++ d.toList
  | K0, none, _, x :: R => dedupLoop key K0 (some x) 0 R
  | K0, some d, count, x :: R =>
    if strcmp (key x) (key d) ≠ 0 then
      dedupLoop key (if count ≠ 0 then K0 else K0 ++ [d]) (some x) 0 R
    else dedupLoop key K0 (some d) (count + 1) R

/-- The number of cells of `ps` whose payload equals that of `p` (equal as C strings,
that is, `strcmp` gives `0`). -/
def occurrences (key : Nat → Str) (ps : List Nat) (p : Nat) : Nat :=
  ps.countP (fun q => decide (strcmp (key q) (key p) = 0))

/-- The cells met by `list_for_each` from `li` until `head` is reached. -/
def cellsFrom : Nat → Heap → Ptr → Ptr → Option (List Nat)
  | 0, _, _, _ => none
  | fuel + 1, h, head, li =>
    if li = head then some []
    else
      match li with
      | .null => none
      | .addr a => do
        let nx ← getNext h li
        let r ← cellsFrom fuel h head nx
        pure (a :: r)

/-- The element cells of the queue at `head`, read from the head along `next`. -/
def cellsOf (fuel : Nat) (h : Heap) (head : Ptr) : Option (List Nat) := do
  let first ← getNext h head
  cellsFrom fuel h head first

/-- The payloads of the queue at `head`, read from the head along `next`. -/
def contents (fuel : Nat) (h : Heap) (head : Ptr) : Option (List Str) := do
  let cs ← cellsOf fuel h head
  pure (payloads h cs)

/-- The list `l` with the entries at the positions `i` and `j` exchanged. -/
def swapAt (l : List Str) (i j : Nat) : List Str :=
  match l[i]?, l[j]? with
  | some a, some b => (l.set i b).set j a
  | _, _ => l

/-- The payloads after the iterations of the loop of `q_shuffle` for the `m`
positions `m - 1, ..., 0`, the first of them using the call number `k` of `rand()`. -/
def shuffleList (rnd : Nat → Nat) : Nat → Nat → List Str → List Str
  | 0, _, l => l
  | m + 1, k, l =>
    shuffleList rnd m (k + 1) (if m ≠ rnd k % (m + 1) then swapAt l m (rnd k % (m + 1)) else l)

/-- The payloads after the iterations of the loop of `q_shuffle` for the `m`
positions `m - 1, ..., 0` when the iteration for the position `i` receives `d i` from
`rand()`. -/
def shuffleBy (d : Nat → Nat) : Nat → List Str → List Str
  | 0, l => l
  | m + 1, l =>
    shuffleBy d m (if m ≠ d m % (m + 1) then swapAt l m (d m % (m + 1)) else l)

/-- The loop of the reference Fisher–Yates procedure of the specification: for the
index `i` down to `1` it draws `j = rand_below (i + 1)` and, if `i ≠ j`, exchanges
the payloads at the positions `i` and `j`.  The generator is called with the number
`c` of draws made before and with its bound. -/
def fisherYatesLoop (rand_below : Nat → Nat → Nat) : Nat → Nat → List Str → List Str
  | 0, _, l => l
  | i + 1, c, l =>
    fisherYatesLoop rand_below i (c + 1)
      (if i + 1 ≠ rand_below c (i + 2) then swapAt l (i + 1) (rand_below c (i + 2)) else l)

/-- The reference Fisher–Yates procedure of the specification, from the index
`size - 1` down to `1`. -/
def fisherYates (rand_below : Nat → Nat → Nat) (l : List Str) : List Str :=
  fisherYatesLoop rand_below (l.length - 1) 0 l

/-- The answers of `rand()` that make the loop of `q_shuffle` on `n` elements draw
`d i` at the index `i`. -/
def drawStream (n : Nat) (d : Nat → Nat) : Nat → Nat := fun k => d (n - 1 - k)

/-- The consistency of the circular doubly-linked list rooted at the sentinel `head`
with the cells `ps`: every cell `n`, the sentinel included, has `n.next.prev == n`
and `n.prev.next == n`; following `next` from the sentinel through `ps` returns to
the sentinel; and the list is empty exactly when `next` and `prev` of the sentinel
are the sentinel. -/
def Consistent (h : Heap) (head : Nat) (ps : List Nat) : Prop :=
  (∀ n ∈ head :: ps, ∃ nx pv,
    getNext h (.addr n) = some (.addr nx) ∧ getPrev h (.addr nx) = some (.addr n) ∧
    getPrev h (.addr n) = some (.addr pv) ∧ getNext h (.addr pv) = some (.addr n)) ∧
  Path h (.addr head) (head :: ps) (.addr head) ∧
  (ps = [] ↔ getNext h (.addr head) = some (.addr head) ∧
    getPrev h (.addr head) = some (.addr head))

/-! ## Sample heaps -/

/-- A heap holding one queue: the sentinel is cell `0` and the element with the
`i`-th string of `vs` is cell `i + 1`. -/
def sampleQueue (vs : List Str) : Heap :=
  ⟨fun a =>
    if a = 0 then some ⟨none, .addr vs.length, .addr (if vs.length = 0 then 0 else 1)⟩
    else if a ≤ vs.length then
      some ⟨vs.get? (a - 1), .addr (a - 1), .addr (if a = vs.length then 0 else a + 1)⟩
    else none⟩

/-- The heap that holds two `NULL`-terminated chains: the cells `1, ..., as.length`
own the strings `as` and the cells after them own the strings `bs`. -/
def sampleChains (as bs : List Str) : Heap :=
  ⟨fun a =>
    if a = 0 then none
    else if a ≤ as.length then
      some ⟨as.get? (a - 1), .null, if a = as.length then .null else .addr (a + 1)⟩
    else if a ≤ as.length + bs.length then
      some ⟨bs.get? (a - 1 - as.length), .null,
        if a = as.length + bs.length then .null else .addr (a + 1)⟩
    else none⟩

/-- The heap without any live cell. -/
def emptyHeap : Heap := ⟨fun _ => none⟩

/-! ## How the stores act on the field reads -/

theorem Heap.ext {h h' : Heap} (e : ∀ a, h.cell a = h'.cell a) : h = h' := by
  cases h; cases h'; simp only [Heap.mk.injEq]; exact funext e

@[simp] theorem getNext_null (h : Heap) : getNext h .null = none := rfl
@[simp] theorem getPrev_null (h : Heap) : getPrev h .null = none := rfl
@[simp] theorem getValue_null (h : Heap) : getValue h .null = none := rfl

theorem load_updNext (h : Heap) (a : Nat) (q : Ptr) (x : Nat) :
    load (updNext h a q) (.addr x)
      = if x = a then (load h (.addr a)).map (fun n => { n with next := q })
        else load h (.addr x) := rfl

theorem load_updPrev (h : Heap) (a : Nat) (q : Ptr) (x : Nat) :
    load (updPrev h a q) (.addr x)
      = if x = a then (load h (.addr a)).map (fun n => { n with prev := q })
        else load h (.addr x) := rfl

theorem load_updValue (h : Heap) (a : Nat) (v : Option Str) (x : Nat) :
    load (updValue h a v) (.addr x)
      = if x = a then (load h (.addr a)).map (fun n => { n with value := v })
        else load h (.addr x) := rfl

theorem load_updFree (h : Heap) (a : Nat) (x : Nat) :
    load (updFree h a) (.addr x) = if x = a then none else load h (.addr x) := rfl

theorem getNext_updNext (h : Heap) (a : Nat) (q : Ptr) (x : Nat) :
    getNext (updNext h a q) (.addr x)
      = if x = a then (getNext h (.addr a)).map (fun _ => q) else getNext h (.addr x) := by
  unfold getNext; rw [load_updNext]
  by_cases hx : x = a
  · subst hx; cases load h (.addr x) <;> simp
  · simp [hx]

@[simp] theorem getPrev_updNext (h : Heap) (a : Nat) (q : Ptr) (p : Ptr) :
    getPrev (updNext h a q) p = getPrev h p := by
  cases p with
  | null => rfl
  | addr x =>
    unfold getPrev; rw [load_updNext]
    by_cases hx : x = a
    · subst hx; cases load h (.addr x) <;> simp
    · simp [hx]

@[simp] theorem getValue_updNext (h : Heap) (a : Nat) (q : Ptr) (p : Ptr) :
    getValue (updNext h a q) p = getValue h p := by
  cases p with
  | null => rfl
  | addr x =>
    unfold getValue; rw [load_updNext]
    by_cases hx : x = a
    · subst hx; cases load h (.addr x) <;> simp
    · simp [hx]

theorem getPrev_updPrev (h : Heap) (a : Nat) (q : Ptr) (x : Nat) :
    getPrev (updPrev h a q) (.addr x)
      = if x = a then (getPrev h (.addr a)).map (fun _ => q) else getPrev h (.addr x) := by
  unfold getPrev; rw [load_updPrev]
  by_cases hx : x = a
  · subst hx; cases load h (.addr x) <;> simp
  · simp [hx]

@[simp] theorem getNext_updPrev (h : Heap) (a : Nat) (q : Ptr) (p : Ptr) :
    getNext (updPrev h a q) p = getNext h p := by
  cases p with
  | null => rfl
  | addr x =>
    unfold getNext; rw [load_updPrev]
    by_cases hx : x = a
    · subst hx; cases load h (.addr x) <;> simp
    · simp [hx]

@[simp] theorem getValue_updPrev (h : Heap) (a : Nat) (q : Ptr) (p : Ptr) :
    getValue (updPrev h a q) p = getValue h p := by
  cases p with
  | null => rfl
  | addr x =>
    unfold getValue; rw [load_updPrev]
    by_cases hx : x = a
    · subst hx; cases load h (.addr x) <;> simp
    · simp [hx]

theorem getValue_updValue (h : Heap) (a : Nat) (v : Option Str) (x : Nat) :
    getValue (updValue h a v) (.addr x)
      = if x = a then (getValue h (.addr a)).map (fun _ => v) else getValue h (.addr x) := by
  unfold getValue; rw [load_updValue]
  by_cases hx : x = a
  · subst hx; cases load h (.addr x) <;> simp
  · simp [hx]

@[simp] theorem getNext_updValue (h : Heap) (a : Nat) (v : Option Str) (p : Ptr) :
    getNext (updValue h a v) p = getNext h p := by
  cases p with
  | null => rfl
  | addr x =>
    unfold getNext; rw [load_updValue]
    by_cases hx : x = a
    · subst hx; cases load h (.addr x) <;> simp
    · simp [hx]

@[simp] theorem getPrev_updValue (h : Heap) (a : Nat) (v : Option Str) (p : Ptr) :
    getPrev (updValue h a v) p = getPrev h p := by
  cases p with
  | null => rfl
  | addr x =>
    unfold getPrev; rw [load_updValue]
    by_cases hx : x = a
    · subst hx; cases load h (.addr x) <;> simp
    · simp [hx]

@[simp] theorem isLive_null (h : Heap) : isLive h .null = false := rfl

@[simp] theorem isLive_updNext (h : Heap) (a : Nat) (q : Ptr) (p : Ptr) :
    isLive (updNext h a q) p = isLive h p := by
  cases p with
  | null => rfl
  | addr x =>
    unfold isLive; rw [load_updNext]
    by_cases hx : x = a
    · subst hx; cases load h (.addr x) <;> simp
    · simp [hx]

@[simp] theorem isLive_updPrev (h : Heap) (a : Nat) (q : Ptr) (p : Ptr) :
    isLive (updPrev h a q) p = isLive h p := by
  cases p with
  | null => rfl
  | addr x =>
    unfold isLive; rw [load_updPrev]
    by_cases hx : x = a
    · subst hx; cases load h (.addr x) <;> simp
    · simp [hx]

@[simp] theorem isLive_updValue (h : Heap) (a : Nat) (v : Option Str) (p : Ptr) :
    isLive (updValue h a v) p = isLive h p := by
  cases p with
  | null => rfl
  | addr x =>
    unfold isLive; rw [load_updValue]
    by_cases hx : x = a
    · subst hx; cases load h (.addr x) <;> simp
    · simp [hx]

theorem isLive_addr (h : Heap) (a : Nat) : isLive h (.addr a) = (h.cell a).isSome := rfl

theorem isLive_of_getNext {h : Heap} {p : Ptr} {r : Ptr} (e : getNext h p = some r) :
    isLive h p = true := by
  unfold getNext at e; unfold isLive
  cases hh : load h p <;> simp_all

theorem isLive_of_getPrev {h : Heap} {p : Ptr} {r : Ptr} (e : getPrev h p = some r) :
    isLive h p = true := by
  unfold getPrev at e; unfold isLive
  cases hh : load h p <;> simp_all

theorem isLive_of_getValue {h : Heap} {p : Ptr} {r : Option Str} (e : getValue h p = some r) :
    isLive h p = true := by
  unfold getValue at e; unfold isLive
  cases hh : load h p <;> simp_all

theorem getNext_isSome (h : Heap) (p : Ptr) : (getNext h p).isSome = isLive h p := by
  unfold getNext isLive; cases load h p <;> rfl

theorem getPrev_isSome (h : Heap) (p : Ptr) : (getPrev h p).isSome = isLive h p := by
  unfold getPrev isLive; cases load h p <;> rfl

theorem getValue_isSome (h : Heap) (p : Ptr) : (getValue h p).isSome = isLive h p := by
  unfold getValue isLive; cases load h p <;> rfl

theorem exists_getNext {h : Heap} {p : Ptr} (hl : isLive h p = true) :
    ∃ r, getNext h p = some r :=
  Option.isSome_iff_exists.1 (by rw [getNext_isSome]; exact hl)

theorem exists_getPrev {h : Heap} {p : Ptr} (hl : isLive h p = true) :
    ∃ r, getPrev h p = some r :=
  Option.isSome_iff_exists.1 (by rw [getPrev_isSome]; exact hl)

theorem exists_getValue {h : Heap} {p : Ptr} (hl : isLive h p = true) :
    ∃ r, getValue h p = some r :=
  Option.isSome_iff_exists.1 (by rw [getValue_isSome]; exact hl)

theorem setNext_eq {h : Heap} {a : Nat} (hl : isLive h (.addr a) = true) (q : Ptr) :
    setNext h (.addr a) q = some (updNext h a q) := by
  rw [isLive_addr] at hl
  simp [setNext, hl]

theorem setPrev_eq {h : Heap} {a : Nat} (hl : isLive h (.addr a) = true) (q : Ptr) :
    setPrev h (.addr a) q = some (updPrev h a q) := by
  rw [isLive_addr] at hl
  simp [setPrev, hl]

theorem setValue_eq {h : Heap} {a : Nat} (hl : isLive h (.addr a) = true) (v : Option Str) :
    setValue h (.addr a) v = some (updValue h a v) := by
  rw [isLive_addr] at hl
  simp [setValue, hl]

theorem Path.frame {h h' : Heap} : ∀ {xs : List Nat} {p e : Ptr}, Path h p xs e →
    (∀ x ∈ xs, getNext h' (.addr x) = getNext h (.addr x)) → Path h' p xs e
  | [], _, _, hp, _ => hp
  | x :: xs, _, _, ⟨hx, nx, hn, hr⟩, hf =>
    ⟨hx, nx, by rw [hf x (List.mem_cons_self _ _)]; exact hn,
      Path.frame hr (fun y hy => hf y (List.mem_cons_of_mem _ hy))⟩

theorem Path.append {h : Heap} : ∀ {xs ys : List Nat} {p m e : Ptr}, Path h p xs m →
    Path h m ys e → Path h p (xs ++ ys) e
  | [], _, _, _, _, hp, hq => by cases hp; exact hq
  | _ :: _, _, _, _, _, ⟨hx, nx, hn, hr⟩, hq => ⟨hx, nx, hn, Path.append hr hq⟩

theorem Path.split {h : Heap} : ∀ {xs ys : List Nat} {p e : Ptr}, Path h p (xs ++ ys) e →
    ∃ m, Path h p xs m ∧ Path h m ys e
  | [], _, p, _, hp => ⟨p, rfl, hp⟩
  | _ :: _, _, _, _, ⟨hx, nx, hn, hr⟩ => by
    obtain ⟨m, h1, h2⟩ := Path.split hr
    exact ⟨m, ⟨hx, nx, hn, h1⟩, h2⟩

/-- A chain of links gives a path along `next`. -/
theorem path_of_chain {h : Heap} : ∀ (xs : List Nat) (a e : Nat),
    List.Chain' (Link h) (a :: xs ++ [e]) → Path h (.addr a) (a :: xs) (.addr e)
  | [], a, e, hc => by
    simp only [List.cons_append, List.nil_append, List.chain'_cons, List.chain'_singleton,
      and_true] at hc
    exact ⟨rfl, .addr e, hc.1, rfl⟩
  | b :: xs, a, e, hc => by
    simp only [List.cons_append, List.chain'_cons] at hc
    refine ⟨rfl, .addr b, hc.1.1, ?_⟩
    exact path_of_chain xs b e (by simpa using hc.2)

theorem IsQueue.path {h : Heap} {head : Nat} {ps : List Nat} (q : IsQueue h head ps) :
    Path h (.addr head) (head :: ps) (.addr head) :=
  path_of_chain ps head head q.links

theorem IsQueue.live {h : Heap} {head : Nat} {ps : List Nat} (q : IsQueue h head ps) :
    ∀ x ∈ head :: ps, isLive h (.addr x) = true := by
  have key : ∀ (xs : List Nat) (a : Nat) (e : Ptr), Path h (.addr a) (a :: xs) e →
      ∀ x ∈ a :: xs, isLive h (.addr x) = true := by
    intro xs
    induction xs with
    | nil =>
      rintro a e ⟨_, nx, hn, _⟩ x hx
      simp only [List.mem_singleton] at hx
      subst hx
      exact isLive_of_getNext hn
    | cons b xs ih =>
      rintro a e ⟨_, nx, hn, hb, hr⟩ x hx
      rcases List.mem_cons.1 hx with rfl | hx
      · exact isLive_of_getNext hn
      · exact ih b e ⟨rfl, hr⟩ x hx
  exact key ps head _ q.path

theorem IsQueue.value {h : Heap} {head : Nat} {ps : List Nat} (q : IsQueue h head ps)
    {p : Nat} (hp : p ∈ ps) : getValue h (.addr p) = some (some (payload h p)) := by
  have := q.vals p hp
  unfold payload
  cases hv : getValue h (.addr p) with
  | none => simp [hv] at this
  | some v =>
    cases v with
    | none => simp [hv] at this
    | some s => simp

theorem q_size_loop_spec {h : Heap} {head : Nat} : ∀ (xs : List Nat) (li : Ptr) (len fuel : Nat),
    Path h li xs (.addr head) → head ∉ xs → len + xs.length ≤ INT_MAX → xs.length < fuel →
    q_size_loop fuel h (.addr head) li len = some (len + xs.length)
  | [], li, len, fuel, hp, _, _, hf => by
    cases fuel with
    | zero => simp at hf
    | succ fuel => cases hp; simp [q_size_loop]
  | x :: xs, li, len, fuel, ⟨hx, nx, hn, hr⟩, hnot, hlen, hf => by
    cases fuel with
    | zero => simp at hf
    | succ fuel =>
      subst hx
      have hne : x ≠ head := fun e => hnot (by simp [e])
      have hlen2 : ¬ INT_MAX < len + 1 := by simp only [List.length_cons] at hlen; omega
      simp only [q_size_loop, Ptr.addr.injEq, hne, if_false, hlen2, hn, Option.bind_eq_bind,
        Option.some_bind]
      rw [q_size_loop_spec xs nx (len + 1) fuel hr (fun hm => hnot (List.mem_cons_of_mem _ hm))
        (by simp only [List.length_cons] at hlen; omega)
        (by simp only [List.length_cons] at hf; omega)]
      simp only [List.length_cons]; congr 1; omega

theorem q_size_spec {h : Heap} {head : Nat} {ps : List Nat} (q : IsQueue h head ps)
    (hsz : ps.length ≤ INT_MAX) {fuel : Nat} (hf : ps.length < fuel) :
    q_size fuel h (.addr head) = some ps.length := by
  obtain ⟨_, nx, hn, hr⟩ := q.path
  have hnot : head ∉ ps := (List.nodup_cons.1 q.nodup).1
  simp only [q_size, hn, Option.bind_eq_bind, Option.some_bind, reduceCtorEq, if_false]
  rw [q_size_loop_spec ps nx 0 fuel hr hnot (by omega) hf]
  simp

theorem q_size_null (fuel : Nat) (h : Heap) : q_size fuel h .null = some 0 := by
  simp [q_size]

theorem payloads_congr {h h' : Heap} (hv : ∀ a, getValue h' (.addr a) = getValue h (.addr a))
    (ps : List Nat) : payloads h' ps = payloads h ps := by
  unfold payloads payload
  simp [hv]

/-! ## Reversal -/

theorem load_swapOn (h : Heap) (xs : List Nat) (x : Nat) :
    load (swapOn h xs) (.addr x)
      = if x ∈ xs then (load h (.addr x)).map swapLinks else load h (.addr x) := rfl

theorem getNext_swapOn (h : Heap) (xs : List Nat) (x : Nat) :
    getNext (swapOn h xs) (.addr x)
      = if x ∈ xs then getPrev h (.addr x) else getNext h (.addr x) := by
  unfold getNext getPrev; rw [load_swapOn]
  by_cases hx : x ∈ xs
  · cases load h (.addr x) <;> simp [hx, swapLinks]
  · simp [hx]

theorem getPrev_swapOn (h : Heap) (xs : List Nat) (x : Nat) :
    getPrev (swapOn h xs) (.addr x)
      = if x ∈ xs then getNext h (.addr x) else getPrev h (.addr x) := by
  unfold getNext getPrev; rw [load_swapOn]
  by_cases hx : x ∈ xs
  · cases load h (.addr x) <;> simp [hx, swapLinks]
  · simp [hx]

@[simp] theorem getValue_swapOn (h : Heap) (xs : List Nat) (p : Ptr) :
    getValue (swapOn h xs) p = getValue h p := by
  cases p with
  | null => rfl
  | addr x =>
    unfold getValue; rw [load_swapOn]
    by_cases hx : x ∈ xs
    · cases load h (.addr x) <;> simp [hx, swapLinks]
    · simp [hx]

theorem isSome_swapOn (h : Heap) (xs : List Nat) (a : Nat) :
    ((swapOn h xs).cell a).isSome = (h.cell a).isSome := by
  unfold swapOn
  by_cases hx : a ∈ xs
  · cases hh : h.cell a <;> simp [hx, hh]
  · simp [hx]

theorem swap_step (h : Heap) (cur : Nat) (n : Node) (hc : h.cell cur = some n) :
    updPrev (updNext h cur n.prev) cur n.next = swapOn h [cur] := by
  apply Heap.ext
  intro x
  by_cases hx : x = cur
  · subst hx; simp [updPrev, updNext, swapOn, hc, swapLinks]
  · simp [updPrev, updNext, swapOn, hx]

theorem swapOn_cons (h : Heap) (cur : Nat) (xs : List Nat) (hn : cur ∉ xs) :
    swapOn (swapOn h [cur]) xs = swapOn h (cur :: xs) := by
  apply Heap.ext
  intro x
  by_cases hx : x = cur
  · subst hx; simp [swapOn, hn]
  · simp [swapOn, hx]

theorem swapOn_swapOn (h : Heap) (xs : List Nat) : swapOn (swapOn h xs) xs = h := by
  apply Heap.ext
  intro x
  by_cases hx : x ∈ xs
  · cases hh : h.cell x <;> simp [swapOn, hx, hh, swapLinks]
  · simp [swapOn, hx]

theorem q_reverse_iter (h : Heap) (cur : Nat) (nx : Ptr) (start : Ptr) (fuel : Nat)
    (hn : getNext h (.addr cur) = some nx) :
    q_reverse_loop (fuel + 1) h start (.addr cur)
      = if nx ≠ start then q_reverse_loop fuel (swapOn h [cur]) start nx
        else some (swapOn h [cur]) := by
  have hl := isLive_of_getNext hn
  obtain ⟨n, hc⟩ : ∃ n, h.cell cur = some n := Option.isSome_iff_exists.1 hl
  have hnx : n.next = nx := by simpa [getNext, load, hc] using hn
  have hpv : getPrev h (.addr cur) = some n.prev := by simp [getPrev, load, hc]
  simp only [q_reverse_loop, hn, hpv, Option.bind_eq_bind, Option.some_bind, setNext_eq hl,
    setPrev_eq (h := updNext h cur n.prev) (by simpa using hl)]
  rw [← hnx, swap_step h cur n hc]; rfl

theorem q_reverse_loop_spec {start : Nat} : ∀ (rest : List Nat) (cur : Nat) (h : Heap) (fuel : Nat),
    Path h (.addr cur) (cur :: rest) (.addr start) → (cur :: rest).Nodup → start ∉ rest →
    rest.length < fuel →
    q_reverse_loop fuel h (.addr start) (.addr cur) = some (swapOn h (cur :: rest)) := by
  intro rest
  induction rest with
  | nil =>
    intro cur h fuel hp _ _ hf
    obtain ⟨_, nx, hn, hr⟩ := hp
    cases hr
    cases fuel with
    | zero => simp at hf
    | succ fuel => rw [q_reverse_iter h cur _ _ fuel hn]; simp
  | cons c rest ih =>
    intro cur h fuel hp hnd hs hf
    obtain ⟨_, nx, hn, hr⟩ := hp
    obtain ⟨hnx, hr2⟩ := hr
    subst hnx
    cases fuel with
    | zero => simp at hf
    | succ fuel =>
      have hcs : c ≠ start := fun e => hs (by simp [e])
      have hcur : cur ∉ c :: rest := (List.nodup_cons.1 hnd).1
      rw [q_reverse_iter h cur _ _ fuel hn]
      simp only [ne_eq, Ptr.addr.injEq, hcs, not_false_eq_true, if_true]
      rw [ih c (swapOn h [cur]) fuel ?_ (List.nodup_cons.1 hnd).2
        (fun hm => hs (List.mem_cons_of_mem _ hm)) (by simp only [List.length_cons] at hf; omega),
        swapOn_cons h cur (c :: rest) hcur]
      refine Path.frame (h := h) ⟨rfl, hr2⟩ ?_
      intro x hx
      have : x ≠ cur := fun e => hcur (e ▸ hx)
      simp [getNext_swapOn, this]

theorem IsQueue.reverse {h : Heap} {head : Nat} {ps : List Nat} (q : IsQueue h head ps) :
    IsQueue (swapOn h (head :: ps)) head ps.reverse where
  nodup := by
    have := q.nodup
    simp only [List.nodup_cons, List.mem_reverse, List.nodup_reverse] at this ⊢
    exact this
  links := by
    have e : head :: ps.reverse ++ [head] = (head :: ps ++ [head]).reverse := by simp
    rw [e, List.chain'_reverse]
    refine (List.Chain'.iff_mem.1 q.links).imp ?_
    rintro a b ⟨ha, hb, hl⟩
    have ha2 : a ∈ head :: ps := by
      simp only [List.cons_append, List.mem_cons, List.mem_append, List.mem_singleton] at ha ⊢
      tauto
    have hb2 : b ∈ head :: ps := by
      simp only [List.cons_append, List.mem_cons, List.mem_append, List.mem_singleton] at hb ⊢
      tauto
    exact ⟨by rw [getNext_swapOn, if_pos hb2]; exact hl.2,
      by rw [getPrev_swapOn, if_pos ha2]; exact hl.1⟩
  vals := by
    intro p hp
    rw [getValue_swapOn]
    exact q.vals p (List.mem_reverse.1 hp)

/-- What `q_reverse` does to a well-formed queue: for two or more elements it
exchanges the two links of the sentinel and of every element. -/
theorem q_reverse_spec {h : Heap} {head : Nat} {ps : List Nat} (q : IsQueue h head ps)
    (hsz : ps.length ≤ INT_MAX) {fuel : Nat} (hf : ps.length < fuel) :
    q_reverse fuel h (.addr head)
      = some (if ps.length ≤ 1 then h else swapOn h (head :: ps)) := by
  simp only [q_reverse, q_size_spec q hsz hf, Option.bind_eq_bind, Option.some_bind]
  by_cases hn : ps.length ≤ 1
  · simp [hn]
  · simp only [hn, if_false]
    exact q_reverse_loop_spec ps head h fuel q.path q.nodup (List.nodup_cons.1 q.nodup).1 hf

/-! ## Reading a queue from the head -/

theorem cellsFrom_spec {h : Heap} {head : Nat} : ∀ (xs : List Nat) (li : Ptr) (fuel : Nat),
    Path h li xs (.addr head) → head ∉ xs → xs.length < fuel →
    cellsFrom fuel h (.addr head) li = some xs
  | [], li, fuel, hp, _, hf => by
    cases fuel with
    | zero => simp at hf
    | succ fuel => cases hp; simp [cellsFrom]
  | x :: xs, li, fuel, ⟨hx, nx, hn, hr⟩, hnot, hf => by
    cases fuel with
    | zero => simp at hf
    | succ fuel =>
      subst hx
      have hne : x ≠ head := fun e => hnot (by simp [e])
      simp only [cellsFrom, Ptr.addr.injEq, hne, if_false, hn, Option.bind_eq_bind,
        Option.some_bind]
      rw [cellsFrom_spec xs nx fuel hr (fun hm => hnot (List.mem_cons_of_mem _ hm))
        (by simp only [List.length_cons] at hf; omega)]
      rfl

/-- Walking a well-formed queue from the head along `next` meets exactly its cells,
and reading their payloads gives the payload sequence. -/
theorem contents_spec {h : Heap} {head : Nat} {ps : List Nat} (q : IsQueue h head ps)
    {fuel : Nat} (hf : ps.length < fuel) :
    cellsOf fuel h (.addr head) = some ps ∧
    contents fuel h (.addr head) = some (payloads h ps) := by
  obtain ⟨_, nx, hn, hr⟩ := q.path
  have hnot : head ∉ ps := (List.nodup_cons.1 q.nodup).1
  have e : cellsOf fuel h (.addr head) = some ps := by
    simp only [cellsOf, hn, Option.bind_eq_bind, Option.some_bind]
    exact cellsFrom_spec ps nx fuel hr hnot hf
  exact ⟨e, by simp [contents, e]⟩

/-! ## Local surgery on a chain of links -/

theorem chain_frame {h h' : Heap} : ∀ {l : List Nat}, List.Chain' (Link h) l →
    (∀ a ∈ l.dropLast, getNext h' (.addr a) = getNext h (.addr a)) →
    (∀ b ∈ l.tail, getPrev h' (.addr b) = getPrev h (.addr b)) → List.Chain' (Link h') l
  | [], _, _, _ => List.chain'_nil
  | [a], _, _, _ => List.chain'_singleton a
  | a :: b :: r, hc, hn, hp => by
    rw [List.chain'_cons] at hc ⊢
    refine ⟨⟨?_, ?_⟩, chain_frame hc.2 ?_ ?_⟩
    · rw [hn a (by simp)]; exact hc.1.1
    · rw [hp b (by simp)]; exact hc.1.2
    · intro x hx; exact hn x (by simp only [List.dropLast_cons₂]; exact List.mem_cons_of_mem _ hx)
    · intro x hx; exact hp x (by simp only [List.tail_cons] at hx ⊢; exact List.mem_cons_of_mem _ hx)

/-- Replacing the stretch `M` between `P` and `N` by `M'`. -/
theorem chain_splice {h h' : Heap} {A B M M' : List Nat} {P N : Nat}
    (hc : List.Chain' (Link h) (A ++ P :: (M ++ N :: B)))
    (hm : List.Chain' (Link h') (P :: (M' ++ [N])))
    (hnA : ∀ a ∈ A, getNext h' (.addr a) = getNext h (.addr a))
    (hnB : ∀ a ∈ (N :: B).dropLast, getNext h' (.addr a) = getNext h (.addr a))
    (hpA : ∀ b ∈ (A ++ [P]).tail, getPrev h' (.addr b) = getPrev h (.addr b))
    (hpB : ∀ b ∈ B, getPrev h' (.addr b) = getPrev h (.addr b)) :
    List.Chain' (Link h') (A ++ P :: (M' ++ N :: B)) := by
  obtain ⟨c1, c2⟩ := List.chain'_split.1 hc
  have e1 : P :: (M ++ N :: B) = (P :: M) ++ N :: B := by simp
  have e2 : P :: (M' ++ N :: B) = (P :: M') ++ N :: B := by simp
  rw [e1] at c2
  obtain ⟨_, c4⟩ := List.chain'_split.1 c2
  refine List.chain'_split.2 ⟨chain_frame c1 ?_ hpA, ?_⟩
  · intro a ha; rw [List.dropLast_concat] at ha; exact hnA a ha
  · rw [e2]
    refine List.chain'_split.2 ⟨by simpa using hm, chain_frame c4 hnB ?_⟩
    intro b hb; exact hpB b (by simpa using hb)

theorem q_swap_body_spec {h : Heap} {P s f N : Nat} (hPs : Link h P s) (hsf : Link h s f)
    (hfN : Link h f N) (d1 : P ≠ s) (d2 : P ≠ f) (d3 : s ≠ f) (d4 : N ≠ s) (d5 : N ≠ f) :
    ∃ h' fast', q_swap_body h (.addr s) (.addr f) = some (h', .addr N, fast') ∧
      getNext h' (.addr N) = some fast' ∧
      Link h' P f ∧ Link h' f s ∧ Link h' s N ∧
      (∀ x, x ≠ P → x ≠ s → x ≠ f → getNext h' (.addr x) = getNext h (.addr x)) ∧
      (∀ x, x ≠ N → x ≠ s → x ≠ f → getPrev h' (.addr x) = getPrev h (.addr x)) ∧
      (∀ p, getValue h' p = getValue h p) ∧ (∀ p, isLive h' p = isLive h p) := by
  obtain ⟨nP, pS⟩ := hPs
  obtain ⟨nS, pF⟩ := hsf
  obtain ⟨nF, pN⟩ := hfN
  have lP := isLive_of_getNext nP
  have lS := isLive_of_getNext nS
  have lF := isLive_of_getNext nF
  have lN := isLive_of_getPrev pN
  have e1 : q_swap_unlink h (.addr s) (.addr f)
      = some (updPrev (updNext h P (.addr f)) N (.addr s)) := by
    simp only [q_swap_unlink, pS, nS, Option.bind_eq_bind, Option.some_bind, setNext_eq lP,
      getNext_updNext, d2.symm, if_false, nF, getPrev_updNext, pF]
    exact setPrev_eq (by simpa using lN) _
  have e2 : q_swap_relink (updPrev (updNext h P (.addr f)) N (.addr s)) (.addr s) (.addr f)
      (.addr s) (.addr f) (.addr N) (.addr P)
      = some (updPrev (updNext (updPrev (updNext (updPrev (updNext h P (.addr f)) N (.addr s))
          f (.addr s)) s (.addr f)) s (.addr N)) f (.addr P)) := by
    simp only [q_swap_relink, Option.bind_eq_bind]
    rw [setNext_eq (by simpa using lF)]
    simp only [Option.some_bind]
    rw [setPrev_eq (by simpa using lS)]
    simp only [Option.some_bind]
    rw [setNext_eq (by simpa using lS)]
    simp only [Option.some_bind]
    rw [setPrev_eq (by simpa using lF)]
  obtain ⟨H, hH⟩ : ∃ H, H = updPrev (updNext (updPrev (updNext (updPrev
    (updNext h P (.addr f)) N (.addr s)) f (.addr s)) s (.addr f)) s (.addr N)) f (.addr P) :=
    ⟨_, rfl⟩
  rw [← hH] at e2
  have gN : ∀ x, getNext H (.addr x) = if x = s then some (.addr N) else if x = f then
      some (.addr s) else if x = P then some (.addr f) else getNext h (.addr x) := by
    intro x
    subst hH
    simp only [getNext_updPrev, getNext_updNext, nS, nF, nP, d3.symm, d2.symm, d1.symm,
      if_false, Option.map_some']
    by_cases x1 : x = s
    · simp [x1, d3, d1.symm]
    · by_cases x2 : x = f
      · simp [x2, d3.symm, d2.symm]
      · simp [x1, x2]
  have gP : ∀ x, getPrev H (.addr x) = if x = f then some (.addr P) else if x = s then
      some (.addr f) else if x = N then some (.addr s) else getPrev h (.addr x) := by
    intro x
    subst hH
    simp only [getPrev_updPrev, getPrev_updNext, pS, pF, pN, d3, d4, d5,
      if_false, Option.map_some']
    by_cases x1 : x = f
    · simp [x1, d3.symm, d5.symm]
    · by_cases x2 : x = s
      · simp [x2, d3, d4.symm]
      · simp [x1, x2]
  have gV : ∀ p, getValue H p = getValue h p := by intro p; subst hH; simp
  have gL : ∀ p, isLive H p = isLive h p := by intro p; subst hH; simp
  obtain ⟨fast', hfast⟩ := exists_getNext (h := H) (p := .addr N) (by rw [gL]; exact lN)
  refine ⟨H, fast', ?_, hfast, ⟨?_, ?_⟩, ⟨?_, ?_⟩, ⟨?_, ?_⟩, ?_, ?_, gV, gL⟩
  · have hs : getNext H (.addr s) = some (.addr N) := by rw [gN]; simp
    simp only [q_swap_body, pS, nP, nF, pN, Option.bind_eq_bind, Option.some_bind, e1, e2, hs,
      hfast]
    rfl
  · rw [gN]; simp [d1, d2]
  · rw [gP]; simp
  · rw [gN]; simp [d3.symm]
  · rw [gP]; simp [d3]
  · rw [gN]; simp
  · rw [gP]; simp [d4, d5]
  · intro x x1 x2 x3; rw [gN]; simp [x1, x2, x3]
  · intro x x1 x2 x3; rw [gP]; simp [x1, x2, x3]

theorem mem_of_head? {l : List Nat} {a : Nat} (e : l.head? = some a) : a ∈ l := by
  cases l with
  | nil => simp at e
  | cons b r => simp only [List.head?_cons, Option.some.injEq] at e; simp [e]

theorem not_mem_tail_of_head? {l : List Nat} {a : Nat} (e : l.head? = some a) (hn : l.Nodup) :
    a ∉ l.tail := by
  cases l with
  | nil => simp
  | cons b r =>
    simp only [List.head?_cons, Option.some.injEq] at e
    subst e
    exact (List.nodup_cons.1 hn).1

theorem q_swap_loop_spec {start : Nat} : ∀ (R U : List Nat) (P : Nat) (h : Heap) (slow fast : Ptr)
    (fuel : Nat),
    List.Chain' (Link h) (U ++ P :: (R ++ [start])) →
    (U ++ P :: R).Nodup → (U ++ [P]).head? = some start →
    slow = hdPtr (R ++ [start]) → getNext h slow = some fast → R.length < fuel →
    ∃ h', q_swap_loop fuel h (.addr start) slow fast = some h' ∧
      List.Chain' (Link h') (U ++ P :: (swapPairs R ++ [start])) ∧
      (∀ p, getValue h' p = getValue h p) ∧ (∀ p, isLive h' p = isLive h p) ∧
      (∀ x, x ∉ U ++ P :: R → getNext h' (.addr x) = getNext h (.addr x) ∧
        getPrev h' (.addr x) = getPrev h (.addr x))
  | [], U, P, h, slow, fast, fuel, hc, _, _, hs, _, hf => by
    cases fuel with
    | zero => simp at hf
    | succ fuel =>
      subst hs
      refine ⟨h, ?_, by simpa [swapPairs] using hc, fun _ => rfl, fun _ => rfl,
        fun _ _ => ⟨rfl, rfl⟩⟩
      simp [q_swap_loop, hdPtr]
  | [s], U, P, h, slow, fast, fuel, hc, _, _, hs, hfast, hf => by
    cases fuel with
    | zero => simp at hf
    | succ fuel =>
      subst hs
      have hl : Link h s start := by
        have := (List.chain'_split.1 hc).2
        simp only [List.cons_append, List.nil_append, List.chain'_cons] at this
        exact this.2.1
      have : fast = .addr start := by
        have := hl.1
        simp only [hdPtr, List.cons_append] at hfast
        rw [hfast] at this
        exact Option.some.inj this
      subst this
      refine ⟨h, ?_, by simpa [swapPairs] using hc, fun _ => rfl, fun _ => rfl,
        fun _ _ => ⟨rfl, rfl⟩⟩
      simp [q_swap_loop]
  | s :: f :: rest, U, P, h, slow, fast, fuel, hc, hnd, hst, hs, hfast, hf => by
    cases fuel with
    | zero => simp at hf
    | succ fuel =>
      subst hs
      obtain ⟨N, B, hNB⟩ : ∃ N B, rest ++ [start] = N :: B := by
        cases rest with
        | nil => exact ⟨start, [], rfl⟩
        | cons r0 r => exact ⟨r0, r ++ [start], rfl⟩
      have hstU : start ∈ U ++ [P] := mem_of_head? hst
      have hnd2 : (U ++ [P]).Nodup ∧ (s :: f :: rest).Nodup ∧
          ∀ a ∈ U ++ [P], a ∉ s :: f :: rest := by
        have e : U ++ P :: s :: f :: rest = (U ++ [P]) ++ s :: f :: rest := by simp
        rw [e, List.nodup_append] at hnd
        exact ⟨hnd.1, hnd.2.1, fun a ha hb => hnd.2.2 ha hb⟩
      obtain ⟨ndU, ndR, hdis⟩ := hnd2
      have hPU : P ∈ U ++ [P] := by simp
      have d1 : P ≠ s := fun e => hdis P hPU (by simp [e])
      have d2 : P ≠ f := fun e => hdis P hPU (by simp [e])
      have d3 : s ≠ f := by
        intro e; simp [e] at ndR
      have ss : s ≠ start := fun e => hdis start hstU (by simp [e])
      have fs : f ≠ start := fun e => hdis start hstU (by simp [e])
      have hNmem : N ∈ rest ∨ N = start := by
        have : N ∈ rest ++ [start] := by rw [hNB]; simp
        simpa using this
      have d4 : N ≠ s := by
        rcases hNmem with hN | hN
        · intro e; subst e; simp [hN] at ndR
        · rw [hN]; exact ss.symm
      have d5 : N ≠ f := by
        rcases hNmem with hN | hN
        · intro e; subst e; simp [hN] at ndR
        · rw [hN]; exact fs.symm
      have hc2 : List.Chain' (Link h) (U ++ P :: ([s, f] ++ N :: B)) := by
        rw [← hNB]; simpa using hc
      have hlinks : Link h P s ∧ Link h s f ∧ Link h f N := by
        have := (List.chain'_split.1 hc2).2
        simp only [List.cons_append, List.nil_append, List.chain'_cons] at this
        exact ⟨this.1, this.2.1, this.2.2.1⟩
      obtain ⟨hPs, hsf, hfN⟩ := hlinks
      have hfa : fast = .addr f := by
        have := hsf.1
        simp only [hdPtr, List.cons_append] at hfast
        rw [hfast] at this
        exact Option.some.inj this
      subst hfa
      obtain ⟨h1, fast1, hbody, hfast1, l1, l2, l3, frN, frP, frV, frL⟩ :=
        q_swap_body_spec hPs hsf hfN d1 d2 d3 d4 d5
      have hc3 : List.Chain' (Link h1) (U ++ P :: ([f, s] ++ N :: B)) := by
        refine chain_splice hc2 ?_ ?_ ?_ ?_ ?_
        · simp only [List.cons_append, List.nil_append, List.chain'_cons, List.chain'_singleton,
            and_true]
          exact ⟨l1, l2, l3⟩
        · intro a ha
          have haU : a ∈ U ++ [P] := by simp [ha]
          refine frN a ?_ ?_ ?_
          · intro e; subst e
            have := List.nodup_append.1 ndU
            exact this.2.2 ha (by simp)
          · intro e; exact hdis a haU (by simp [e])
          · intro e; exact hdis a haU (by simp [e])
        · intro a ha
          rw [← hNB, List.dropLast_concat] at ha
          refine frN a ?_ ?_ ?_
          · intro e; subst e; exact hdis a hPU (by simp [ha])
          · intro e; subst e; simp [ha] at ndR
          · intro e; subst e; simp [ha] at ndR
        · intro b hb
          have hbU : b ∈ U ++ [P] := List.mem_of_mem_tail hb
          refine frP b ?_ ?_ ?_
          · rcases hNmem with hN | hN
            · intro e; subst e; exact hdis b hbU (by simp [hN])
            · rw [hN]; intro e; subst e
              exact not_mem_tail_of_head? hst ndU hb
          · intro e; exact hdis b hbU (by simp [e])
          · intro e; exact hdis b hbU (by simp [e])
        · intro b hb
          have hbR : b ∈ rest ∨ b = start := by
            have : b ∈ rest ++ [start] := by rw [hNB]; exact List.mem_cons_of_mem _ hb
            simpa using this
          have ndNB : (N :: B).Nodup := by
            rw [← hNB]
            refine List.Nodup.append (List.nodup_cons.1 (List.nodup_cons.1 ndR).2).2
              (List.nodup_singleton _) ?_
            intro x hx hx2
            simp only [List.mem_singleton] at hx2
            subst hx2
            exact hdis x hstU (by simp [hx])
          refine frP b ?_ ?_ ?_
          · intro e; subst e; exact (List.nodup_cons.1 ndNB).1 hb
          · rcases hbR with hb1 | hb1
            · intro e; subst e; simp [hb1] at ndR
            · rw [hb1]; exact ss.symm
          · rcases hbR with hb1 | hb1
            · intro e; subst e; simp [hb1] at ndR
            · rw [hb1]; exact fs.symm
      have hc4 : List.Chain' (Link h1) ((U ++ [P, f]) ++ s :: (rest ++ [start])) := by
        rw [hNB]; simpa using hc3
      have hnd4 : ((U ++ [P, f]) ++ s :: rest).Nodup := by
        have e : (U ++ [P, f]) ++ s :: rest = U ++ P :: f :: s :: rest := by simp
        rw [e]
        refine hnd.perm ?_
        refine List.Perm.append_left U (List.Perm.cons P ?_)
        exact List.Perm.swap f s rest
      have hst4 : ((U ++ [P, f]) ++ [s]).head? = some start := by
        cases U with
        | nil => simpa using hst
        | cons u U => simpa using hst
      obtain ⟨h2, e2, c2, v2, lv2, fr2⟩ := q_swap_loop_spec rest (U ++ [P, f]) s h1 (.addr N) fast1
        fuel hc4 hnd4 hst4 (by rw [hNB]; rfl) hfast1
        (by simp only [List.length_cons] at hf; omega)
      refine ⟨h2, ?_, ?_, fun p => (v2 p).trans (frV p), fun p => (lv2 p).trans (frL p), ?_⟩
      · simp only [q_swap_loop, hdPtr, List.cons_append, ne_eq, Ptr.addr.injEq, ss, fs,
          not_false_eq_true, and_self, if_true, hbody, Option.bind_eq_bind, Option.some_bind]
        exact e2
      · simpa [swapPairs] using c2
      · intro x hx
        have hx2 : x ∉ (U ++ [P, f]) ++ s :: rest := by
          simp only [List.mem_append, List.mem_cons, List.mem_singleton, not_or,
            List.not_mem_nil, or_false] at hx ⊢
          tauto
        have hx3 : x ≠ P ∧ x ≠ s ∧ x ≠ f ∧ x ∉ rest := by
          simp only [List.mem_append, List.mem_cons, not_or] at hx
          tauto
        obtain ⟨a1, a2⟩ := fr2 x hx2
        rw [a1, a2, frN x hx3.1 hx3.2.1 hx3.2.2.1]
        refine ⟨rfl, ?_⟩
        by_cases hxN : x = N
        · subst hxN
          rcases hNmem with hN | hN
          · exact absurd hN hx3.2.2.2
          · subst hN
            exact absurd hstU (by simp only [List.mem_append, List.mem_cons, not_or] at hx ⊢; tauto)
        · exact frP x hxN hx3.2.1 hx3.2.2.1

theorem cell_ext {h h' : Heap} {x : Nat} (e1 : getNext h' (.addr x) = getNext h (.addr x))
    (e2 : getPrev h' (.addr x) = getPrev h (.addr x))
    (e3 : getValue h' (.addr x) = getValue h (.addr x)) : h'.cell x = h.cell x := by
  unfold getNext getPrev getValue load at *
  cases h1 : h'.cell x with
  | none =>
    cases h2 : h.cell x with
    | none => rfl
    | some n => simp [h1, h2] at e1
  | some m =>
    cases h2 : h.cell x with
    | none => simp [h1, h2] at e1
    | some n =>
      simp only [h1, h2, Option.map_some', Option.some.injEq] at e1 e2 e3
      cases m; cases n; simp_all

theorem isSome_of_isLive {h h' : Heap} (e : ∀ p, isLive h' p = isLive h p) (a : Nat) :
    (h'.cell a).isSome = (h.cell a).isSome := e (.addr a)

theorem swapPairs_perm : ∀ l : List Nat, (swapPairs l).Perm l
  | [] => List.Perm.refl _
  | [_] => List.Perm.refl _
  | a :: b :: r => (List.Perm.swap a b _).trans (((swapPairs_perm r).cons b).cons a)

theorem swapPairs_length (l : List Nat) : (swapPairs l).length = l.length :=
  (swapPairs_perm l).length_eq

theorem swapPairs_swapPairs : ∀ l : List Nat, swapPairs (swapPairs l) = l
  | [] => rfl
  | [_] => rfl
  | a :: b :: r => by simp [swapPairs, swapPairs_swapPairs r]

theorem swapPairs_getElem? : ∀ (l : List Nat) (k : Nat), 2 * k + 1 < l.length →
    (swapPairs l)[2 * k]? = l[2 * k + 1]? ∧ (swapPairs l)[2 * k + 1]? = l[2 * k]?
  | [], _, hk => by simp at hk
  | [_], _, hk => by simp at hk
  | a :: b :: r, 0, _ => by simp [swapPairs]
  | a :: b :: r, k + 1, hk => by
    have := swapPairs_getElem? r k (by simp only [List.length_cons] at hk; omega)
    have e1 : 2 * (k + 1) = 2 * k + 1 + 1 := by ring
    have e2 : 2 * (k + 1) + 1 = 2 * k + 1 + 1 + 1 := by ring
    rw [e2, e1]
    simp only [swapPairs, List.getElem?_cons_succ]
    exact this

theorem swapPairs_last : ∀ (l : List Nat), l.length % 2 = 1 →
    (swapPairs l)[l.length - 1]? = l[l.length - 1]?
  | [], h => by simp at h
  | [_], _ => rfl
  | a :: b :: r, h => by
    have hr : r.length % 2 = 1 := by simp only [List.length_cons] at h; omega
    have hpos : 0 < r.length := by omega
    have := swapPairs_last r hr
    have e : (a :: b :: r).length - 1 = (r.length - 1) + 1 + 1 := by
      simp only [List.length_cons]; omega
    rw [e]
    simp only [swapPairs, List.getElem?_cons_succ]
    exact this

/-- What `q_swap` does to a well-formed queue. -/
theorem q_swap_spec {h : Heap} {head : Nat} {ps : List Nat} (q : IsQueue h head ps)
    (hsz : ps.length ≤ INT_MAX) {fuel : Nat} (hf : ps.length < fuel) :
    ∃ h', q_swap fuel h (.addr head) = some h' ∧ IsQueue h' head (swapPairs ps) ∧
      (∀ a, getValue h' (.addr a) = getValue h (.addr a)) ∧
      (∀ a, (h'.cell a).isSome = (h.cell a).isSome) ∧
      (∀ a, a ∉ head :: ps → h'.cell a = h.cell a) ∧
      (ps.length ≤ 1 → h' = h) := by
  by_cases hn : ps.length ≤ 1
  · refine ⟨h, ?_, ?_, fun _ => rfl, fun _ => rfl, fun _ _ => rfl, fun _ => rfl⟩
    · simp [q_swap, q_size_spec q hsz hf, hn]
    · have e : swapPairs ps = ps := by
        match ps, hn with
        | [], _ => rfl
        | [_], _ => rfl
      rw [e]; exact q
  · obtain ⟨_, nx, hnx, hr⟩ := q.path
    have hslow : nx = hdPtr (ps ++ [head]) := by
      cases ps with
      | nil => exact hr
      | cons p ps => exact hr.1
    have hlive : isLive h nx = true := by
      rw [hslow]
      cases ps with
      | nil => exact q.live head (by simp)
      | cons p ps => exact q.live p (by simp)
    obtain ⟨fast, hfast⟩ := exists_getNext hlive
    obtain ⟨h', e, c, v, lv, fr⟩ := q_swap_loop_spec ps [] head h nx fast fuel
      (by simpa using q.links) (by simpa using q.nodup) rfl hslow hfast hf
    refine ⟨h', ?_, ⟨?_, by simpa using c, ?_⟩, fun a => v _, isSome_of_isLive lv, ?_, ?_⟩
    · simp only [q_swap, q_size_spec q hsz hf, hn, Option.bind_eq_bind, Option.some_bind, if_false,
        hnx, hfast]
      exact e
    · have := q.nodup
      rw [List.nodup_cons] at this ⊢
      exact ⟨fun hm => this.1 ((swapPairs_perm ps).mem_iff.1 hm),
        (swapPairs_perm ps).nodup_iff.2 this.2⟩
    · intro p hp
      rw [v]
      exact q.vals p ((swapPairs_perm ps).mem_iff.1 hp)
    · intro a ha
      obtain ⟨a1, a2⟩ := fr a (by simpa using ha)
      exact cell_ext a1 a2 (v _)
    · intro h1; exact absurd h1 hn

/-! ## Unlinking and linking a cell -/

theorem IsQueue.congr {h h' : Heap} {head : Nat} {ps : List Nat} (q : IsQueue h head ps)
    (hn : ∀ x ∈ head :: ps, getNext h' (.addr x) = getNext h (.addr x))
    (hp : ∀ x ∈ head :: ps, getPrev h' (.addr x) = getPrev h (.addr x))
    (hv : ∀ x ∈ ps, getValue h' (.addr x) = getValue h (.addr x)) : IsQueue h' head ps where
  nodup := q.nodup
  links := by
    refine chain_frame q.links ?_ ?_
    · intro a ha
      have e : (head :: ps ++ [head]).dropLast = head :: ps := List.dropLast_concat
      rw [e] at ha; exact hn a ha
    · intro b hb
      simp only [List.cons_append, List.tail_cons, List.mem_append, List.mem_singleton] at hb
      exact hp b (by rcases hb with hb | hb <;> simp [hb])
  vals := by intro p hp2; rw [hv p hp2]; exact q.vals p hp2

/-- Replacing the stretch `M` of a queue by `Z`, where `P` is the cell before the
stretch and `N` the cell after it. -/
theorem queue_splice {h g : Heap} {head : Nat} {X M Z Y A B : List Nat} {P N : Nat}
    (nd : (head :: (X ++ M ++ Y)).Nodup)
    (hc : List.Chain' (Link h) (head :: (X ++ M ++ Y) ++ [head]))
    (hP : head :: X = A ++ [P]) (hN : Y ++ [head] = N :: B)
    (hm : List.Chain' (Link g) (P :: (Z ++ [N])))
    (frN : ∀ a ∈ head :: (X ++ Y), a ≠ P → getNext g (.addr a) = getNext h (.addr a))
    (frP : ∀ b ∈ head :: (X ++ Y), b ≠ N → getPrev g (.addr b) = getPrev h (.addr b)) :
    List.Chain' (Link g) (head :: (X ++ Z ++ Y) ++ [head]) := by
  have e1 : head :: (X ++ M ++ Y) ++ [head] = A ++ P :: (M ++ N :: B) := by
    have : head :: (X ++ M ++ Y) ++ [head] = (head :: X) ++ (M ++ (Y ++ [head])) := by simp
    rw [this, hP, hN]; simp
  have e2 : head :: (X ++ Z ++ Y) ++ [head] = A ++ P :: (Z ++ N :: B) := by
    have : head :: (X ++ Z ++ Y) ++ [head] = (head :: X) ++ (Z ++ (Y ++ [head])) := by simp
    rw [this, hP, hN]; simp
  have ndX : (head :: X).Nodup := by
    have : head :: (X ++ M ++ Y) = (head :: X) ++ (M ++ Y) := by simp
    rw [this] at nd; exact (List.nodup_append.1 nd).1
  have ndY : (Y ++ [head]).Nodup := by
    rw [List.nodup_cons] at nd
    have hY : Y.Nodup := (List.nodup_append.1 nd.2).2.1
    refine List.Nodup.append hY (List.nodup_singleton _) ?_
    intro x hx hx2
    simp only [List.mem_singleton] at hx2
    subst hx2
    exact nd.1 (by simp [hx])
  have disj : ∀ a ∈ head :: X, a ∉ Y := by
    intro a ha hy
    have : head :: (X ++ M ++ Y) = (head :: X) ++ (M ++ Y) := by simp
    rw [this] at nd
    exact (List.nodup_append.1 nd).2.2 ha (by simp [hy])
  have hPm : P ∈ head :: X := by rw [hP]; simp
  have hNm : N ∈ Y ∨ N = head := by
    have : N ∈ Y ++ [head] := by rw [hN]; simp
    simpa using this
  rw [e1] at hc
  rw [e2]
  refine chain_splice hc hm ?_ ?_ ?_ ?_
  · intro a ha
    have haX : a ∈ head :: X := by rw [hP]; simp [ha]
    refine frN a ?_ ?_
    · rcases List.mem_cons.1 haX with e | e
      · simp [e]
      · simp [e]
    · intro e; subst e
      rw [hP] at ndX
      exact (List.nodup_append.1 ndX).2.2 ha (by simp)
  · intro a ha
    rw [← hN, List.dropLast_concat] at ha
    refine frN a (by simp [ha]) ?_
    intro e; subst e; exact disj a hPm ha
  · intro b hb
    rw [← hP, List.tail_cons] at hb
    refine frP b (by simp [hb]) ?_
    rcases hNm with e | e
    · intro e2; subst e2; exact disj b (by simp [hb]) e
    · rw [e]; intro e2; subst e2; exact (List.nodup_cons.1 ndX).1 hb
  · intro b hb
    have hbY : b ∈ Y ++ [head] := by rw [hN]; exact List.mem_cons_of_mem _ hb
    refine frP b ?_ ?_
    · simp only [List.mem_append, List.mem_singleton] at hbY
      rcases hbY with e | e
      · simp [e]
      · simp [e]
    · intro e; subst e
      rw [hN] at ndY
      exact (List.nodup_cons.1 ndY).1 hb

theorem exists_concat (a : Nat) (X : List Nat) : ∃ A P, a :: X = A ++ [P] :=
  ⟨(a :: X).dropLast, (a :: X).getLast (by simp), (List.dropLast_append_getLast _).symm⟩

theorem exists_cons (Y : List Nat) (a : Nat) : ∃ N B, Y ++ [a] = N :: B := by
  cases Y with
  | nil => exact ⟨a, [], rfl⟩
  | cons y Y => exact ⟨y, Y ++ [a], rfl⟩

/-- The links around the cell `x` of a queue. -/
theorem IsQueue.links_at {h : Heap} {head : Nat} {X Y A B : List Nat} {x P N : Nat}
    (q : IsQueue h head (X ++ x :: Y)) (hP : head :: X = A ++ [P]) (hN : Y ++ [head] = N :: B) :
    Link h P x ∧ Link h x N := by
  have hc := q.links
  have e1 : head :: (X ++ x :: Y) ++ [head] = A ++ P :: x :: N :: B := by
    have : head :: (X ++ x :: Y) ++ [head] = (head :: X) ++ (x :: (Y ++ [head])) := by simp
    rw [this, hP, hN]; simp
  rw [e1] at hc
  have := (List.chain'_split.1 hc).2
  simp only [List.chain'_cons] at this
  exact ⟨this.1, this.2.1⟩

/-- Unlinking the cell `x` of a queue with `list_del`. -/
theorem list_del_spec {h : Heap} {head : Nat} {X Y : List Nat} {x : Nat}
    (q : IsQueue h head (X ++ x :: Y)) :
    ∃ h', list_del h (.addr x) = some h' ∧ IsQueue h' head (X ++ Y) ∧
      (∀ p, getValue h' p = getValue h p) ∧ (∀ p, isLive h' p = isLive h p) ∧
      (∀ a, a ∉ head :: (X ++ Y) → getNext h' (.addr a) = getNext h (.addr a) ∧
        getPrev h' (.addr a) = getPrev h (.addr a)) := by
  obtain ⟨A, P, hP⟩ := exists_concat head X
  obtain ⟨N, B, hN⟩ := exists_cons Y head
  obtain ⟨⟨nP, pX⟩, ⟨nX, pN⟩⟩ := q.links_at hP hN
  have lP := isLive_of_getNext nP
  have lN := isLive_of_getPrev pN
  have hPm : P ∈ head :: (X ++ Y) := by
    have : P ∈ head :: X := by rw [hP]; simp
    rcases List.mem_cons.1 this with e | e
    · simp [e]
    · simp [e]
  have hNm : N ∈ head :: (X ++ Y) := by
    have : N ∈ Y ++ [head] := by rw [hN]; simp
    simp only [List.mem_append, List.mem_singleton] at this
    rcases this with e | e
    · simp [e]
    · simp [e]
  refine ⟨updNext (updPrev h N (.addr P)) P (.addr N), ?_, ⟨?_, ?_, ?_⟩, ?_, ?_, ?_⟩
  · simp only [list_del, nX, pX, Option.bind_eq_bind, Option.some_bind, setPrev_eq lN]
    exact setNext_eq (by simpa using lP) _
  · have := q.nodup
    have e : head :: (X ++ x :: Y) = (head :: X) ++ x :: Y := by simp
    rw [e] at this
    have e2 : head :: (X ++ Y) = (head :: X) ++ Y := by simp
    rw [e2]
    exact this.sublist (List.Sublist.append_left (List.sublist_cons_self x Y) _)
  · have hc := q.links
    have e : head :: (X ++ x :: Y) ++ [head] = head :: (X ++ [x] ++ Y) ++ [head] := by simp
    rw [e] at hc
    have nd : (head :: (X ++ [x] ++ Y)).Nodup := by simpa using q.nodup
    have := queue_splice (Z := []) nd hc hP hN
      (g := updNext (updPrev h N (.addr P)) P (.addr N)) ?_ ?_ ?_
    · simpa using this
    · simp only [List.nil_append, List.chain'_cons, List.chain'_singleton, and_true]
      exact ⟨by simp [getNext_updNext, nP], by simp [getPrev_updPrev, pN]⟩
    · intro a _ ha; simp [getNext_updNext, ha]
    · intro b _ hb; simp [getPrev_updPrev, hb]
  · intro p hp
    simp only [getValue_updNext, getValue_updPrev]
    exact q.vals p (by
      simp only [List.mem_append, List.mem_cons] at hp ⊢
      tauto)
  · intro p; simp
  · intro p; simp
  · intro a ha
    have h1 : a ≠ P := fun e => ha (e ▸ hPm)
    have h2 : a ≠ N := fun e => ha (e ▸ hNm)
    simp [getNext_updNext, getPrev_updPrev, h1, h2]

/-! ## Releasing a cell -/

theorem load_updFree_ne {h : Heap} {x a : Nat} (hne : a ≠ x) :
    load (updFree h x) (.addr a) = load h (.addr a) := by
  rw [load_updFree, if_neg hne]

theorem getNext_updFree_ne {h : Heap} {x a : Nat} (hne : a ≠ x) :
    getNext (updFree h x) (.addr a) = getNext h (.addr a) := by
  unfold getNext; rw [load_updFree_ne hne]

theorem getPrev_updFree_ne {h : Heap} {x a : Nat} (hne : a ≠ x) :
    getPrev (updFree h x) (.addr a) = getPrev h (.addr a) := by
  unfold getPrev; rw [load_updFree_ne hne]

theorem getValue_updFree_ne {h : Heap} {x a : Nat} (hne : a ≠ x) :
    getValue (updFree h x) (.addr a) = getValue h (.addr a) := by
  unfold getValue; rw [load_updFree_ne hne]

theorem q_release_element_eq {h : Heap} {x : Nat} (hl : isLive h (.addr x) = true) :
    q_release_element h (.addr x) = some (updFree h x) := by
  obtain ⟨v, hv⟩ := exists_getValue hl
  rw [isLive_addr] at hl
  simp [q_release_element, hv, free, hl]

theorem IsQueue.release {h : Heap} {head : Nat} {ps : List Nat} (q : IsQueue h head ps)
    {x : Nat} (hx : x ∉ head :: ps) : IsQueue (updFree h x) head ps := by
  refine q.congr ?_ ?_ ?_
  · intro a ha; exact getNext_updFree_ne (fun e => hx (e ▸ ha))
  · intro a ha; exact getPrev_updFree_ne (fun e => hx (e ▸ ha))
  · intro a ha; exact getValue_updFree_ne (fun e => hx (e ▸ List.mem_cons_of_mem _ ha))

theorem payloads_eq_of_mem {h h' : Heap} {ps : List Nat}
    (hv : ∀ a ∈ ps, getValue h' (.addr a) = getValue h (.addr a)) :
    payloads h' ps = payloads h ps := by
  unfold payloads
  refine List.map_congr_left ?_
  intro a ha
  unfold payload
  rw [hv a ha]

/-! ## Deleting the middle element -/

theorem q_delete_mid_walk_spec {h : Heap} : ∀ (A : List Nat) (p m : Ptr), Path h p A m →
    q_delete_mid_walk A.length h p = some m
  | [], p, m, hp => by cases hp; rfl
  | a :: A, p, m, ⟨hx, nx, hn, hr⟩ => by
    subst hx
    simp only [List.length_cons, q_delete_mid_walk, hn, Option.bind_eq_bind, Option.some_bind]
    exact q_delete_mid_walk_spec A nx m hr

/-- What `q_delete_mid` does to a non-empty well-formed queue, split around the
cell `x` at index `⌊n/2⌋`. -/
theorem q_delete_mid_spec {h : Heap} {head : Nat} {X Y : List Nat} {x : Nat}
    (q : IsQueue h head (X ++ x :: Y)) (hsz : (X ++ x :: Y).length ≤ INT_MAX)
    (hX : X.length = (X ++ x :: Y).length / 2)
    {fuel : Nat} (hf : (X ++ x :: Y).length < fuel) :
    ∃ h', q_delete_mid fuel h (.addr head) = some (h', true) ∧ IsQueue h' head (X ++ Y) ∧
      (∀ a, a ≠ x → getValue h' (.addr a) = getValue h (.addr a)) ∧
      h'.cell x = none ∧ (∀ a, a ≠ x → (h'.cell a).isSome = (h.cell a).isSome) ∧
      (∀ a, a ∉ head :: (X ++ x :: Y) → h'.cell a = h.cell a) := by
  obtain ⟨A, P, hP⟩ := exists_concat head X
  obtain ⟨N, B, hN⟩ := exists_cons Y head
  obtain ⟨⟨nP, _⟩, _⟩ := q.links_at hP hN
  have hAlen : A.length = X.length := by
    have := congrArg List.length hP
    simp only [List.length_cons, List.length_append, List.length_singleton,
      List.length_nil] at this
    omega
  have hpath : Path h (.addr head) (A ++ P :: x :: Y) (.addr head) := by
    have := q.path
    have e : head :: (X ++ x :: Y) = A ++ P :: x :: Y := by
      have : head :: (X ++ x :: Y) = (head :: X) ++ x :: Y := by simp
      rw [this, hP]; simp
    rw [e] at this; exact this
  obtain ⟨m, p1, p2⟩ := Path.split hpath
  obtain ⟨hm, _⟩ := p2
  subst hm
  have hwalk := q_delete_mid_walk_spec A _ _ p1
  rw [hAlen, hX] at hwalk
  obtain ⟨h1, e1, q1, v1, lv1, fr1⟩ := list_del_spec q
  have hxin : x ∈ head :: (X ++ x :: Y) := by simp
  have hxlive : isLive h1 (.addr x) = true := by rw [lv1]; exact q.live x hxin
  have hxnot : x ∉ head :: (X ++ Y) := by
    have nd := q.nodup
    have e : head :: (X ++ x :: Y) = (head :: X) ++ x :: Y := by simp
    rw [e] at nd
    have h1 := (List.nodup_append.1 nd).2.2
    have h2 := (List.nodup_cons.1 (List.nodup_append.1 nd).2.1).1
    intro hm
    have e2 : head :: (X ++ Y) = (head :: X) ++ Y := by simp
    rw [e2, List.mem_append] at hm
    rcases hm with hm | hm
    · exact h1 hm (by simp)
    · exact h2 hm
  have hlen : (X ++ x :: Y).length ≠ 0 := by simp
  refine ⟨updFree h1 x, ?_, q1.release hxnot, ?_, ?_, ?_, ?_⟩
  · simp only [q_delete_mid, q_size_spec q hsz hf, hlen, Option.bind_eq_bind, Option.some_bind,
      if_false, hwalk, nP, e1, q_release_element_eq hxlive]
    rfl
  · intro a ha; rw [getValue_updFree_ne ha, v1]
  · simp [updFree]
  · intro a ha
    have := lv1 (.addr a)
    simp only [isLive_addr] at this
    simp [updFree, ha, this]
  · intro a ha
    have hax : a ≠ x := fun e => ha (e ▸ hxin)
    have ha2 : a ∉ head :: (X ++ Y) := by
      simp only [List.mem_cons, List.mem_append, not_or] at ha ⊢
      tauto
    obtain ⟨a1, a2⟩ := fr1 a ha2
    have := cell_ext a1 a2 (v1 _)
    simp [updFree, hax, this]

/-! ## Inserting -/

theorem load_updAlloc (h : Heap) (a x : Nat) :
    load (updAlloc h a) (.addr x)
      = if x = a then some ⟨none, .null, .null⟩ else load h (.addr x) := rfl

theorem getNext_updAlloc_ne {h : Heap} {a x : Nat} (hne : x ≠ a) :
    getNext (updAlloc h a) (.addr x) = getNext h (.addr x) := by
  unfold getNext; rw [load_updAlloc, if_neg hne]

theorem getPrev_updAlloc_ne {h : Heap} {a x : Nat} (hne : x ≠ a) :
    getPrev (updAlloc h a) (.addr x) = getPrev h (.addr x) := by
  unfold getPrev; rw [load_updAlloc, if_neg hne]

theorem getValue_updAlloc_ne {h : Heap} {a x : Nat} (hne : x ≠ a) :
    getValue (updAlloc h a) (.addr x) = getValue h (.addr x) := by
  unfold getValue; rw [load_updAlloc, if_neg hne]

theorem isLive_updAlloc (h : Heap) (a x : Nat) :
    isLive (updAlloc h a) (.addr x) = if x = a then true else isLive h (.addr x) := by
  unfold isLive; rw [load_updAlloc]
  by_cases hx : x = a <;> simp [hx]

/-- Linking the live cell `a`, not yet in the queue, right after the sentinel. -/
theorem list_add_spec {h : Heap} {head : Nat} {ps : List Nat} {a : Nat}
    (q : IsQueue h head ps) (ha : a ∉ head :: ps) (hl : isLive h (.addr a) = true)
    (hv : ((getValue h (.addr a)).join).isSome = true) :
    ∃ h', list_add h (.addr a) (.addr head) = some h' ∧ IsQueue h' head (a :: ps) ∧
      (∀ p, getValue h' p = getValue h p) ∧ (∀ p, isLive h' p = isLive h p) ∧
      (∀ x, x ∉ a :: head :: ps → getNext h' (.addr x) = getNext h (.addr x) ∧
        getPrev h' (.addr x) = getPrev h (.addr x)) := by
  obtain ⟨N, B, hN⟩ := exists_cons ps head
  have hc := q.links
  have hlink : Link h head N := by
    have : head :: ps ++ [head] = head :: (ps ++ [head]) := by simp
    rw [this, hN, List.chain'_cons] at hc
    exact hc.1
  obtain ⟨nH, pN⟩ := hlink
  have lH := isLive_of_getNext nH
  have lN := isLive_of_getPrev pN
  obtain ⟨na, hna⟩ := exists_getNext hl
  obtain ⟨pa, hpa⟩ := exists_getPrev hl
  have hNm : N ∈ head :: ps := by
    have : N ∈ ps ++ [head] := by rw [hN]; simp
    simp only [List.mem_append, List.mem_singleton] at this
    rcases this with e | e
    · simp [e]
    · simp [e]
  have aN : a ≠ N := fun e => ha (e ▸ hNm)
  have aH : a ≠ head := fun e => ha (by simp [e])
  refine ⟨updNext (updPrev (updNext (updPrev h N (.addr a)) a (.addr N)) a (.addr head)) head
    (.addr a), ?_, ⟨?_, ?_, ?_⟩, ?_, ?_, ?_⟩
  · simp only [list_add, nH, Option.bind_eq_bind, Option.some_bind, setPrev_eq lN]
    rw [setNext_eq (by simpa using hl)]
    simp only [Option.some_bind]
    rw [setPrev_eq (by simpa using hl)]
    simp only [Option.some_bind]
    exact setNext_eq (by simpa using lH) _
  · have nd := List.nodup_cons.1 q.nodup
    refine List.nodup_cons.2 ⟨?_, List.nodup_cons.2
      ⟨fun hm => ha (List.mem_cons_of_mem _ hm), nd.2⟩⟩
    intro hm
    rcases List.mem_cons.1 hm with e | e
    · exact aH e.symm
    · exact nd.1 e
  · have hc2 : List.Chain' (Link h) (head :: (([] : List Nat) ++ [] ++ ps) ++ [head]) := by
      simpa using hc
    have nd : (head :: (([] : List Nat) ++ [] ++ ps)).Nodup := by simpa using q.nodup
    have := queue_splice (Z := [a]) (A := []) (P := head) nd hc2 rfl hN
      (g := updNext (updPrev (updNext (updPrev h N (.addr a)) a (.addr N)) a (.addr head)) head
        (.addr a)) ?_ ?_ ?_
    · simpa using this
    · simp only [List.cons_append, List.nil_append, List.chain'_cons, List.chain'_singleton,
        and_true]
      refine ⟨⟨?_, ?_⟩, ?_, ?_⟩
      · simp [getNext_updNext, nH, aH.symm]
      · simp [getPrev_updPrev, aN, hpa]
      · simp [getNext_updNext, aH, hna]
      · simp [getPrev_updPrev, aN.symm, pN]
    · intro x hx hxh
      have : x ≠ a := fun e => ha (by simpa [e] using hx)
      simp [getNext_updNext, hxh, this]
    · intro x hx hxn
      have : x ≠ a := fun e => ha (by simpa [e] using hx)
      simp [getPrev_updPrev, hxn, this]
  · intro p hp
    simp only [getValue_updNext, getValue_updPrev]
    rcases List.mem_cons.1 hp with e | e
    · rw [e]; exact hv
    · exact q.vals p e
  · intro p; simp
  · intro p; simp
  · intro x hx
    have h1 : x ≠ a := fun e => hx (by simp [e])
    have h2 : x ≠ head := fun e => hx (by simp [e])
    have h3 : x ≠ N := fun e => hx (by
      rw [e]; exact List.mem_cons_of_mem _ hNm)
    simp [getNext_updNext, getPrev_updPrev, h1, h2, h3]

/-- Linking the live cell `a`, not yet in the queue, right before the sentinel. -/
theorem list_add_tail_spec {h : Heap} {head : Nat} {ps : List Nat} {a : Nat}
    (q : IsQueue h head ps) (ha : a ∉ head :: ps) (hl : isLive h (.addr a) = true)
    (hv : ((getValue h (.addr a)).join).isSome = true) :
    ∃ h', list_add_tail h (.addr a) (.addr head) = some h' ∧ IsQueue h' head (ps ++ [a]) ∧
      (∀ p, getValue h' p = getValue h p) ∧ (∀ p, isLive h' p = isLive h p) ∧
      (∀ x, x ∉ a :: head :: ps → getNext h' (.addr x) = getNext h (.addr x) ∧
        getPrev h' (.addr x) = getPrev h (.addr x)) := by
  obtain ⟨A, P, hP⟩ := exists_concat head ps
  have hc := q.links
  have hlink : Link h P head := by
    rw [hP] at hc
    have := (List.chain'_split.1 (by simpa using hc : List.Chain' (Link h) (A ++ P :: [head]))).2
    simp only [List.chain'_cons, List.chain'_singleton, and_true] at this
    exact this
  obtain ⟨nP, pH⟩ := hlink
  have lP := isLive_of_getNext nP
  have lH := isLive_of_getPrev pH
  obtain ⟨na, hna⟩ := exists_getNext hl
  obtain ⟨pa, hpa⟩ := exists_getPrev hl
  have hPm : P ∈ head :: ps := by rw [hP]; simp
  have aP : a ≠ P := fun e => ha (e ▸ hPm)
  have aH : a ≠ head := fun e => ha (by simp [e])
  refine ⟨updPrev (updPrev (updNext (updNext h P (.addr a)) a (.addr head)) a (.addr P)) head
    (.addr a), ?_, ⟨?_, ?_, ?_⟩, ?_, ?_, ?_⟩
  · simp only [list_add_tail, pH, Option.bind_eq_bind, Option.some_bind, setNext_eq lP]
    rw [setNext_eq (by simpa using hl)]
    simp only [Option.some_bind]
    rw [setPrev_eq (by simpa using hl)]
    simp only [Option.some_bind]
    exact setPrev_eq (by simpa using lH) _
  · have := q.nodup
    have e : head :: (ps ++ [a]) = (head :: ps) ++ [a] := by simp
    rw [e]
    refine List.Nodup.append this (List.nodup_singleton _) ?_
    intro x hx hx2
    simp only [List.mem_singleton] at hx2
    subst hx2
    exact ha hx
  · have hc2 : List.Chain' (Link h) (head :: (ps ++ [] ++ []) ++ [head]) := by
      simpa using hc
    have nd : (head :: (ps ++ [] ++ [])).Nodup := by simpa using q.nodup
    have := queue_splice (Z := [a]) (B := []) (N := head) nd hc2 hP rfl
      (g := updPrev (updPrev (updNext (updNext h P (.addr a)) a (.addr head)) a (.addr P)) head
        (.addr a)) ?_ ?_ ?_
    · simpa using this
    · simp only [List.cons_append, List.nil_append, List.chain'_cons, List.chain'_singleton,
        and_true]
      refine ⟨⟨?_, ?_⟩, ?_, ?_⟩
      · simp [getNext_updNext, aP.symm, nP]
      · simp [getPrev_updPrev, aH, hpa]
      · simp [getNext_updNext, hna, aP]
      · simp [getPrev_updPrev, pH, aH.symm]
    · intro x hx hxp
      have : x ≠ a := fun e => ha (by simpa [e] using hx)
      simp [getNext_updNext, hxp, this]
    · intro x hx hxn
      have : x ≠ a := fun e => ha (by simpa [e] using hx)
      simp [getPrev_updPrev, hxn, this]
  · intro p hp
    simp only [getValue_updNext, getValue_updPrev]
    rcases List.mem_append.1 hp with e | e
    · exact q.vals p e
    · simp only [List.mem_singleton] at e; rw [e]; exact hv
  · intro p; simp
  · intro p; simp
  · intro x hx
    have h1 : x ≠ a := fun e => hx (by simp [e])
    have h2 : x ≠ head := fun e => hx (by simp [e])
    have h3 : x ≠ P := fun e => hx (by
      rw [e]; exact List.mem_cons_of_mem _ hPm)
    simp [getNext_updNext, getPrev_updPrev, h1, h2, h3]

theorem freshCell_next_ne {h : Heap} {a x : Nat} (v : Str) (hne : x ≠ a) :
    getNext (freshCell h a v) (.addr x) = getNext h (.addr x) := by
  simp [freshCell, getNext_updNext, hne, getNext_updAlloc_ne hne]

theorem freshCell_prev_ne {h : Heap} {a x : Nat} (v : Str) (hne : x ≠ a) :
    getPrev (freshCell h a v) (.addr x) = getPrev h (.addr x) := by
  simp [freshCell, getPrev_updPrev, hne, getPrev_updAlloc_ne hne]

theorem freshCell_value_ne {h : Heap} {a x : Nat} (v : Str) (hne : x ≠ a) :
    getValue (freshCell h a v) (.addr x) = getValue h (.addr x) := by
  simp [freshCell, getValue_updValue, hne, getValue_updAlloc_ne hne]

theorem freshCell_value (h : Heap) (a : Nat) (v : Str) :
    getValue (freshCell h a v) (.addr a) = some (some v) := by
  have e : getValue (updAlloc h a) (.addr a) = some none := by
    unfold getValue; rw [load_updAlloc]; simp
  simp only [freshCell, getValue_updPrev, getValue_updNext, getValue_updValue, if_true, e]
  rfl

theorem freshCell_live (h : Heap) (a : Nat) (v : Str) (x : Nat) :
    isLive (freshCell h a v) (.addr x) = if x = a then true else isLive h (.addr x) := by
  simp [freshCell, isLive_updAlloc]

theorem IsQueue.not_mem_of_free {h : Heap} {head : Nat} {ps : List Nat} (q : IsQueue h head ps)
    {a : Nat} (hfree : h.cell a = none) : a ∉ head :: ps := by
  intro hm
  have := q.live a hm
  rw [isLive_addr, hfree] at this
  simp at this

theorem IsQueue.freshCell {h : Heap} {head : Nat} {ps : List Nat} (q : IsQueue h head ps)
    {a : Nat} (hfree : h.cell a = none) (v : Str) : IsQueue (freshCell h a v) head ps := by
  have hn := q.not_mem_of_free hfree
  refine q.congr ?_ ?_ ?_
  · intro x hx; exact freshCell_next_ne v (fun e => hn (e ▸ hx))
  · intro x hx; exact freshCell_prev_ne v (fun e => hn (e ▸ hx))
  · intro x hx; exact freshCell_value_ne v (fun e => hn (e ▸ List.mem_cons_of_mem _ hx))

theorem malloc_init {h : Heap} {a : Nat} (hfree : h.cell a = none) (v : Str) :
    malloc h (.addr a) = some (updAlloc h a, .addr a) ∧
    setValue (updAlloc h a) (.addr a) (some v) = some (updValue (updAlloc h a) a (some v)) ∧
    INIT_LIST_HEAD (updValue (updAlloc h a) a (some v)) (.addr a) = some (freshCell h a v) := by
  have l0 : isLive (updAlloc h a) (.addr a) = true := by simp [isLive_updAlloc]
  refine ⟨by simp [malloc, hfree], setValue_eq l0 _, ?_⟩
  simp only [INIT_LIST_HEAD, Option.bind_eq_bind]
  rw [setNext_eq (by simpa using l0)]
  simp only [Option.some_bind]
  rw [setPrev_eq (by simpa using l0)]
  rfl

/-- What `q_insert_head` does to a well-formed queue when both allocations succeed and
the allocator hands out the unused cell `a`. -/
theorem q_insert_head_spec {h : Heap} {head : Nat} {ps : List Nat} (q : IsQueue h head ps)
    (s : Str) {a : Nat} (hfree : h.cell a = none) :
    ∃ h', q_insert_head h (.addr head) s true (.addr a) = some (h', true) ∧
      IsQueue h' head (a :: ps) ∧
      getValue h' (.addr a) = some (some (copyString s)) ∧
      (∀ x, x ≠ a → getValue h' (.addr x) = getValue h (.addr x)) ∧
      (∀ x, (h'.cell x).isSome = (if x = a then true else (h.cell x).isSome)) ∧
      (∀ x, x ∉ a :: head :: ps → h'.cell x = h.cell x) := by
  obtain ⟨m1, m2, m3⟩ := malloc_init hfree (copyString s)
  have hn := q.not_mem_of_free hfree
  obtain ⟨h', e, q', v, lv, fr⟩ := list_add_spec (q.freshCell hfree (copyString s)) hn
    (by simp [freshCell_live]) (by simp [freshCell_value])
  refine ⟨h', ?_, q', ?_, ?_, ?_, ?_⟩
  · simp only [q_insert_head, reduceCtorEq, if_false, m1, Option.bind_eq_bind,
      Option.some_bind, m2, m3, e]
    rfl
  · rw [v, freshCell_value]
  · intro x hx; rw [v, freshCell_value_ne _ hx]
  · intro x
    have := lv (.addr x)
    rw [freshCell_live] at this
    simpa [isLive_addr] using this
  · intro x hx
    have hxa : x ≠ a := fun e => hx (by simp [e])
    obtain ⟨a1, a2⟩ := fr x hx
    refine cell_ext ?_ ?_ ?_
    · rw [a1, freshCell_next_ne _ hxa]
    · rw [a2, freshCell_prev_ne _ hxa]
    · rw [v, freshCell_value_ne _ hxa]

/-- What `q_insert_tail` does to a well-formed queue when both allocations succeed and
the allocator hands out the unused cell `a`. -/
theorem q_insert_tail_spec {h : Heap} {head : Nat} {ps : List Nat} (q : IsQueue h head ps)
    (s : Str) {a : Nat} (hfree : h.cell a = none) :
    ∃ h', q_insert_tail h (.addr head) s true (.addr a) = some (h', true) ∧
      IsQueue h' head (ps ++ [a]) ∧
      getValue h' (.addr a) = some (some (copyString s)) ∧
      (∀ x, x ≠ a → getValue h' (.addr x) = getValue h (.addr x)) ∧
      (∀ x, (h'.cell x).isSome = (if x = a then true else (h.cell x).isSome)) ∧
      (∀ x, x ∉ a :: head :: ps → h'.cell x = h.cell x) := by
  obtain ⟨m1, m2, m3⟩ := malloc_init hfree (copyString s)
  have hn := q.not_mem_of_free hfree
  obtain ⟨h', e, q', v, lv, fr⟩ := list_add_tail_spec (q.freshCell hfree (copyString s)) hn
    (by simp [freshCell_live]) (by simp [freshCell_value])
  refine ⟨h', ?_, q', ?_, ?_, ?_, ?_⟩
  · simp only [q_insert_tail, reduceCtorEq, if_false, m1, Option.bind_eq_bind,
      Option.some_bind, m2, m3, e]
    rfl
  · rw [v, freshCell_value]
  · intro x hx; rw [v, freshCell_value_ne _ hx]
  · intro x
    have := lv (.addr x)
    rw [freshCell_live] at this
    simpa [isLive_addr] using this
  · intro x hx
    have hxa : x ≠ a := fun e => hx (by simp [e])
    obtain ⟨a1, a2⟩ := fr x hx
    refine cell_ext ?_ ?_ ?_
    · rw [a1, freshCell_next_ne _ hxa]
    · rw [a2, freshCell_prev_ne _ hxa]
    · rw [v, freshCell_value_ne _ hxa]

/-! ## Removing -/

theorem copyOut_isSome {h : Heap} {x : Nat} (hv : ((getValue h (.addr x)).join).isSome = true)
    (sp : Option Buf) (bufsize : Nat) : ∃ sp', copyOut h (.addr x) sp bufsize = some sp' := by
  cases sp with
  | none => exact ⟨none, rfl⟩
  | some buf =>
    cases hg : getValue h (.addr x) with
    | none => simp [hg] at hv
    | some v =>
      cases v with
      | none => simp [hg] at hv
      | some s => simp [copyOut, hg]

/-- What `q_remove_head` does to a non-empty well-formed queue. -/
theorem q_remove_head_spec {h : Heap} {head : Nat} {x : Nat} {Y : List Nat}
    (q : IsQueue h head (x :: Y)) (sp : Option Buf) (bufsize : Nat) :
    ∃ h' sp', q_remove_head h (.addr head) sp bufsize = some (h', .addr x, sp') ∧
      copyOut h (.addr x) sp bufsize = some sp' ∧
      IsQueue h' head Y ∧ (∀ p, getValue h' p = getValue h p) ∧
      (∀ a, (h'.cell a).isSome = (h.cell a).isSome) ∧
      (∀ a, a ∉ head :: Y → getNext h' (.addr a) = getNext h (.addr a) ∧
        getPrev h' (.addr a) = getPrev h (.addr a)) := by
  have hl : Link h head x := by
    have := q.links
    simp only [List.cons_append, List.chain'_cons] at this
    exact this.1
  have hxh : x ≠ head := by
    have := q.nodup
    intro e; simp [e] at this
  obtain ⟨sp', hsp⟩ := copyOut_isSome (q.vals x (by simp)) sp bufsize
  obtain ⟨h', e, q', v, lv, fr⟩ := list_del_spec (X := []) (by simpa using q)
  refine ⟨h', sp', ?_, hsp, by simpa using q', v, isSome_of_isLive lv, by simpa using fr⟩
  simp only [q_remove_head, reduceCtorEq, if_false, list_empty, hl.1, Option.bind_eq_bind,
    Option.some_bind, Option.pure_def, Ptr.addr.injEq, hxh, decide_False, Bool.false_eq_true,
    hsp, e]

/-- What `q_remove_tail` does to a non-empty well-formed queue. -/
theorem q_remove_tail_spec {h : Heap} {head : Nat} {x : Nat} {X : List Nat}
    (q : IsQueue h head (X ++ [x])) (sp : Option Buf) (bufsize : Nat) :
    ∃ h' sp', q_remove_tail h (.addr head) sp bufsize = some (h', .addr x, sp') ∧
      copyOut h (.addr x) sp bufsize = some sp' ∧
      IsQueue h' head X ∧ (∀ p, getValue h' p = getValue h p) ∧
      (∀ a, (h'.cell a).isSome = (h.cell a).isSome) ∧
      (∀ a, a ∉ head :: X → getNext h' (.addr a) = getNext h (.addr a) ∧
        getPrev h' (.addr a) = getPrev h (.addr a)) := by
  obtain ⟨A, P, hP⟩ := exists_concat head X
  obtain ⟨_, hl⟩ := q.links_at (Y := []) hP rfl
  obtain ⟨N, B, hN⟩ := exists_cons (X ++ [x]) head
  have hl2 : Link h head N := by
    have := q.links
    have e : head :: (X ++ [x]) ++ [head] = head :: (X ++ [x] ++ [head]) := by simp
    rw [e, hN, List.chain'_cons] at this
    exact this.1
  have hNh : N ≠ head := by
    have hm : N ∈ X ++ [x] := by
      cases X with
      | nil => simp only [List.nil_append, List.cons_append, List.cons.injEq] at hN; simp [hN.1]
      | cons y X => simp only [List.cons_append, List.cons.injEq] at hN; simp [← hN.1]
    have := (List.nodup_cons.1 q.nodup).1
    intro e; exact this (e ▸ hm)
  obtain ⟨sp', hsp⟩ := copyOut_isSome (q.vals x (by simp)) sp bufsize
  obtain ⟨h', e, q', v, lv, fr⟩ := list_del_spec (Y := []) q
  refine ⟨h', sp', ?_, hsp, by simpa using q', v, isSome_of_isLive lv, by simpa using fr⟩
  simp only [q_remove_tail, reduceCtorEq, if_false, list_empty, hl2.1, Option.bind_eq_bind,
    Option.some_bind, Option.pure_def, Ptr.addr.injEq, hNh, decide_False, Bool.false_eq_true,
    hl.2, hsp, e]

/-! ## The order of `strcmp` -/

theorem copyString_nil : copyString [] = [] := rfl

theorem copyString_cons (a : Nat) (s : Str) :
    copyString (a :: s) = if a = 0 then [] else a :: copyString s := by
  unfold copyString strlen
  by_cases ha : a = 0
  · simp [ha]
  · simp [List.takeWhile_cons, ha]

theorem copyString_of_ne_zero : ∀ (s : Str), (∀ c ∈ s, c ≠ 0) → copyString s = s
  | [], _ => rfl
  | a :: s, hs => by
    rw [copyString_cons, if_neg (hs a (by simp)),
      copyString_of_ne_zero s (fun c hc => hs c (List.mem_cons_of_mem _ hc))]

theorem strcmp_eq_zero_iff : ∀ (a b : Str), strcmp a b = 0 ↔ copyString a = copyString b
  | [], [] => by simp [strcmp]
  | [], b :: bs => by
    simp only [strcmp, copyString_nil, copyString_cons]
    by_cases hb : b = 0
    · simp [hb]
    · simp only [hb, if_false]
      constructor
      · intro h; omega
      · intro h; simp at h
  | a :: as, [] => by
    simp only [strcmp, copyString_nil, copyString_cons]
    by_cases ha : a = 0
    · simp [ha]
    · simp only [ha, if_false]
      constructor
      · intro h; omega
      · intro h; simp at h
  | a :: as, b :: bs => by
    simp only [strcmp, copyString_cons]
    by_cases hab : a = b
    · subst hab
      by_cases ha : a = 0
      · simp [ha]
      · simp [ha, strcmp_eq_zero_iff as bs]
    · simp only [ne_eq, hab, not_false_eq_true, if_true]
      constructor
      · intro h; omega
      · intro h
        by_cases ha : a = 0
        · by_cases hb : b = 0
          · omega
          · simp [ha, hb] at h
        · by_cases hb : b = 0
          · simp [ha, hb] at h
          · simp only [ha, hb, if_false, List.cons.injEq] at h
            exact absurd h.1 hab

theorem strcmp_self (a : Str) : strcmp a a = 0 := (strcmp_eq_zero_iff a a).2 rfl

theorem copyString_idem : ∀ (s : Str), copyString (copyString s) = copyString s
  | [] => rfl
  | a :: s => by
    rw [copyString_cons]
    by_cases ha : a = 0
    · simp [ha, copyString_nil]
    · simp [ha, copyString_cons, copyString_idem s]

theorem strcmp_copyString (s : Str) : strcmp (copyString s) s = 0 :=
  (strcmp_eq_zero_iff _ _).2 (copyString_idem s)

theorem strcmp_swap : ∀ (a b : Str), strcmp b a = - strcmp a b
  | [], [] => by simp [strcmp]
  | [], b :: bs => by simp [strcmp]
  | a :: as, [] => by simp [strcmp]
  | a :: as, b :: bs => by
    simp only [strcmp]
    by_cases hab : a = b
    · subst hab
      by_cases ha : a = 0
      · simp [ha]
      · simp [ha, strcmp_swap as bs]
    · have hba : ¬ b = a := fun e => hab e.symm
      simp only [ne_eq, hab, hba, not_false_eq_true, if_true]
      omega

theorem strcmp_le_trans : ∀ (a b c : Str), strcmp a b ≤ 0 → strcmp b c ≤ 0 → strcmp a c ≤ 0
  | [], _, [], _, _ => by simp [strcmp]
  | [], _, c :: cs, _, _ => by simp only [strcmp]; omega
  | a :: as, [], [], h1, _ => by simpa [strcmp] using h1
  | a :: as, [], c :: cs, h1, h2 => by
    simp only [strcmp] at h1 h2 ⊢
    have ha : a = 0 := by omega
    subst ha
    by_cases hc : 0 = c
    · subst hc; simp
    · simp only [ne_eq, hc, not_false_eq_true, if_true]; omega
  | a :: as, b :: bs, [], h1, h2 => by
    simp only [strcmp] at h1 h2 ⊢
    have hb : b = 0 := by omega
    subst hb
    by_cases ha : a = 0
    · subst ha; simp
    · simp only [ne_eq, ha, not_false_eq_true, if_true] at h1; omega
  | a :: as, b :: bs, c :: cs, h1, h2 => by
    simp only [strcmp] at h1 h2 ⊢
    by_cases hab : a = b
    · subst hab
      by_cases hac : a = c
      · subst hac
        by_cases ha : a = 0
        · simp [ha]
        · simp only [ne_eq, not_true_eq_false, if_false, ha] at h1 h2 ⊢
          exact strcmp_le_trans as bs cs h1 h2
      · simp only [ne_eq, hac, not_false_eq_true, if_true] at h2 ⊢
        exact h2
    · simp only [ne_eq, hab, not_false_eq_true, if_true] at h1
      by_cases hbc : b = c
      · subst hbc
        simp only [ne_eq, hab, not_false_eq_true, if_true]
        exact h1
      · simp only [ne_eq, hbc, not_false_eq_true, if_true] at h2
        have hac : ¬ a = c := by omega
        simp only [ne_eq, hac, not_false_eq_true, if_true]
        omega

theorem strcmp_total (a b : Str) : strcmp a b ≤ 0 ∨ strcmp b a ≤ 0 := by
  rw [strcmp_swap a b]; omega

theorem strcmp_eq_zero_of_le {a b : Str} (h1 : strcmp a b ≤ 0) (h2 : strcmp b a ≤ 0) :
    strcmp a b = 0 := by
  rw [strcmp_swap a b] at h2; omega

/-! ## Splitting a chain in `merge_sort` -/

theorem Path.head {h : Heap} {p e : Ptr} {xs : List Nat} (hp : Path h p xs e) (hx : xs ≠ []) :
    p = hdPtr xs := by
  cases xs with
  | nil => exact absurd rfl hx
  | cons x xs => exact hp.1

theorem Path.null_head {h : Heap} {p : Ptr} {xs : List Nat} (hp : Path h p xs .null) :
    p = hdPtr xs := by
  cases xs with
  | nil => exact hp
  | cons x xs => exact hp.1

theorem Path.drop {h : Heap} {p e : Ptr} {xs : List Nat} (hp : Path h p xs e) (k : Nat) :
    ∃ m, Path h p (xs.take k) m ∧ Path h m (xs.drop k) e := by
  have := hp
  rw [← List.take_append_drop k xs] at this
  exact Path.split this

theorem merge_sort_walk_spec {h : Heap} : ∀ (F S : List Nat) (slow fast : Ptr) (fuel : Nat),
    Path h slow S .null → Path h fast F .null → F.length / 2 < S.length → F.length / 2 < fuel →
    merge_sort_walk fuel h slow fast = some (hdPtr (S.drop (F.length / 2)))
  | [], S, slow, fast, fuel, hs, hf, _, hfu => by
    cases fuel with
    | zero => simp at hfu
    | succ fuel =>
      cases hf
      simp only [merge_sort_walk, if_true, List.length_nil, Nat.zero_div, List.drop_zero]
      rw [hs.null_head]
  | [f], S, slow, fast, fuel, hs, hf, _, hfu => by
    cases fuel with
    | zero => exact absurd hfu (Nat.not_lt_zero _)
    | succ fuel =>
      obtain ⟨hf1, nx, hn, hr⟩ := hf
      cases hr
      subst hf1
      simp only [merge_sort_walk, reduceCtorEq, if_false, hn, Option.bind_eq_bind,
        Option.some_bind, if_true, List.length_singleton, Nat.reduceDiv, List.drop_zero]
      rw [hs.null_head]; rfl
  | f :: g :: F, S, slow, fast, fuel, hs, hf, hlen, hfu => by
    have e : (f :: g :: F).length / 2 = F.length / 2 + 1 := by
      simp only [List.length_cons]; omega
    rw [e] at hlen hfu ⊢
    cases fuel with
    | zero => simp at hfu
    | succ fuel =>
      obtain ⟨hf1, nx, hn, hg1, nx2, hn2, hr⟩ := hf
      subst hf1; subst hg1
      cases S with
      | nil => simp at hlen
      | cons s S =>
        obtain ⟨hs1, ns, hns, hsr⟩ := hs
        subst hs1
        simp only [merge_sort_walk, reduceCtorEq, if_false, hn, Option.bind_eq_bind,
          Option.some_bind, hns, hn2, Option.pure_def, List.drop_succ_cons]
        exact merge_sort_walk_spec F S ns nx2 fuel hsr hr
          (by simp only [List.length_cons] at hlen; omega) (by omega)

/-- Cutting a chain after the cell `x`. -/
theorem Path.cut {h : Heap} {p e : Ptr} : ∀ {A : List Nat} {x : Nat} (q : Ptr),
    Path h p (A ++ [x]) e → x ∉ A → Path (updNext h x q) p (A ++ [x]) q
  | [], x, q, ⟨hx, nx, hn, _⟩, _ => by
    refine ⟨hx, q, ?_, rfl⟩
    simp [getNext_updNext, hn]
  | a :: A, x, q, ⟨ha, nx, hn, hr⟩, hnot => by
    have hax : a ≠ x := fun e => hnot (by simp [e])
    refine ⟨ha, nx, ?_, Path.cut q hr (fun hm => hnot (List.mem_cons_of_mem _ hm))⟩
    simp [getNext_updNext, hax, hn]

theorem Path.cells_live {h : Heap} : ∀ {xs : List Nat} {p e : Ptr}, Path h p xs e →
    ∀ x ∈ xs, isLive h (.addr x) = true
  | [], _, _, _, x, hx => by simp at hx
  | a :: xs, _, _, ⟨_, nx, hn, hr⟩, x, hx => by
    rcases List.mem_cons.1 hx with e | e
    · rw [e]; exact isLive_of_getNext hn
    · exact Path.cells_live hr x e

/-- The effect of the walk and the cut of `merge_sort` on a chain of two or more
cells: the first `⌈n/2⌉` cells and the remaining cells become two chains. -/
theorem merge_sort_split {h : Heap} {p : Ptr} {xs : List Nat} (hp : Path h p xs .null)
    (nd : xs.Nodup) (hlen : 2 ≤ xs.length) {fuel : Nat} (hfu : xs.length ≤ fuel) :
    ∃ slow fast x, getNext h p = some fast ∧ merge_sort_walk fuel h p fast = some slow ∧
      slow = .addr x ∧ x ∈ xs.take ((xs.length + 1) / 2) ∧
      getNext h slow = some (hdPtr (xs.drop ((xs.length + 1) / 2))) ∧
      Path (updNext h x .null) p (xs.take ((xs.length + 1) / 2)) .null ∧
      Path (updNext h x .null) (hdPtr (xs.drop ((xs.length + 1) / 2)))
        (xs.drop ((xs.length + 1) / 2)) .null := by
  obtain ⟨a, b, r, rfl⟩ : ∃ a b r, xs = a :: b :: r := by
    match xs, hlen with
    | a :: b :: r, _ => exact ⟨a, b, r, rfl⟩
  obtain ⟨hp1, nx, hn, hr⟩ := hp
  subst hp1
  have hk : (b :: r).length / 2 + 1 = ((a :: b :: r).length + 1) / 2 := by
    simp only [List.length_cons]; omega
  have hw := merge_sort_walk_spec (b :: r) (a :: b :: r) (.addr a) nx fuel ⟨rfl, nx, hn, hr⟩ hr
    (by simp only [List.length_cons]; omega) (by simp only [List.length_cons] at hfu ⊢; omega)
  set k := (b :: r).length / 2 with hkdef
  have hklt : k < (a :: b :: r).length := by
    simp only [List.length_cons] at hkdef ⊢; omega
  -- the chain splits as `A ++ [x] ++ rest`
  have hsplit : (a :: b :: r) = (a :: b :: r).take k ++ (a :: b :: r)[k] ::
      (a :: b :: r).drop (k + 1) := by
    rw [← List.drop_eq_getElem_cons hklt, List.take_append_drop]
  have htake : (a :: b :: r).take (k + 1) = (a :: b :: r).take k ++ [(a :: b :: r)[k]] := by
    rw [List.take_succ, List.getElem?_eq_getElem hklt]; rfl
  have hdrop : (a :: b :: r).drop k = (a :: b :: r)[k] :: (a :: b :: r).drop (k + 1) :=
    List.drop_eq_getElem_cons hklt
  set x := (a :: b :: r)[k] with hx
  have hpath : Path h (.addr a) (a :: b :: r) .null := ⟨rfl, nx, hn, hr⟩
  obtain ⟨m, p1, p2⟩ := hpath.drop (k + 1)
  rw [htake] at p1
  have hm : m = hdPtr ((a :: b :: r).drop (k + 1)) := p2.null_head
  have hxnext : getNext h (.addr x) = some m := by
    obtain ⟨m', q1, q2⟩ := Path.split p1
    obtain ⟨hm', nx', hn', hr'⟩ := q2
    cases hr'
    exact hn'
  have hnd : (a :: b :: r).Nodup := nd
  rw [hsplit] at hnd
  have hxA : x ∉ (a :: b :: r).take k := by
    intro hmem
    exact (List.nodup_append.1 hnd).2.2 hmem (by simp)
  have hxB : x ∉ (a :: b :: r).drop (k + 1) := by
    have := (List.nodup_append.1 hnd).2.1
    exact (List.nodup_cons.1 this).1
  refine ⟨.addr x, nx, x, hn, ?_, rfl, ?_, ?_, ?_, ?_⟩
  · rw [hw, hdrop]; rfl
  · rw [← hk, htake]; simp
  · rw [← hk, hxnext, hm]
  · rw [← hk, htake]
    exact Path.cut .null p1 hxA
  · rw [← hk, ← hm]
    refine Path.frame p2 ?_
    intro y hy
    have : y ≠ x := fun e => hxB (e ▸ hy)
    simp [getNext_updNext, this]

/-! ## Merging two chains -/

theorem q_merge_append_spec {h : Heap} {res nh : Ptr} {D : List Nat} {x : Nat}
    (hb : Built h res nh D) (hx : x ∉ D) (nd : D.Nodup) (hl : isLive h (.addr x) = true) :
    ∃ h' res', q_merge_append h (.addr x) nh res = some (h', .addr x, res') ∧
      Built h' res' (.addr x) (D ++ [x]) ∧
      (∀ y, y ∉ D → getNext h' (.addr y) = getNext h (.addr y)) ∧
      (∀ p, getPrev h' p = getPrev h p) ∧ (∀ p, getValue h' p = getValue h p) ∧
      (∀ p, isLive h' p = isLive h p) := by
  rcases hb with ⟨hD, hres, hnh⟩ | ⟨D0, n, hD, hnh, hpath, hn⟩
  · subst hD; subst hres; subst hnh
    refine ⟨h, .addr x, by simp [q_merge_append], Or.inr ⟨[], x, rfl, rfl, rfl, hl⟩,
      fun _ _ => rfl, fun _ => rfl, fun _ => rfl, fun _ => rfl⟩
  · subst hD; subst hnh
    have hnD0 : n ∉ D0 := by
      intro hm
      exact (List.nodup_append.1 nd).2.2 hm (by simp)
    have hxn : x ≠ n := fun e => hx (by simp [e])
    obtain ⟨r, hr⟩ := exists_getNext hn
    refine ⟨updNext h n (.addr x), res, ?_, Or.inr ⟨D0 ++ [n], x, rfl, rfl, ?_, by simpa using hl⟩,
      ?_, fun _ => by simp, fun _ => by simp, fun _ => by simp⟩
    · simp only [q_merge_append, reduceCtorEq, if_false, setNext_eq hn, Option.bind_eq_bind,
        Option.some_bind, getNext_updNext, if_true, hr, Option.map_some']
      rfl
    · refine Path.append (Path.frame hpath ?_) ⟨rfl, .addr x, ?_, rfl⟩
      · intro y hy
        have : y ≠ n := fun e => hnD0 (e ▸ hy)
        simp [getNext_updNext, this]
      · simp [getNext_updNext, hr]
    · intro y hy
      have : y ≠ n := fun e => hy (by simp [e])
      simp [getNext_updNext, this]

theorem Built.finish {h : Heap} {res : Ptr} {D0 : List Nat} {n : Nat} {L : List Nat} {l : Ptr}
    (hpath : Path h res D0 (.addr n)) (hn : isLive h (.addr n) = true)
    (hl : Path h l L .null) (nd : (D0 ++ [n] ++ L).Nodup) :
    Path (updNext h n l) res (D0 ++ [n] ++ L) .null := by
  obtain ⟨r, hr⟩ := exists_getNext hn
  have nd1 := List.nodup_append.1 nd
  have hnD0 : n ∉ D0 := fun hm => (List.nodup_append.1 nd1.1).2.2 hm (by simp)
  have hnL : n ∉ L := fun hm => nd1.2.2 (by simp) hm
  refine Path.append (Path.append (Path.frame hpath ?_) ⟨rfl, l, ?_, rfl⟩) (Path.frame hl ?_)
  · intro y hy
    have : y ≠ n := fun e => hnD0 (e ▸ hy)
    simp [getNext_updNext, this]
  · simp [getNext_updNext, hr]
  · intro y hy
    have : y ≠ n := fun e => hnL (e ▸ hy)
    simp [getNext_updNext, this]

theorem hdPtr_ne_null {x : Nat} {L : List Nat} : hdPtr (x :: L) ≠ .null := by
  simp [hdPtr]

theorem q_merge_loop_spec (key : Nat → Str) : ∀ (n : Nat) (L1 L2 D : List Nat) (h : Heap)
    (l1 l2 nh res : Ptr) (fuel : Nat), L1.length + L2.length = n →
    Path h l1 L1 .null → Path h l2 L2 .null → Built h res nh D → (D ++ L1 ++ L2).Nodup →
    (∀ x ∈ L1 ++ L2, getValue h (.addr x) = some (some (key x))) →
    (L1 ≠ [] ∨ L2 ≠ []) → (D ≠ [] ∨ (L1 ≠ [] ∧ L2 ≠ [])) → n < fuel →
    ∃ h1 l1' l2' nh' res' h2,
      q_merge_loop fuel h l1 l2 nh res = some (h1, l1', l2', nh', res') ∧
      q_merge_tail h1 l1' l2' nh' = some h2 ∧
      Path h2 res' (D ++ List.merge L1 L2 (cellLe key)) .null ∧
      (∀ y, y ∉ D ++ L1 ++ L2 → getNext h2 (.addr y) = getNext h (.addr y)) ∧
      (∀ p, getPrev h2 p = getPrev h p) ∧ (∀ p, getValue h2 p = getValue h p) ∧
      (∀ p, isLive h2 p = isLive h p) := by
  intro n
  induction n with
  | zero =>
    intro L1 L2 D h l1 l2 nh res fuel hn _ _ _ _ _ hne _ _
    have h1 : L1 = [] := List.length_eq_zero.1 (by omega)
    have h2 : L2 = [] := List.length_eq_zero.1 (by omega)
    rcases hne with e | e
    · exact absurd h1 e
    · exact absurd h2 e
  | succ n ih =>
    intro L1 L2 D h l1 l2 nh res fuel hn hp1 hp2 hb nd hv hne hD hfu
    cases fuel with
    | zero => simp at hfu
    | succ fuel =>
      have e1 := hp1.null_head
      have e2 := hp2.null_head
      subst e1; subst e2
      cases L1 with
      | nil =>
        -- only `L2` is left
        cases L2 with
        | nil => simp at hne
        | cons y L2 =>
          rcases hb with ⟨hDn, _, _⟩ | ⟨D0, m, hDm, hnh, hpath, hm⟩
          · rcases hD with e | e
            · exact absurd hDn e
            · exact absurd rfl e.1
          · subst hDm; subst hnh
            refine ⟨h, hdPtr [], hdPtr (y :: L2), .addr m, res, updNext h m (hdPtr (y :: L2)),
              ?_, ?_, ?_, ?_, ?_, ?_, ?_⟩
            · simp [q_merge_loop, hdPtr]
            · simp only [q_merge_tail, hdPtr, ne_eq, not_true_eq_false, if_false, reduceCtorEq,
                not_false_eq_true, if_true]
              exact setNext_eq hm _
            · simp only [List.nil_merge]
              exact Built.finish hpath hm hp2 (by simpa using nd)
            · intro z hz
              have : z ≠ m := fun e => hz (by simp [e])
              simp [getNext_updNext, this]
            · intro p; simp
            · intro p; simp
            · intro p; simp
      | cons x L1 =>
        cases L2 with
        | nil =>
          rcases hb with ⟨hDn, _, _⟩ | ⟨D0, m, hDm, hnh, hpath, hm⟩
          · rcases hD with e | e
            · exact absurd hDn e
            · exact absurd rfl e.2
          · subst hDm; subst hnh
            refine ⟨h, hdPtr (x :: L1), hdPtr [], .addr m, res, updNext h m (hdPtr (x :: L1)),
              ?_, ?_, ?_, ?_, ?_, ?_, ?_⟩
            · simp [q_merge_loop, hdPtr]
            · simp only [q_merge_tail, hdPtr, ne_eq, reduceCtorEq, not_false_eq_true, if_true]
              exact setNext_eq hm _
            · simp only [List.merge_right]
              exact Built.finish hpath hm hp1 (by simpa using nd)
            · intro z hz
              have : z ≠ m := fun e => hz (by simp [e])
              simp [getNext_updNext, this]
            · intro p; simp
            · intro p; simp
            · intro p; simp
        | cons y L2 =>
          obtain ⟨_, nx1, hn1, hr1⟩ := hp1
          obtain ⟨_, nx2, hn2, hr2⟩ := hp2
          have hvx := hv x (by simp)
          have hvy := hv y (by simp)
          have ndD : D.Nodup := (List.nodup_append.1 (List.nodup_append.1 nd).1).1
          have hd1 : ∀ z, z ∈ D → z ∈ x :: L1 → False :=
            fun z a b => (List.nodup_append.1 (List.nodup_append.1 nd).1).2.2 a b
          have hd2 : ∀ z, z ∈ D ++ x :: L1 → z ∈ y :: L2 → False :=
            fun z a b => (List.nodup_append.1 nd).2.2 a b
          have hxD : x ∉ D := fun hm => hd1 x hm (by simp)
          have hyD : y ∉ D := fun hm => hd2 y (by simp [hm]) (by simp)
          by_cases hc : strcmp (key x) (key y) > 0
          · -- the head of `L2` goes first
            obtain ⟨h', res', ea, hb', fn, fp, fv, fl⟩ :=
              q_merge_append_spec hb hyD ndD (isLive_of_getNext hn2)
            have hn2' : getNext h' (.addr y) = some nx2 := by rw [fn y hyD]; exact hn2
            have hp1' : Path h' (.addr x) (x :: L1) .null := by
              refine Path.frame (h := h) ⟨rfl, nx1, hn1, hr1⟩ ?_
              intro z hz
              refine fn z ?_
              intro hm
              exact hd1 z hm hz
            have hp2' : Path h' nx2 L2 .null := by
              refine Path.frame hr2 ?_
              intro z hz
              refine fn z ?_
              intro hm
              exact hd2 z (by simp [hm]) (List.mem_cons_of_mem _ hz)
            have nd' : ((D ++ [y]) ++ (x :: L1) ++ L2).Nodup := by
              refine nd.perm ?_
              simp only [List.append_assoc, List.singleton_append, List.cons_append]
              refine List.Perm.append_left D ?_
              have := @List.perm_middle _ y (x :: L1) L2
              simpa using this
            obtain ⟨h1, l1', l2', nh', res2, h2, el, et, pth, gn, gp, gv, gl⟩ :=
              ih (x :: L1) L2 (D ++ [y]) h' (.addr x) nx2 (.addr y) res' fuel
                (by simp only [List.length_cons] at hn ⊢; omega) hp1' hp2' hb' nd'
                (by
                  intro z hz
                  rw [fv]
                  exact hv z (by
                    simp only [List.mem_append, List.mem_cons] at hz ⊢
                    tauto))
                (Or.inl (by simp)) (Or.inl (by simp)) (by omega)
            have hle : cellLe key x y = false := by
              simp only [cellLe, decide_eq_false_iff_not]; omega
            refine ⟨h1, l1', l2', nh', res2, h2, ?_, et, ?_, ?_, ?_, ?_, ?_⟩
            · simp only [q_merge_loop, hdPtr, ne_eq, reduceCtorEq, not_false_eq_true, and_self,
                if_true, hvx, hvy, strcmpPtr, Option.bind_eq_bind, Option.some_bind, hc, ea, hn2']
              exact el
            · rw [List.cons_merge_cons_neg _ _ _ (by simp [hle])]
              simpa using pth
            · intro z hz
              rw [gn z (by
                simp only [List.mem_append, List.mem_cons, List.mem_singleton, not_or,
                  List.not_mem_nil, or_false] at hz ⊢
                tauto)]
              exact fn z (by
                simp only [List.mem_append, not_or] at hz
                tauto)
            · intro p; rw [gp, fp]
            · intro p; rw [gv, fv]
            · intro p; rw [gl, fl]
          · -- the head of `L1` goes first
            obtain ⟨h', res', ea, hb', fn, fp, fv, fl⟩ :=
              q_merge_append_spec hb hxD ndD (isLive_of_getNext hn1)
            have hn1' : getNext h' (.addr x) = some nx1 := by rw [fn x hxD]; exact hn1
            have hp1' : Path h' nx1 L1 .null := by
              refine Path.frame hr1 ?_
              intro z hz
              refine fn z ?_
              intro hm
              exact hd1 z hm (List.mem_cons_of_mem _ hz)
            have hp2' : Path h' (.addr y) (y :: L2) .null := by
              refine Path.frame (h := h) ⟨rfl, nx2, hn2, hr2⟩ ?_
              intro z hz
              refine fn z ?_
              intro hm
              exact hd2 z (by simp [hm]) hz
            have nd' : ((D ++ [x]) ++ L1 ++ (y :: L2)).Nodup := by
              simpa using nd
            obtain ⟨h1, l1', l2', nh', res2, h2, el, et, pth, gn, gp, gv, gl⟩ :=
              ih L1 (y :: L2) (D ++ [x]) h' nx1 (.addr y) (.addr x) res' fuel
                (by simp only [List.length_cons] at hn ⊢; omega) hp1' hp2' hb' nd'
                (by
                  intro z hz
                  rw [fv]
                  exact hv z (by
                    simp only [List.mem_append, List.mem_cons] at hz ⊢
                    tauto))
                (Or.inr (by simp)) (Or.inl (by simp)) (by omega)
            have hle : cellLe key x y = true := by
              simp only [cellLe, decide_eq_true_eq]; omega
            refine ⟨h1, l1', l2', nh', res2, h2, ?_, et, ?_, ?_, ?_, ?_, ?_⟩
            · simp only [q_merge_loop, hdPtr, ne_eq, reduceCtorEq, not_false_eq_true, and_self,
                if_true, hvx, hvy, strcmpPtr, Option.bind_eq_bind, Option.some_bind, hc, if_false,
                ea, hn1']
              exact el
            · rw [List.cons_merge_cons_pos _ _ _ hle]
              simpa using pth
            · intro z hz
              rw [gn z (by
                simp only [List.mem_append, List.mem_cons, List.mem_singleton, not_or,
                  List.not_mem_nil, or_false] at hz ⊢
                tauto)]
              exact fn z (by
                simp only [List.mem_append, not_or] at hz
                tauto)
            · intro p; rw [gp, fp]
            · intro p; rw [gv, fv]
            · intro p; rw [gl, fl]

/-- What `q_merge` does to two non-empty disjoint chains. -/
theorem q_merge_spec (key : Nat → Str) {h : Heap} {l1 l2 : Ptr} {L1 L2 : List Nat}
    (hp1 : Path h l1 L1 .null) (hp2 : Path h l2 L2 .null) (h1 : L1 ≠ []) (h2 : L2 ≠ [])
    (nd : (L1 ++ L2).Nodup)
    (hv : ∀ x ∈ L1 ++ L2, getValue h (.addr x) = some (some (key x)))
    {fuel : Nat} (hfu : L1.length + L2.length < fuel) :
    ∃ h' r, q_merge fuel h l1 l2 = some (h', r) ∧
      Path h' r (List.merge L1 L2 (cellLe key)) .null ∧
      (∀ y, y ∉ L1 ++ L2 → getNext h' (.addr y) = getNext h (.addr y)) ∧
      (∀ p, getPrev h' p = getPrev h p) ∧ (∀ p, getValue h' p = getValue h p) ∧
      (∀ p, isLive h' p = isLive h p) := by
  obtain ⟨g1, a1, a2, nh, res, g2, el, et, pth, gn, gp, gv, gl⟩ :=
    q_merge_loop_spec key _ L1 L2 [] h l1 l2 .null .null fuel rfl hp1 hp2
      (Or.inl ⟨rfl, rfl, rfl⟩) (by simpa using nd) hv (Or.inl h1) (Or.inr ⟨h1, h2⟩) hfu
  refine ⟨g2, res, ?_, by simpa using pth, by simpa using gn, gp, gv, gl⟩
  simp only [q_merge, el, Option.bind_eq_bind, Option.some_bind, et]
  rfl

theorem mergeSort_unfold (le : Nat → Nat → Bool) (a b : Nat) (r : List Nat) :
    List.mergeSort (a :: b :: r) le
      = List.merge
          (List.mergeSort ((a :: b :: r).take (((a :: b :: r).length + 1) / 2)) le)
          (List.mergeSort ((a :: b :: r).drop (((a :: b :: r).length + 1) / 2)) le) le := by
  rw [List.mergeSort]
  simp only [List.splitInTwo_fst, List.splitInTwo_snd, List.length_cons]

theorem merge_sort_spec (key : Nat → Str) : ∀ (fuel : Nat) (xs : List Nat) (h : Heap) (p : Ptr),
    Path h p xs .null → xs.Nodup →
    (∀ x ∈ xs, getValue h (.addr x) = some (some (key x))) → xs.length + 1 < fuel →
    ∃ h' r, merge_sort fuel h p = some (h', r) ∧
      Path h' r (List.mergeSort xs (cellLe key)) .null ∧
      (∀ y, y ∉ xs → getNext h' (.addr y) = getNext h (.addr y)) ∧
      (∀ q, getPrev h' q = getPrev h q) ∧ (∀ q, getValue h' q = getValue h q) ∧
      (∀ q, isLive h' q = isLive h q) := by
  intro fuel
  induction fuel with
  | zero => intro xs h p _ _ _ hfu; simp at hfu
  | succ fuel ih =>
    intro xs h p hp nd hv hfu
    match xs, hp, nd, hv, hfu with
    | [], hp, _, _, _ =>
      cases hp
      exact ⟨h, .null, by simp [merge_sort], by simp [Path], fun _ _ => rfl, fun _ => rfl,
        fun _ => rfl, fun _ => rfl⟩
    | [a], hp, _, _, _ =>
      obtain ⟨hp1, nx, hn, hr⟩ := hp
      cases hr
      subst hp1
      refine ⟨h, .addr a, by simp [merge_sort, hn], ?_, fun _ _ => rfl, fun _ => rfl,
        fun _ => rfl, fun _ => rfl⟩
      rw [List.mergeSort_singleton]
      exact ⟨rfl, .null, hn, rfl⟩
    | a :: b :: r, hp, nd, hv, hfu =>
      obtain ⟨slow, fast, x, e1, e2, e3, hxm, e4, pA, pB⟩ :=
        merge_sort_split hp nd (by simp) (show (a :: b :: r).length ≤ fuel by
          simp only [List.length_cons] at hfu ⊢; omega)
      subst e3
      have hpa : p = .addr a := hp.1
      have hfast : fast = .addr b := by
        obtain ⟨_, nx, hn, hb, _⟩ := hp
        rw [hpa, hn] at e1
        rw [← Option.some.inj e1]; exact hb
      have elen : ((a :: b :: r).length + 1) / 2 = (r.length + 3) / 2 := by
        simp only [List.length_cons]
      rw [elen] at hxm e4 pA pB
      have hlen : (a :: b :: r).length = r.length + 2 := rfl
      obtain ⟨k, hk⟩ : ∃ k, k = (r.length + 3) / 2 := ⟨_, rfl⟩
      rw [← hk] at hxm e4 pA pB
      obtain ⟨A, hA⟩ : ∃ A, A = (a :: b :: r).take k := ⟨_, rfl⟩
      obtain ⟨B, hB⟩ : ∃ B, B = (a :: b :: r).drop k := ⟨_, rfl⟩
      rw [← hA] at hxm pA
      rw [← hB] at e4 pB
      have hAB : A ++ B = a :: b :: r := by rw [hA, hB]; exact List.take_append_drop _ _
      have hAlen : A.length = k := by
        rw [hA, List.length_take, hlen]; omega
      have hBlen : B.length = r.length + 2 - k := by rw [hB, List.length_drop, hlen]
      rw [hlen] at hfu
      have ndAB : (A ++ B).Nodup := by rw [hAB]; exact nd
      have ndA : A.Nodup := (List.nodup_append.1 ndAB).1
      have ndB : B.Nodup := (List.nodup_append.1 ndAB).2.1
      have hdis : ∀ z, z ∈ A → z ∈ B → False := fun z u v => (List.nodup_append.1 ndAB).2.2 u v
      have hxlive : isLive h (.addr x) = true := by
        exact isLive_of_getNext e4
      have vA : ∀ z ∈ A, getValue (updNext h x .null) (.addr z) = some (some (key z)) := by
        intro z hz
        rw [getValue_updNext]
        exact hv z (by rw [← hAB]; simp [hz])
      -- first half
      obtain ⟨g1, r1, s1, q1, n1, p1, v1, l1⟩ := ih A (updNext h x .null) p pA ndA vA
        (by omega)
      have pB1 : Path g1 (hdPtr B) B .null := by
        refine Path.frame pB ?_
        intro z hz
        exact n1 z (fun hm => hdis z hm hz)
      have vB : ∀ z ∈ B, getValue g1 (.addr z) = some (some (key z)) := by
        intro z hz
        rw [v1, getValue_updNext]
        exact hv z (by rw [← hAB]; simp [hz])
      -- second half
      obtain ⟨g2, r2, s2, q2, n2, p2, v2, l2⟩ := ih B g1 (hdPtr B) pB1 ndB vB
        (by omega)
      have permA := List.mergeSort_perm A (cellLe key)
      have permB := List.mergeSort_perm B (cellLe key)
      have q1' : Path g2 r1 (List.mergeSort A (cellLe key)) .null := by
        refine Path.frame q1 ?_
        intro z hz
        exact n2 z (fun hm => hdis z (permA.mem_iff.1 hz) hm)
      have hne1 : List.mergeSort A (cellLe key) ≠ [] := by
        intro e
        have := congrArg List.length e
        rw [List.length_mergeSort, hAlen] at this
        simp only [List.length_nil] at this; omega
      have hne2 : List.mergeSort B (cellLe key) ≠ [] := by
        intro e
        have := congrArg List.length e
        rw [List.length_mergeSort, hBlen] at this
        simp only [List.length_nil] at this; omega
      have ndM : (List.mergeSort A (cellLe key) ++ List.mergeSort B (cellLe key)).Nodup :=
        (List.Perm.append permA permB).nodup_iff.2 ndAB
      have vM : ∀ z ∈ List.mergeSort A (cellLe key) ++ List.mergeSort B (cellLe key),
          getValue g2 (.addr z) = some (some (key z)) := by
        intro z hz
        rw [v2, v1, getValue_updNext]
        refine hv z ?_
        rw [← hAB]
        exact (List.Perm.append permA permB).mem_iff.1 hz
      obtain ⟨g3, r3, s3, q3, n3, p3, v3, l3⟩ := q_merge_spec key q1' q2 hne1 hne2 ndM vM
        (show _ < fuel by
          rw [List.length_mergeSort, List.length_mergeSort, hAlen, hBlen]
          omega)
      refine ⟨g3, r3, ?_, ?_, ?_, ?_, ?_, ?_⟩
      · have hnb : getNext h p = some (.addr b) := by rw [e1, hfast]
        simp only [merge_sort, hpa, reduceCtorEq, if_false, Option.bind_eq_bind]
        rw [hpa] at hnb e2 s1
        simp only [hnb, Option.some_bind, reduceCtorEq, if_false, Option.pure_def]
        rw [← hfast, e2]
        simp only [Option.some_bind, e4, setNext_eq hxlive, s1, s2, s3]
      · rw [mergeSort_unfold, elen, ← hk, ← hA, ← hB]; exact q3
      · intro y hy
        have hyA : y ∉ A := fun hm => hy (by rw [← hAB]; simp [hm])
        have hyB : y ∉ B := fun hm => hy (by rw [← hAB]; simp [hm])
        rw [n3 y (fun hm => by
          rcases List.mem_append.1 hm with u | u
          · exact hyA (permA.mem_iff.1 u)
          · exact hyB (permB.mem_iff.1 u)), n2 y hyB, n1 y hyA]
        have : y ≠ x := fun e => hyA (e ▸ hxm)
        simp [getNext_updNext, this]
      · intro q; rw [p3, p2, p1]; simp
      · intro q; rw [v3, v2, v1]; simp
      · intro q; rw [l3, l2, l1]; simp

/-! ## Closing the circle again in `q_sort` -/

theorem chain_next_of_path {h : Heap} : ∀ (xs : List Nat) (a e : Nat),
    Path h (.addr a) (a :: xs) (.addr e) →
    List.Chain' (fun u v => getNext h (.addr u) = some (.addr v)) (a :: xs ++ [e])
  | [], a, e, ⟨_, nx, hn, hr⟩ => by
    cases hr
    simp only [List.cons_append, List.nil_append, List.chain'_cons, List.chain'_singleton,
      and_true]
    exact hn
  | b :: xs, a, e, ⟨_, nx, hn, hb, hr⟩ => by
    subst hb
    simp only [List.cons_append, List.chain'_cons]
    exact ⟨hn, by simpa using chain_next_of_path xs b e ⟨rfl, hr⟩⟩

theorem chain_link_of {h : Heap} : ∀ (l : List Nat),
    List.Chain' (fun u v => getNext h (.addr u) = some (.addr v)) l →
    List.Chain' (fun u v => getPrev h (.addr v) = some (.addr u)) l → List.Chain' (Link h) l
  | [], _, _ => List.chain'_nil
  | [a], _, _ => List.chain'_singleton a
  | a :: b :: r, h1, h2 => by
    rw [List.chain'_cons] at h1 h2 ⊢
    exact ⟨⟨h1.1, h2.1⟩, chain_link_of (b :: r) h1.2 h2.2⟩

theorem chain_prev_frame {h g : Heap} : ∀ {l : List Nat},
    List.Chain' (fun u v => getPrev h (.addr v) = some (.addr u)) l →
    (∀ b ∈ l.tail, getPrev g (.addr b) = getPrev h (.addr b)) →
    List.Chain' (fun u v => getPrev g (.addr v) = some (.addr u)) l
  | [], _, _ => List.chain'_nil
  | [a], _, _ => List.chain'_singleton a
  | a :: b :: r, hc, hp => by
    rw [List.chain'_cons] at hc ⊢
    refine ⟨by rw [hp b (by simp)]; exact hc.1, chain_prev_frame hc.2 ?_⟩
    intro x hx
    exact hp x (by simp only [List.tail_cons] at hx ⊢; exact List.mem_cons_of_mem _ hx)

theorem q_sort_relink_spec : ∀ (xs : List Nat) (pv : Nat) (h : Heap) (sl : Ptr) (fuel : Nat),
    Path h sl xs .null → xs.Nodup → xs.length < fuel →
    ∃ h' last, q_sort_relink fuel h (.addr pv) sl = some (h', .addr last) ∧
      (∀ A l, pv :: xs = A ++ [l] → last = l) ∧
      List.Chain' (fun u v => getPrev h' (.addr v) = some (.addr u)) (pv :: xs) ∧
      (∀ p, getNext h' p = getNext h p) ∧ (∀ p, getValue h' p = getValue h p) ∧
      (∀ p, isLive h' p = isLive h p) ∧
      (∀ y, y ∉ xs → getPrev h' (.addr y) = getPrev h (.addr y)) := by
  intro xs
  induction xs with
  | nil =>
    intro pv h sl fuel hp _ hfu
    cases fuel with
    | zero => simp at hfu
    | succ fuel =>
      cases hp
      refine ⟨h, pv, by simp [q_sort_relink], ?_, List.chain'_singleton _, fun _ => rfl,
        fun _ => rfl, fun _ => rfl, fun _ _ => rfl⟩
      intro A l e
      have := congrArg List.getLast? e
      simpa using this
  | cons x xs ih =>
    intro pv h sl fuel hp nd hfu
    cases fuel with
    | zero => simp at hfu
    | succ fuel =>
      obtain ⟨hsl, nx, hn, hr⟩ := hp
      subst hsl
      have hl := isLive_of_getNext hn
      obtain ⟨pr, hpr⟩ := exists_getPrev hl
      have hxs : x ∉ xs := (List.nodup_cons.1 nd).1
      obtain ⟨h', last, e, hlast, hc, gn, gv, gl, gp⟩ := ih x (updPrev h x (.addr pv)) nx fuel
        (Path.frame hr (fun _ _ => by simp)) (List.nodup_cons.1 nd).2
        (by simp only [List.length_cons] at hfu; omega)
      refine ⟨h', last, ?_, ?_, ?_, fun p => by rw [gn]; simp, fun p => by rw [gv]; simp,
        fun p => by rw [gl]; simp, ?_⟩
      · simp only [q_sort_relink, ne_eq, reduceCtorEq, not_false_eq_true, if_true,
          setPrev_eq hl, Option.bind_eq_bind, Option.some_bind, getNext_updPrev, hn]
        exact e
      · intro A l e2
        cases A with
        | nil => simp at e2
        | cons a A =>
          simp only [List.cons_append, List.cons.injEq] at e2
          exact hlast A l e2.2
      · rw [List.chain'_cons]
        refine ⟨?_, hc⟩
        rw [gp x hxs]
        simp [getPrev_updPrev, hpr]
      · intro y hy
        have h1 : y ≠ x := fun e => hy (by simp [e])
        have h2 : y ∉ xs := fun hm => hy (List.mem_cons_of_mem _ hm)
        rw [gp y h2]
        simp [getPrev_updPrev, h1]

theorem mergeSort_short (le : Nat → Nat → Bool) {ps : List Nat} (hn : ps.length ≤ 1) :
    List.mergeSort ps le = ps := by
  match ps, hn with
  | [], _ => exact List.mergeSort_nil
  | [a], _ => exact List.mergeSort_singleton a

/-- What `q_sort` does to a well-formed queue: the cells are relinked in the order
of the merge sort that compares payloads with `strcmp` and keeps ties in place. -/
theorem q_sort_spec {h : Heap} {head : Nat} {ps : List Nat} (q : IsQueue h head ps)
    (hsz : ps.length ≤ INT_MAX) {fuel : Nat} (hf : ps.length + 1 < fuel) :
    ∃ h', q_sort fuel h (.addr head) = some h' ∧
      IsQueue h' head (List.mergeSort ps (cellLe (payload h))) ∧
      (∀ p, getValue h' p = getValue h p) ∧ (∀ p, isLive h' p = isLive h p) ∧
      (∀ a, a ∉ head :: ps → h'.cell a = h.cell a) ∧ (ps.length ≤ 1 → h' = h) := by
  by_cases hn : ps.length ≤ 1
  · refine ⟨h, ?_, ?_, fun _ => rfl, fun _ => rfl, fun _ _ => rfl, fun _ => rfl⟩
    · simp [q_sort, q_size_spec q hsz (show ps.length < fuel by omega), hn]
    · rw [mergeSort_short _ hn]; exact q
  · obtain ⟨A, last, hA⟩ : ∃ A last, ps = A ++ [last] := by
      cases ps with
      | nil => simp at hn
      | cons p ps =>
        obtain ⟨A, l, e⟩ := exists_concat p ps
        exact ⟨A, l, e⟩
    have hhead : head ∉ ps := (List.nodup_cons.1 q.nodup).1
    have ndps : ps.Nodup := (List.nodup_cons.1 q.nodup).2
    have hlastm : last ∈ ps := by rw [hA]; simp
    have hlh : last ≠ head := fun e => hhead (e ▸ hlastm)
    have hlastA : last ∉ A := by
      rw [hA] at ndps
      intro hm
      exact (List.nodup_append.1 ndps).2.2 hm (by simp)
    -- the links at the sentinel
    have hlink : Link h last head := by
      have hc := q.links
      rw [hA] at hc
      have e : head :: (A ++ [last]) ++ [head] = (head :: A) ++ last :: [head] := by simp
      rw [e] at hc
      have := (List.chain'_split.1 hc).2
      simp only [List.chain'_cons, List.chain'_singleton, and_true] at this
      exact this
    obtain ⟨_, nx, hnx, hr⟩ := q.path
    have hnx2 : nx = hdPtr ps := by
      cases ps with
      | nil => simp at hn
      | cons p ps => exact hr.1
    subst hnx2
    have lH := isLive_of_getNext hnx
    have lL := isLive_of_getNext hlink.1
    -- the chain after the circle is opened
    have p1 : Path (updNext h last .null) (hdPtr ps) ps .null := by
      have := hr
      rw [hA] at this ⊢
      exact Path.cut .null this hlastA
    have v1 : ∀ x ∈ ps, getValue (updNext h last .null) (.addr x)
        = some (some (payload h x)) := by
      intro x hx; rw [getValue_updNext]; exact q.value hx
    obtain ⟨g2, r, s2, q2, n2, pv2, v2, l2⟩ := merge_sort_spec (payload h) fuel ps
      (updNext h last .null) (hdPtr ps) p1 ndps v1 hf
    obtain ⟨ps', hps'⟩ : ∃ ps', ps' = List.mergeSort ps (cellLe (payload h)) := ⟨_, rfl⟩
    rw [← hps'] at q2 ⊢
    have perm : ps'.Perm ps := by rw [hps']; exact List.mergeSort_perm _ _
    have ndps' : ps'.Nodup := perm.nodup_iff.2 ndps
    have hhead' : head ∉ ps' := fun hm => hhead (perm.mem_iff.1 hm)
    have hr2 : r = hdPtr ps' := q2.null_head
    have lH2 : isLive g2 (.addr head) = true := by rw [l2]; simpa using lH
    -- `head->next = sorted_list`
    have p3 : Path (updNext g2 head r) r ps' .null := by
      refine Path.frame q2 ?_
      intro x hx
      have : x ≠ head := fun e => hhead' (e ▸ hx)
      simp [getNext_updNext, this]
    obtain ⟨g4, lst, s4, hlst, c4, n4, v4, l4, pv4⟩ := q_sort_relink_spec ps' head
      (updNext g2 head r) r fuel p3 ndps' (by rw [perm.length_eq]; omega)
    obtain ⟨A', last', hA'⟩ : ∃ A' last', ps' = A' ++ [last'] := by
      cases hps'' : ps' with
      | nil =>
        have := perm.length_eq
        rw [hps''] at this
        simp only [List.length_nil] at this
        omega
      | cons p ps2 =>
        obtain ⟨A', l, e⟩ := exists_concat p ps2
        exact ⟨A', l, e⟩
    have hlst2 : lst = last' := hlst (head :: A') last' (by rw [hA']; simp)
    subst hlst2
    have hlm : lst ∈ ps' := by rw [hA']; simp
    have hlsth : lst ≠ head := fun e => hhead' (e ▸ hlm)
    have hlstA : lst ∉ A' := by
      rw [hA'] at ndps'
      intro hm
      exact (List.nodup_append.1 ndps').2.2 hm (by simp)
    have lH4 : isLive g4 (.addr head) = true := by rw [l4]; simpa using lH2
    have lL4 : isLive g4 (.addr lst) = true := by
      rw [l4]; simp only [isLive_updNext]; rw [l2]; simp only [isLive_updNext]
      exact q.live lst (List.mem_cons_of_mem _ (perm.mem_iff.1 hlm))
    obtain ⟨ph, hph⟩ := exists_getPrev lH4
    obtain ⟨nl, hnl⟩ := exists_getNext lL4
    obtain ⟨nh0, hnh0⟩ := exists_getNext lH2
    -- the final heap
    refine ⟨updNext (updPrev g4 head (.addr lst)) lst (.addr head), ?_, ⟨?_, ?_, ?_⟩, ?_, ?_, ?_,
      fun e => absurd e hn⟩
    · simp only [q_sort, q_size_spec q hsz (show ps.length < fuel by omega), hn, if_false,
        Option.bind_eq_bind, Option.some_bind, hlink.2, setNext_eq lL, getNext_updNext, hlh.symm,
        hnx, s2, setNext_eq lH2, s4, setPrev_eq lH4]
      exact setNext_eq (by simpa using lL4) _
    · exact List.nodup_cons.2 ⟨hhead', ndps'⟩
    · refine chain_link_of _ ?_ ?_
      · -- the `next` links
        refine chain_next_of_path ps' head head ⟨rfl, r, ?_, ?_⟩
        · simp [getNext_updNext, hlsth.symm, n4, hnh0]
        · have p4 : Path g4 r ps' .null := Path.frame p3 (fun x _ => n4 _)
          rw [hA'] at p4 ⊢
          exact Path.cut (.addr head) (Path.frame p4 (fun x _ => by simp)) hlstA
      · -- the `prev` links
        have e : head :: ps' ++ [head] = (head :: A') ++ lst :: [head] := by rw [hA']; simp
        rw [e]
        refine List.chain'_split.2 ⟨?_, ?_⟩
        · have c5 : List.Chain' (fun u v => getPrev g4 (.addr v) = some (.addr u))
              (head :: A' ++ [lst]) := by
            have : head :: A' ++ [lst] = head :: ps' := by rw [hA']; simp
            rw [this]; exact c4
          refine chain_prev_frame c5 ?_
          intro b hb
          have hbm : b ∈ ps' := by
            rw [hA']; simpa using hb
          have : b ≠ head := fun e => hhead' (e ▸ hbm)
          simp [getPrev_updPrev, this]
        · simp only [List.chain'_cons, List.chain'_singleton, and_true]
          simp [getPrev_updPrev, hph]
    · intro p hp
      simp only [getValue_updNext, getValue_updPrev]
      rw [v4, getValue_updNext, v2, getValue_updNext]
      exact q.vals p (perm.mem_iff.1 hp)
    · intro p
      simp only [getValue_updNext, getValue_updPrev]
      rw [v4, getValue_updNext, v2, getValue_updNext]
    · intro p
      simp only [isLive_updNext, isLive_updPrev]
      rw [l4, isLive_updNext, l2, isLive_updNext]
    · intro a ha
      have hah : a ≠ head := fun e => ha (by simp [e])
      have haps : a ∉ ps := fun hm => ha (List.mem_cons_of_mem _ hm)
      have haps' : a ∉ ps' := fun hm => haps (perm.mem_iff.1 hm)
      have hal : a ≠ last := fun e => haps (e ▸ hlastm)
      have hal' : a ≠ lst := fun e => haps' (e ▸ hlm)
      refine cell_ext ?_ ?_ ?_
      · simp only [getNext_updNext, hal', if_false, getNext_updPrev]
        rw [n4, getNext_updNext, if_neg hah, n2 a haps, getNext_updNext, if_neg hal]
      · simp only [getPrev_updNext, getPrev_updPrev, hah, if_false]
        rw [pv4 a haps', getPrev_updNext, pv2, getPrev_updNext]
      · simp only [getValue_updNext, getValue_updPrev]
        rw [v4, getValue_updNext, v2, getValue_updNext]

/-! ## Deleting duplicates -/

/-- Unlinking the cell `x` of a queue and releasing it. -/
theorem unlink_release_spec {h : Heap} {head : Nat} {X Y : List Nat} {x : Nat}
    (q : IsQueue h head (X ++ x :: Y)) :
    ∃ h1 h', list_del h (.addr x) = some h1 ∧ q_release_element h1 (.addr x) = some h' ∧
      IsQueue h' head (X ++ Y) ∧ h'.cell x = none ∧
      (∀ a, a ≠ x → getValue h' (.addr a) = getValue h (.addr a) ∧
        (h'.cell a).isSome = (h.cell a).isSome) := by
  obtain ⟨h1, e1, q1, v1, lv1, _⟩ := list_del_spec q
  have hxin : x ∈ head :: (X ++ x :: Y) := by simp
  have hxlive : isLive h1 (.addr x) = true := by rw [lv1]; exact q.live x hxin
  have hxnot : x ∉ head :: (X ++ Y) := by
    have nd := q.nodup
    have e : head :: (X ++ x :: Y) = (head :: X) ++ x :: Y := by simp
    rw [e] at nd
    have h1 := (List.nodup_append.1 nd).2.2
    have h2 := (List.nodup_cons.1 (List.nodup_append.1 nd).2.1).1
    intro hm
    have e2 : head :: (X ++ Y) = (head :: X) ++ Y := by simp
    rw [e2, List.mem_append] at hm
    rcases hm with hm | hm
    · exact h1 hm (by simp)
    · exact h2 hm
  refine ⟨h1, updFree h1 x, e1, q_release_element_eq hxlive, q1.release hxnot, ?_, ?_⟩
  · simp [updFree]
  · intro a ha
    refine ⟨by rw [getValue_updFree_ne ha, v1], ?_⟩
    have := lv1 (.addr a)
    simp only [isLive_addr] at this
    simp [updFree, ha, this]

theorem dedupLoop_subset (key : Nat → Str) : ∀ (R K0 : List Nat) (d : Option Nat) (count : Nat),
    ∀ a ∈ dedupLoop key K0 d count R, a ∈ K0 ++ d.toList ++ R
  | [], K0, d, count, a, ha => by
    simp only [dedupLoop] at ha
    by_cases hc : count ≠ 0
    · rw [if_pos hc] at ha; simp [ha]
    · rw [if_neg hc] at ha; simpa using ha
  | x :: R, K0, none, count, a, ha => by
    simp only [dedupLoop] at ha
    have := dedupLoop_subset key R K0 (some x) 0 a ha
    simpa using this
  | x :: R, K0, some d, count, a, ha => by
    simp only [dedupLoop] at ha
    by_cases hs : strcmp (key x) (key d) ≠ 0
    · rw [if_pos hs] at ha
      have := dedupLoop_subset key R _ (some x) 0 a ha
      by_cases hc : count ≠ 0
      · rw [if_pos hc] at this
        simp only [Option.toList_some, List.mem_append, List.mem_singleton,
          List.mem_cons] at this ⊢
        tauto
      · rw [if_neg hc] at this
        simp only [Option.toList_some, List.mem_append, List.mem_singleton,
          List.mem_cons] at this ⊢
        tauto
    · rw [if_neg hs] at ha
      have := dedupLoop_subset key R K0 (some d) (count + 1) a ha
      simp only [Option.toList_some, List.mem_append, List.mem_singleton,
        List.mem_cons] at this ⊢
      tauto

theorem dup_frame {hk hm h2 : Heap} {L rest result : List Nat} {z : Nat}
    (hz : hm.cell z = none)
    (hfr : ∀ a, a ≠ z → getValue hm (.addr a) = getValue hk (.addr a) ∧
      (hm.cell a).isSome = (hk.cell a).isSome)
    (hzall : z ∈ L) (hzr : z ∉ rest) (hsub : ∀ a ∈ L, a ≠ z → a ∈ rest) (hsub2 : ∀ a ∈ rest, a ∈ L)
    (hres : ∀ a ∈ result, a ∈ rest)
    (hD : ∀ a, a ∈ rest → a ∉ result → h2.cell a = none)
    (hS : ∀ a, (a ∈ rest → a ∈ result) → getValue h2 (.addr a) = getValue hm (.addr a) ∧
      (h2.cell a).isSome = (hm.cell a).isSome) :
    (∀ a, a ∈ L → a ∉ result → h2.cell a = none) ∧
    (∀ a, (a ∈ L → a ∈ result) → getValue h2 (.addr a) = getValue hk (.addr a) ∧
      (h2.cell a).isSome = (hk.cell a).isSome) := by
  constructor
  · intro a ha hr
    by_cases haz : a = z
    · subst haz
      have := (hS a (fun hm2 => absurd hm2 hzr)).2
      rw [hz] at this
      cases hc : h2.cell a with
      | none => rfl
      | some n => rw [hc] at this; simp at this
    · exact hD a (hsub a ha haz) hr
  · intro a ha
    have haz : a ≠ z := by
      intro e
      subst e
      exact hzr (hres a (ha hzall))
    obtain ⟨a1, a2⟩ := hS a (fun hm2 => ha (hsub2 a hm2))
    obtain ⟨b1, b2⟩ := hfr a haz
    exact ⟨a1.trans b1, a2.trans b2⟩

theorem hdPtr_cons (a : Nat) (l : List Nat) : hdPtr (a :: l) = .addr a := rfl

theorem optPtr_some (a : Nat) : optPtr (some a) = .addr a := rfl

theorem flush_zero (h : Heap) (p : Ptr) : q_delete_dup_flush h p 0 = some h := by
  simp [q_delete_dup_flush]

theorem flush_pos {h : Heap} {head : Nat} {X Y : List Nat} {x : Nat} {count : Nat}
    (q : IsQueue h head (X ++ x :: Y)) (hc : count ≠ 0) :
    ∃ h', q_delete_dup_flush h (.addr x) count = some h' ∧
      IsQueue h' head (X ++ Y) ∧ h'.cell x = none ∧
      (∀ a, a ≠ x → getValue h' (.addr a) = getValue h (.addr a) ∧
        (h'.cell a).isSome = (h.cell a).isSome) := by
  obtain ⟨h1, h', e1, e2, q', hx, fr⟩ := unlink_release_spec q
  exact ⟨h', by simp [q_delete_dup_flush, hc, e1, e2], q', hx, fr⟩

theorem hdPtr_live {h : Heap} {head : Nat} {ps : List Nat} (q : IsQueue h head ps)
    {R : List Nat} (hR : ∀ a ∈ R, a ∈ ps) : isLive h (hdPtr (R ++ [head])) = true := by
  cases R with
  | nil => exact q.live head (by simp)
  | cons x R => exact q.live x (List.mem_cons_of_mem _ (hR x (by simp)))

/-- The link from the cell `x` of a queue to the cell after it. -/
theorem IsQueue.next_at {h : Heap} {head : Nat} {X Y : List Nat} {x : Nat}
    (q : IsQueue h head (X ++ x :: Y)) : getNext h (.addr x) = some (hdPtr (Y ++ [head])) := by
  obtain ⟨A, P, hP⟩ := exists_concat head X
  obtain ⟨N, B, hN⟩ := exists_cons Y head
  obtain ⟨_, hl⟩ := q.links_at hP hN
  rw [hN]; exact hl.1

theorem q_delete_dup_loop_spec (key : Nat → Str) {head : Nat} :
    ∀ (R K0 : List Nat) (d : Option Nat) (count : Nat) (hk : Heap) (lx : Ptr) (fuel : Nat),
    IsQueue hk head (K0 ++ d.toList ++ R) →
    (∀ x ∈ K0 ++ d.toList ++ R, getValue hk (.addr x) = some (some (key x))) →
    getNext hk (hdPtr (R ++ [head])) = some lx →
    (d = none → count = 0) → R.length < fuel →
    ∃ h1 dsh cnt h2,
      q_delete_dup_loop fuel hk (.addr head) (hdPtr (R ++ [head])) lx (d.map key) (optPtr d)
        count = some (h1, dsh, cnt) ∧
      q_delete_dup_flush h1 dsh cnt = some h2 ∧
      IsQueue h2 head (dedupLoop key K0 d count R) ∧
      (∀ a, a ∈ K0 ++ d.toList ++ R → a ∉ dedupLoop key K0 d count R → h2.cell a = none) ∧
      (∀ a, (a ∈ K0 ++ d.toList ++ R → a ∈ dedupLoop key K0 d count R) →
        getValue h2 (.addr a) = getValue hk (.addr a) ∧
        (h2.cell a).isSome = (hk.cell a).isSome) := by
  intro R
  induction R with
  | nil =>
    intro K0 d count hk lx fuel q hv _ hd hfu
    cases fuel with
    | zero => simp at hfu
    | succ fuel =>
      have eloop : q_delete_dup_loop (fuel + 1) hk (.addr head) (hdPtr ([] ++ [head])) lx
          (d.map key) (optPtr d) count = some (hk, optPtr d, count) := by
        simp [q_delete_dup_loop, hdPtr]
      by_cases hc : count = 0
      · subst hc
        refine ⟨hk, optPtr d, 0, hk, eloop, flush_zero _ _, ?_, ?_, ?_⟩
        · simpa [dedupLoop] using q
        · intro a ha hna
          simp only [dedupLoop, ne_eq, not_true_eq_false, if_false] at hna
          exact absurd (by simpa using ha) hna
        · intro a _; exact ⟨rfl, rfl⟩
      · cases d with
        | none => exact absurd (hd rfl) hc
        | some dd =>
          have q0 : IsQueue hk head (K0 ++ dd :: []) := by simpa using q
          obtain ⟨h', e, q', hx, fr⟩ := flush_pos q0 hc
          have hddK : dd ∉ K0 := by
            have nd := (List.nodup_cons.1 q0.nodup).2
            intro hm
            exact (List.nodup_append.1 nd).2.2 hm (by simp)
          refine ⟨hk, optPtr (some dd), count, h', eloop, e, ?_, ?_, ?_⟩
          · simpa [dedupLoop, hc] using q'
          · intro a ha hna
            simp only [dedupLoop, ne_eq, hc, not_false_eq_true, if_true] at hna
            have : a = dd := by
              simp only [Option.toList_some, List.append_nil, List.mem_append,
                List.mem_singleton] at ha
              tauto
            rw [this]; exact hx
          · intro a ha
            simp only [dedupLoop, ne_eq, hc, not_false_eq_true, if_true] at ha
            have : a ≠ dd := by
              intro e2; subst e2
              exact hddK (ha (by simp))
            exact fr a this
  | cons x R ih =>
    intro K0 d count hk lx fuel q hv hlx hd hfu
    cases fuel with
    | zero => simp at hfu
    | succ fuel =>
      have hfu2 : R.length < fuel := by simp only [List.length_cons] at hfu; omega
      have hxh : x ≠ head := by
        have := (List.nodup_cons.1 q.nodup).1
        intro e; subst e; exact this (by simp)
      have hvx : getValue hk (.addr x) = some (some (key x)) := hv x (by simp)
      -- `lx` is the cell after `x`
      have hlx2 : lx = hdPtr (R ++ [head]) := by
        have := q.next_at
        simp only [hdPtr, List.cons_append] at hlx
        rw [hlx] at this
        exact Option.some.inj this
      subst hlx2
      have nd := (List.nodup_cons.1 q.nodup).2
      cases d with
      | none =>
        -- the first element starts the first run
        have hc : count = 0 := hd rfl
        subst hc
        have q1 : IsQueue hk head (K0 ++ (some x).toList ++ R) := by simpa using q
        obtain ⟨safe, hsafe⟩ := exists_getNext (hdPtr_live q1 (R := R) (by intro a ha; simp [ha]))
        obtain ⟨h1, dsh, cnt, h2, el, et, q2, hD, hS⟩ := ih K0 (some x) 0 hk safe fuel q1
          (by intro a ha; exact hv a (by simpa using ha)) hsafe (by simp) hfu2
        refine ⟨h1, dsh, cnt, h2, ?_, et, by simpa [dedupLoop] using q2, ?_, ?_⟩
        · simp only [q_delete_dup_loop, hdPtr_cons, List.cons_append, ne_eq, Ptr.addr.injEq, hxh,
            not_false_eq_true, if_true, q_delete_dup_body, hvx, q_delete_dup_test,
            Option.map_none', Option.isSome_some, Option.isNone_none, and_self,
            Option.bind_eq_bind, Option.some_bind, flush_zero, Option.pure_def, hsafe]
          simpa only [optPtr_some, Option.map_some'] using el
        · intro a ha hna
          exact hD a (by simpa using ha) (by simpa [dedupLoop] using hna)
        · intro a ha
          exact hS a (fun hm => by simpa [dedupLoop] using ha (by simpa using hm))
      | some dd =>
        have hvd : getValue hk (.addr dd) = some (some (key dd)) := hv dd (by simp)
        have htest : q_delete_dup_test (some (key x)) (Option.map key (some dd))
            = some (decide (strcmp (key x) (key dd) ≠ 0)) := by
          simp [q_delete_dup_test, strcmpPtr]
        by_cases hs : strcmp (key x) (key dd) ≠ 0
        · -- `x` starts a new run
          by_cases hc : count = 0
          · subst hc
            have q1 : IsQueue hk head ((K0 ++ [dd]) ++ (some x).toList ++ R) := by simpa using q
            obtain ⟨safe, hsafe⟩ :=
              exists_getNext (hdPtr_live q1 (R := R) (by intro a ha; simp [ha]))
            obtain ⟨h1, dsh, cnt, h2, el, et, q2, hD, hS⟩ := ih (K0 ++ [dd]) (some x) 0 hk safe
              fuel q1 (by intro a ha; exact hv a (by simpa using ha)) hsafe (by simp) hfu2
            refine ⟨h1, dsh, cnt, h2, ?_, et, by simpa [dedupLoop, hs] using q2, ?_, ?_⟩
            · simp only [q_delete_dup_loop, hdPtr_cons, List.cons_append, ne_eq, Ptr.addr.injEq, hxh,
                not_false_eq_true, if_true, q_delete_dup_body, hvx, htest, hs, decide_True,
                Option.bind_eq_bind, Option.some_bind, flush_zero, Option.pure_def, hsafe, optPtr_some]
              simpa only [optPtr_some, Option.map_some'] using el
            · intro a ha hna
              exact hD a (by simpa using ha) (by simpa [dedupLoop, hs] using hna)
            · intro a ha
              exact hS a (fun hm => by simpa [dedupLoop, hs] using ha (by simpa using hm))
          · have q0 : IsQueue hk head (K0 ++ dd :: (x :: R)) := by simpa using q
            obtain ⟨hm, e, q', hz, fr⟩ := flush_pos q0 hc
            have q1 : IsQueue hm head (K0 ++ (some x).toList ++ R) := by simpa using q'
            have hddnot : dd ∉ K0 ++ (some x).toList ++ R := by
              have := List.nodup_append.1 (by simpa using nd : (K0 ++ dd :: (x :: R)).Nodup)
              intro hmem
              simp only [Option.toList_some, List.append_assoc, List.singleton_append,
                List.mem_append] at hmem
              rcases hmem with u | u
              · exact this.2.2 u (by simp)
              · exact (List.nodup_cons.1 this.2.1).1 u
            obtain ⟨safe, hsafe⟩ :=
              exists_getNext (hdPtr_live q1 (R := R) (by intro a ha; simp [ha]))
            obtain ⟨h1, dsh, cnt, h2, el, et, q2, hD, hS⟩ := ih K0 (some x) 0 hm safe fuel q1
              (by
                intro a ha
                have hne : a ≠ dd := fun e2 => hddnot (e2 ▸ ha)
                rw [(fr a hne).1]
                exact hv a (by
                  simp only [Option.toList_some, List.mem_append, List.mem_singleton,
                    List.mem_cons] at ha ⊢
                  tauto))
              hsafe (by simp) hfu2
            have hres : dedupLoop key K0 (some dd) count (x :: R)
                = dedupLoop key K0 (some x) 0 R := by
              simp [dedupLoop, hs, hc]
            obtain ⟨fD, fS⟩ := dup_frame (L := K0 ++ (some dd).toList ++ x :: R) hz fr
              (by simp) hddnot
              (by
                intro a ha hne
                simp only [Option.toList_some, List.mem_append, List.mem_singleton,
                  List.mem_cons] at ha ⊢
                tauto)
              (by
                intro a ha
                simp only [Option.toList_some, List.mem_append, List.mem_singleton,
                  List.mem_cons] at ha ⊢
                tauto)
              (dedupLoop_subset key R K0 (some x) 0) hD hS
            refine ⟨h1, dsh, cnt, h2, ?_, et, by rw [hres]; exact q2, ?_, ?_⟩
            · simp only [q_delete_dup_loop, hdPtr_cons, List.cons_append, ne_eq, Ptr.addr.injEq, hxh,
                not_false_eq_true, if_true, q_delete_dup_body, hvx, htest, hs, decide_True,
                Option.bind_eq_bind, Option.some_bind, optPtr_some, e, Option.pure_def, hsafe]
              simpa only [optPtr_some, Option.map_some'] using el
            · rw [hres]; exact fD
            · rw [hres]; exact fS
        · -- `x` repeats the current run and is released
          have hs0 : strcmp (key x) (key dd) = 0 := by
            by_contra hcon; exact hs hcon
          have q0 : IsQueue hk head ((K0 ++ [dd]) ++ x :: R) := by simpa using q
          obtain ⟨hu, hm, e1, e2, q', hz, fr⟩ := unlink_release_spec q0
          have q1 : IsQueue hm head (K0 ++ (some dd).toList ++ R) := by simpa using q'
          have hxnot : x ∉ K0 ++ (some dd).toList ++ R := by
            have := List.nodup_append.1 (by simpa using nd : ((K0 ++ [dd]) ++ x :: R).Nodup)
            intro hmem
            rcases List.mem_append.1 hmem with u | u
            · exact this.2.2 (by simpa using u) (by simp)
            · exact (List.nodup_cons.1 this.2.1).1 u
          obtain ⟨safe, hsafe⟩ :=
            exists_getNext (hdPtr_live q1 (R := R) (by intro a ha; simp [ha]))
          obtain ⟨h1, dsh, cnt, h2, el, et, q2, hD, hS⟩ := ih K0 (some dd) (count + 1) hm safe
            fuel q1
            (by
              intro a ha
              have hne : a ≠ x := fun e3 => hxnot (e3 ▸ ha)
              rw [(fr a hne).1]
              exact hv a (by
                simp only [Option.toList_some, List.mem_append, List.mem_singleton,
                  List.mem_cons] at ha ⊢
                tauto))
            hsafe (by simp) hfu2
          have hres : dedupLoop key K0 (some dd) count (x :: R)
              = dedupLoop key K0 (some dd) (count + 1) R := by
            simp [dedupLoop, hs0]
          obtain ⟨fD, fS⟩ := dup_frame (L := K0 ++ (some dd).toList ++ x :: R) hz fr
            (by simp) hxnot
            (by
              intro a ha hne
              simp only [Option.toList_some, List.mem_append, List.mem_singleton,
                List.mem_cons] at ha ⊢
              tauto)
            (by
              intro a ha
              simp only [Option.toList_some, List.mem_append, List.mem_singleton,
                List.mem_cons] at ha ⊢
              tauto)
            (dedupLoop_subset key R K0 (some dd) (count + 1)) hD hS
          refine ⟨h1, dsh, cnt, h2, ?_, et, by rw [hres]; exact q2, ?_, ?_⟩
          · simp only [q_delete_dup_loop, hdPtr_cons, List.cons_append, ne_eq, Ptr.addr.injEq, hxh,
              not_false_eq_true, if_true, q_delete_dup_body, hvx, htest, hs0, not_true_eq_false,
              decide_False, Option.bind_eq_bind, Option.some_bind, Bool.false_eq_true, if_false,
              e1, e2, Option.pure_def, hsafe, optPtr_some]
            simpa only [optPtr_some, Option.map_some'] using el
          · rw [hres]; exact fD
          · rw [hres]; exact fS

/-! ## The loop of `q_delete_dup` on a sorted list -/

theorem strcmp_zero_symm {a b : Str} (h : strcmp a b = 0) : strcmp b a = 0 := by
  rw [strcmp_swap a b, h]; rfl

theorem strcmp_zero_trans {a b c : Str} (h1 : strcmp a b = 0) (h2 : strcmp b c = 0) :
    strcmp a c = 0 := by
  rw [strcmp_eq_zero_iff] at h1 h2 ⊢
  rw [h1, h2]

theorem occurrences_congr (key : Nat → Str) (ps : List Nat) {p q : Nat}
    (h : strcmp (key p) (key q) = 0) : occurrences key ps p = occurrences key ps q := by
  unfold occurrences
  refine List.countP_congr ?_
  intro r _
  simp only [decide_eq_true_eq]
  exact ⟨fun e => strcmp_zero_trans e h, fun e => strcmp_zero_trans e (strcmp_zero_symm h)⟩

theorem occurrences_run (key : Nat → Str) {Pre0 Dups R : List Nat} {dd : Nat}
    (hPre : ∀ q ∈ Pre0, strcmp (key q) (key dd) ≠ 0)
    (hDups : ∀ q ∈ Dups, strcmp (key q) (key dd) = 0)
    (hR : ∀ q ∈ R, strcmp (key q) (key dd) ≠ 0) :
    occurrences key (Pre0 ++ dd :: Dups ++ R) dd = 1 + Dups.length := by
  unfold occurrences
  have e1 : List.countP (fun q => decide (strcmp (key q) (key dd) = 0)) Pre0 = 0 := by
    rw [List.countP_eq_zero]
    intro q hq; simpa using hPre q hq
  have e2 : List.countP (fun q => decide (strcmp (key q) (key dd) = 0)) R = 0 := by
    rw [List.countP_eq_zero]
    intro q hq; simpa using hR q hq
  have e3 : List.countP (fun q => decide (strcmp (key q) (key dd) = 0)) Dups = Dups.length := by
    rw [List.countP_eq_length]
    intro q hq; simpa using hDups q hq
  simp only [List.countP_append, List.countP_cons, e1, e2, e3, strcmp_self, decide_True,
    if_true]
  omega

/-- The cells of the current run that stay once the run is known to have ended. -/
theorem filter_run (key : Nat → Str) {Pre0 Dups R : List Nat} {dd : Nat}
    (hPre : ∀ q ∈ Pre0, strcmp (key q) (key dd) ≠ 0)
    (hDups : ∀ q ∈ Dups, strcmp (key q) (key dd) = 0)
    (hR : ∀ q ∈ R, strcmp (key q) (key dd) ≠ 0) :
    (dd :: Dups).filter (fun p => decide (occurrences key (Pre0 ++ dd :: Dups ++ R) p = 1))
      = if Dups.length ≠ 0 then [] else [dd] := by
  have hocc := occurrences_run key hPre hDups hR
  by_cases hl : Dups.length ≠ 0
  · rw [if_pos hl, List.filter_eq_nil_iff]
    intro q hq
    have hq0 : strcmp (key q) (key dd) = 0 := by
      rcases List.mem_cons.1 hq with e | e
      · rw [e]; exact strcmp_self _
      · exact hDups q e
    rw [occurrences_congr key _ hq0, hocc]
    simp only [decide_eq_true_eq]
    omega
  · rw [if_neg hl]
    have : Dups = [] := List.length_eq_zero.1 (by omega)
    subst this
    simp only [List.length_nil, Nat.add_zero] at hocc
    have e : Pre0 ++ [dd] ++ R = Pre0 ++ dd :: R := by simp
    rw [e] at hocc
    simp [List.filter_cons, hocc]

theorem dedupLoop_sorted (key : Nat → Str) : ∀ (R Pre0 Dups K0 : List Nat) (dd : Nat)
    (count : Nat),
    List.Pairwise (fun a b => strcmp (key a) (key b) ≤ 0) (Pre0 ++ dd :: Dups ++ R) →
    (∀ q ∈ Pre0, strcmp (key q) (key dd) ≠ 0) →
    (∀ q ∈ Dups, strcmp (key q) (key dd) = 0) → Dups.length = count →
    K0 = Pre0.filter (fun p => decide (occurrences key (Pre0 ++ dd :: Dups ++ R) p = 1)) →
    dedupLoop key K0 (some dd) count R
      = (Pre0 ++ dd :: Dups ++ R).filter
          (fun p => decide (occurrences key (Pre0 ++ dd :: Dups ++ R) p = 1)) := by
  intro R
  induction R with
  | nil =>
    intro Pre0 Dups K0 dd count _ hPre hDups hlen hK
    have hf := filter_run key (R := []) hPre hDups (by simp)
    simp only [dedupLoop, Option.toList_some]
    rw [List.filter_append, List.filter_append, ← hK, hf, hlen]
    by_cases hc : count ≠ 0
    · simp [hc]
    · simp [hc]
  | cons x R ih =>
    intro Pre0 Dups K0 dd count hs hPre hDups hlen hK
    have hle_dx : strcmp (key dd) (key x) ≤ 0 := by
      have e : Pre0 ++ dd :: Dups ++ x :: R = Pre0 ++ dd :: (Dups ++ x :: R) := by simp
      rw [e] at hs
      have h2 := (List.pairwise_append.1 hs).2.1
      exact (List.pairwise_cons.1 h2).1 x (by simp)
    by_cases hx : strcmp (key x) (key dd) ≠ 0
    · -- the run of `dd` has ended
      have hR : ∀ q ∈ x :: R, strcmp (key q) (key dd) ≠ 0 := by
        intro q hq hq0
        rcases List.mem_cons.1 hq with e | e
        · rw [e] at hq0; exact hx hq0
        · -- `x ≤ q` and `q = dd ≤ x`, so `x = dd`
          have hxq : strcmp (key x) (key q) ≤ 0 := by
            have h3 := (List.pairwise_append.1 hs).2.1
            exact (List.pairwise_cons.1 h3).1 q e
          have hxd : strcmp (key x) (key dd) ≤ 0 :=
            strcmp_le_trans _ _ _ hxq (by omega)
          exact hx (strcmp_eq_zero_of_le hxd hle_dx)
      have hf := filter_run key hPre hDups hR
      have hPre2 : ∀ q ∈ Pre0 ++ dd :: Dups, strcmp (key q) (key x) ≠ 0 := by
        intro q hq hq0
        have hqd : strcmp (key q) (key dd) ≤ 0 := by
          rcases List.mem_append.1 hq with e | e
          · have e2 : Pre0 ++ dd :: Dups ++ x :: R = Pre0 ++ dd :: (Dups ++ x :: R) := by simp
            rw [e2] at hs
            exact (List.pairwise_append.1 hs).2.2 q e dd (by simp)
          · rcases List.mem_cons.1 e with e3 | e3
            · rw [e3, strcmp_self]
            · rw [hDups q e3]
        -- `x = q ≤ dd ≤ x`
        have hxd : strcmp (key x) (key dd) ≤ 0 :=
          strcmp_le_trans _ _ _ (by rw [strcmp_zero_symm hq0]) hqd
        exact hx (strcmp_eq_zero_of_le hxd hle_dx)
      have e : Pre0 ++ dd :: Dups ++ x :: R = (Pre0 ++ dd :: Dups) ++ x :: [] ++ R := by simp
      have hK2 : (if count ≠ 0 then K0 else K0 ++ [dd])
          = (Pre0 ++ dd :: Dups).filter
              (fun p => decide (occurrences key ((Pre0 ++ dd :: Dups) ++ x :: [] ++ R) p = 1)) := by
        rw [← e, List.filter_append, ← hK, hf, hlen]
        by_cases hc : count ≠ 0
        · simp [hc]
        · simp [hc]
      have := ih (Pre0 ++ dd :: Dups) [] (if count ≠ 0 then K0 else K0 ++ [dd]) x 0
        (by rw [← e]; exact hs) hPre2 (by simp) rfl hK2
      simp only [dedupLoop, hx, ne_eq, not_false_eq_true, if_true]
      rw [e]; exact this
    · -- `x` belongs to the run of `dd`
      have hx0 : strcmp (key x) (key dd) = 0 := by
        by_contra hcon; exact hx hcon
      have e : Pre0 ++ dd :: Dups ++ x :: R = Pre0 ++ dd :: (Dups ++ [x]) ++ R := by simp
      have := ih Pre0 (Dups ++ [x]) K0 dd (count + 1) (by rw [← e]; exact hs) hPre
        (by
          intro q hq
          rcases List.mem_append.1 hq with u | u
          · exact hDups q u
          · simp only [List.mem_singleton] at u; rw [u]; exact hx0)
        (by simp [hlen]) (by rw [← e]; exact hK)
      simp only [dedupLoop, hx0, ne_eq, not_true_eq_false, if_false]
      rw [e]; exact this

/-- On a list sorted by payload the loop of `q_delete_dup` keeps exactly the cells
whose payload occurs once. -/
theorem dedupLoop_eq_filter (key : Nat → Str) (ps : List Nat)
    (hs : List.Pairwise (fun a b => strcmp (key a) (key b) ≤ 0) ps) :
    dedupLoop key [] none 0 ps
      = ps.filter (fun p => decide (occurrences key ps p = 1)) := by
  cases ps with
  | nil => simp [dedupLoop]
  | cons x R =>
    have := dedupLoop_sorted key R [] [] [] x 0 (by simpa using hs) (by simp) (by simp) rfl
      (by simp)
    simpa [dedupLoop] using this

/-! ## Creating a queue, removing from an empty queue, copying out -/

theorem q_new_null (h : Heap) : q_new h .null = some (h, .null) := rfl

/-- What `q_new` does when the allocator hands out the unused cell `a`. -/
theorem q_new_spec {h : Heap} {a : Nat} (hfree : h.cell a = none) :
    ∃ h', q_new h (.addr a) = some (h', .addr a) ∧ IsQueue h' a [] ∧
      (∀ x, (h'.cell x).isSome = (if x = a then true else (h.cell x).isSome)) ∧
      (∀ x, x ≠ a → h'.cell x = h.cell x) := by
  have l0 : isLive (updAlloc h a) (.addr a) = true := by simp [isLive_updAlloc]
  have l1 : isLive (updValue (updAlloc h a) a none) (.addr a) = true := by simpa using l0
  have l2 : isLive (updNext (updValue (updAlloc h a) a none) a (.addr a)) (.addr a) = true := by
    simpa using l1
  refine ⟨updPrev (updNext (updValue (updAlloc h a) a none) a (.addr a)) a (.addr a), ?_, ?_, ?_, ?_⟩
  · simp only [q_new, malloc, hfree, Option.isSome_none, Bool.false_eq_true, if_false,
      Option.bind_eq_bind, Option.some_bind, reduceCtorEq, Option.pure_def]
    rw [setValue_eq l0]
    simp only [Option.some_bind, INIT_LIST_HEAD, Option.bind_eq_bind]
    rw [setNext_eq l1]
    simp only [Option.some_bind]
    rw [setPrev_eq l2]
    rfl
  · refine ⟨by simp, ?_, by simp⟩
    simp only [List.cons_append, List.nil_append, List.chain'_cons, List.chain'_singleton,
      and_true]
    constructor
    · simp [getNext, load, updPrev, updNext, updValue, updAlloc]
    · simp [getPrev, load, updPrev, updNext, updValue, updAlloc]
  · intro x
    simp only [updPrev, updNext, updValue, updAlloc]
    by_cases hx : x = a <;> simp [hx]
  · intro x hx
    simp only [updPrev, updNext, updValue, updAlloc]
    simp [hx]

/-- The test `list_empty` on a well-formed queue. -/
theorem IsQueue.list_empty {h : Heap} {head : Nat} {ps : List Nat} (q : IsQueue h head ps) :
    LabQueue.list_empty h (.addr head) = some (decide (ps = [])) := by
  cases ps with
  | nil =>
    have := q.links
    simp only [List.cons_append, List.nil_append, List.chain'_cons, List.chain'_singleton,
      and_true] at this
    simp [LabQueue.list_empty, this.1]
  | cons x Y =>
    have := q.links
    simp only [List.cons_append, List.chain'_cons] at this
    have hxh : x ≠ head := by
      have := q.nodup
      simp only [List.nodup_cons, List.mem_cons, not_or] at this
      exact fun e => this.1.1 e.symm
    simp [LabQueue.list_empty, this.1.1, hxh]

theorem q_remove_head_empty {h : Heap} {head : Nat} (q : IsQueue h head [])
    (sp : Option Buf) (bufsize : Nat) :
    q_remove_head h (.addr head) sp bufsize = some (h, .null, sp) := by
  simp [q_remove_head, q.list_empty]

theorem q_remove_tail_empty {h : Heap} {head : Nat} (q : IsQueue h head [])
    (sp : Option Buf) (bufsize : Nat) :
    q_remove_tail h (.addr head) sp bufsize = some (h, .null, sp) := by
  simp [q_remove_tail, q.list_empty]

theorem q_remove_head_null (h : Heap) (sp : Option Buf) (bufsize : Nat) :
    q_remove_head h .null sp bufsize = some (h, .null, sp) := rfl

theorem q_remove_tail_null (h : Heap) (sp : Option Buf) (bufsize : Nat) :
    q_remove_tail h .null sp bufsize = some (h, .null, sp) := rfl

/-- For a capacity of at least one that fits `size_t`, the value of `bufsize - 1` is
the predecessor. -/
theorem bufsize_pred {bufsize : Nat} (h1 : 1 ≤ bufsize) (h2 : bufsize ≤ SIZE_MAX) :
    (bufsize + SIZE_MAX) % (SIZE_MAX + 1) = bufsize - 1 := by
  have e : bufsize + SIZE_MAX = (bufsize - 1) + (SIZE_MAX + 1) := by omega
  rw [e, Nat.add_mod_right]
  exact Nat.mod_eq_of_lt (by omega)

theorem copyOut_some {h : Heap} {x : Nat} (hv : ((getValue h (.addr x)).join).isSome = true)
    (buf : Buf) (bufsize : Nat) :
    copyOut h (.addr x) (some buf) bufsize =
      some (some (storeByte (strncpy buf (payload h x) ((bufsize + SIZE_MAX) % (SIZE_MAX + 1)))
        ((bufsize + SIZE_MAX) % (SIZE_MAX + 1)) 0)) := by
  cases hg : getValue h (.addr x) with
  | none => simp [hg] at hv
  | some v =>
    cases v with
    | none => simp [hg] at hv
    | some s => simp [copyOut, hg, payload]

theorem strlen_le (s : Str) : strlen s ≤ s.length := by
  unfold strlen
  exact (List.takeWhile_sublist _).length_le

theorem getD_ne_zero_of_lt_strlen {s : Str} {i : Nat} (hi : i < strlen s) : s.getD i 0 ≠ 0 := by
  induction s generalizing i with
  | nil => simp [strlen] at hi
  | cons c t ih =>
    by_cases hc : c = 0
    · simp [strlen, List.takeWhile, hc] at hi
    · cases i with
      | zero => simpa using hc
      | succ i =>
        have : i < strlen t := by
          simp only [strlen, List.takeWhile_cons, hc, ne_eq, not_false_eq_true, decide_True,
            if_true, List.length_cons] at hi ⊢
          omega
        simpa using ih this

/-- The buffer after `strncpy (buf, s, n); buf[n] = 0`: the first `min (strlen s) n`
bytes are those of `s`, none of them `0`; the byte after them is `0`; the bytes
beyond `n` are as before. -/
theorem copied_bytes (buf : Buf) (s : Str) (n : Nat) :
    (List.range (min (strlen s) n)).map (storeByte (strncpy buf s n) n 0)
        = s.take (min (strlen s) n) ∧
      (∀ c ∈ s.take (min (strlen s) n), c ≠ 0) ∧
      storeByte (strncpy buf s n) n 0 (min (strlen s) n) = 0 ∧
      (∀ i, n < i → storeByte (strncpy buf s n) n 0 i = buf i) := by
  have hl := strlen_le s
  refine ⟨?_, ?_, ?_, ?_⟩
  · apply List.ext_getElem
    · simp; omega
    · intro i h1 h2
      simp only [List.length_map, List.length_range, lt_min_iff] at h1
      simp only [List.getElem_map, List.getElem_range, List.getElem_take, storeByte, strncpy]
      have : i ≠ n := by omega
      simp only [this, if_false, h1.1, h1.2, if_true]
      rw [List.getD_eq_getElem _ _ (by omega)]
  · intro c hc
    obtain ⟨i, hi, rfl⟩ := List.getElem_of_mem hc
    simp only [List.length_take, lt_min_iff] at hi
    rw [List.getElem_take]
    have := getD_ne_zero_of_lt_strlen (s := s) (i := i) hi.1.1
    rwa [List.getD_eq_getElem _ _ (by omega)] at this
  · simp only [storeByte, strncpy]
    by_cases hc : min (strlen s) n = n
    · simp [hc]
    · have : strlen s < n := by omega
      have e : min (strlen s) n = strlen s := by omega
      simp [e, this, Nat.ne_of_lt this]
  · intro i hi
    simp only [storeByte, strncpy]
    have : i ≠ n := by omega
    have h3 : ¬ i < n := by omega
    simp [this, h3]

/-! ## Merging keeps the order inside each chain -/

theorem sublist_merge_left (le : Nat → Nat → Bool) :
    ∀ (L1 L2 : List Nat), L1.Sublist (List.merge L1 L2 le) := by
  intro L1
  induction L1 with
  | nil => intro L2; exact List.nil_sublist _
  | cons x xs ih =>
    intro L2
    induction L2 with
    | nil => simp [List.merge]
    | cons y ys ih2 =>
      rw [List.cons_merge_cons]
      split
      · exact (ih (y :: ys)).cons₂ x
      · exact ih2.cons y

theorem sublist_merge_right (le : Nat → Nat → Bool) :
    ∀ (L1 L2 : List Nat), L2.Sublist (List.merge L1 L2 le) := by
  intro L1
  induction L1 with
  | nil => intro L2; simp [List.merge]
  | cons x xs ih =>
    intro L2
    induction L2 with
    | nil => exact List.nil_sublist _
    | cons y ys ih2 =>
      rw [List.cons_merge_cons]
      split
      · exact (ih (y :: ys)).cons x
      · exact ih2.cons₂ y

/-- In the merge of two lists the first of which is sorted, a cell of the first list
comes before every cell of the second list that is not smaller. -/
theorem pair_sublist_merge (le : Nat → Nat → Bool)
    (trans : ∀ a b c, le a b = true → le b c = true → le a c = true) :
    ∀ (L1 L2 : List Nat), L1.Pairwise (fun a b => le a b = true) →
      ∀ a ∈ L1, ∀ b ∈ L2, le a b = true → [a, b].Sublist (List.merge L1 L2 le) := by
  intro L1
  induction L1 with
  | nil => intro L2 _ a ha; simp at ha
  | cons x xs ih =>
    intro L2
    induction L2 with
    | nil => intro _ a _ b hb; simp at hb
    | cons y ys ih2 =>
      intro s1 a ha b hb hab
      rw [List.cons_merge_cons]
      split
      · rcases List.mem_cons.1 ha with e | ha'
        · subst e
          exact (List.singleton_sublist.2 (List.mem_merge_right le hb)).cons₂ a
        · exact (ih (y :: ys) s1.tail a ha' b hb hab).cons x
      · rename_i hxy
        rcases List.mem_cons.1 hb with e | hb'
        · subst e
          exfalso
          apply hxy
          rcases List.mem_cons.1 ha with e | ha'
          · subst e; exact hab
          · exact trans _ _ _ (List.rel_of_pairwise_cons s1 ha') hab
        · exact (ih2 s1 a ha b hb' hab).cons y

theorem value_of_isSome {h : Heap} {p : Nat}
    (hv : ((getValue h (.addr p)).join).isSome = true) :
    getValue h (.addr p) = some (some (payload h p)) := by
  unfold payload
  cases hg : getValue h (.addr p) with
  | none => simp [hg] at hv
  | some v =>
    cases v with
    | none => simp [hg] at hv
    | some s => simp

/-- With exactly one empty argument `q_merge` dereferences `new_head`, which is still
`NULL`. -/
theorem q_merge_null_right (fuel : Nat) (h : Heap) (x : Nat) :
    q_merge (fuel + 1) h (.addr x) .null = none := by
  simp [q_merge, q_merge_loop, q_merge_tail, setNext, load]

theorem q_merge_null_left (fuel : Nat) (h : Heap) (y : Nat) :
    q_merge (fuel + 1) h .null (.addr y) = none := by
  simp [q_merge, q_merge_loop, q_merge_tail, setNext, load]

theorem q_merge_null_null (fuel : Nat) (h : Heap) :
    q_merge (fuel + 1) h .null .null = some (h, .null) := by
  simp [q_merge, q_merge_loop, q_merge_tail]

/-! ## The calls of `q_merge` made by `merge_sort` -/

theorem merge_sort_traced_fst : ∀ (fuel : Nat) (h : Heap) (p : Ptr),
    (merge_sort_traced fuel h p).map Prod.fst = merge_sort fuel h p := by
  intro fuel
  induction fuel with
  | zero => intro h p; rfl
  | succ fuel ih =>
    intro h p
    simp only [merge_sort_traced, merge_sort]
    split
    · rfl
    · cases hn : getNext h p with
      | none => rfl
      | some nx =>
        simp only [Option.bind_eq_bind, Option.some_bind, Option.pure_def]
        split
        · rfl
        · cases hw : merge_sort_walk fuel h p nx with
          | none => rfl
          | some slow =>
            simp only [Option.some_bind]
            cases hf : getNext h slow with
            | none => rfl
            | some fast =>
              simp only [Option.some_bind]
              cases hs : setNext h slow .null with
              | none => rfl
              | some g =>
                simp only [Option.some_bind]
                rw [← ih g p]
                cases h1 : merge_sort_traced fuel g p with
                | none => rfl
                | some r1 =>
                  obtain ⟨⟨g1, p1⟩, c1⟩ := r1
                  simp only [Option.map_some', Option.some_bind]
                  rw [← ih g1 fast]
                  cases h2 : merge_sort_traced fuel g1 fast with
                  | none => rfl
                  | some r2 =>
                    obtain ⟨⟨g2, p2⟩, c2⟩ := r2
                    simp only [Option.map_some', Option.some_bind]
                    cases q_merge fuel g2 p1 p2 <;> rfl

theorem q_merge_append_ne_null {h g : Heap} {l nh res nh' res' : Ptr} (hl : l ≠ .null)
    (e : q_merge_append h l nh res = some (g, nh', res')) :
    nh' ≠ .null ∧ res' ≠ .null ∨ (nh ≠ .null ∧ nh' ≠ .null ∧ res' = res) := by
  unfold q_merge_append at e
  split at e
  · cases e
    exact Or.inl ⟨hl, hl⟩
  · rename_i hnh
    cases nh with
    | null => exact absurd rfl hnh
    | addr a =>
      simp only [Option.bind_eq_bind, Option.bind_eq_some, Option.pure_def] at e
      obtain ⟨g1, e1, nx, e2, e3⟩ := e
      cases e3
      have hlive : isLive h (.addr a) = true := by
        cases hc : isLive h (.addr a) with
        | true => rfl
        | false =>
          simp only [setNext, ← isLive_addr, hc] at e1
          simp at e1
      rw [setNext_eq hlive] at e1
      cases e1
      rw [getNext_updNext] at e2
      simp only [if_true] at e2
      obtain ⟨r, hr⟩ := exists_getNext hlive
      rw [hr] at e2
      cases e2
      exact Or.inr ⟨hnh, hl, rfl⟩

theorem q_merge_loop_ne_null : ∀ (fuel : Nat) (h : Heap) (l1 l2 nh res : Ptr)
    (r : Heap × Ptr × Ptr × Ptr × Ptr), nh ≠ .null → res ≠ .null →
    q_merge_loop fuel h l1 l2 nh res = some r → r.2.2.2.2 ≠ .null := by
  intro fuel
  induction fuel with
  | zero => intro h l1 l2 nh res r _ _ e; simp [q_merge_loop] at e
  | succ fuel ih =>
    intro h l1 l2 nh res r hnh hres e
    unfold q_merge_loop at e
    split at e
    · rename_i hc
      simp only [Option.bind_eq_bind, Option.bind_eq_some] at e
      obtain ⟨c, _, c2, _, c3, _, e⟩ := e
      split at e
      · simp only [Option.bind_eq_bind, Option.bind_eq_some] at e
        obtain ⟨⟨g, nh', res'⟩, ea, n2, _, e⟩ := e
        rcases q_merge_append_ne_null hc.2 ea with ⟨u, v⟩ | ⟨_, u, v⟩
        · exact ih g l1 n2 nh' res' r u v e
        · exact ih g l1 n2 nh' res' r u (v ▸ hres) e
      · simp only [Option.bind_eq_bind, Option.bind_eq_some] at e
        obtain ⟨⟨g, nh', res'⟩, ea, n1, _, e⟩ := e
        rcases q_merge_append_ne_null hc.1 ea with ⟨u, v⟩ | ⟨_, u, v⟩
        · exact ih g n1 l2 nh' res' r u v e
        · exact ih g n1 l2 nh' res' r u (v ▸ hres) e
    · simp only [Option.pure_def] at e
      cases e
      exact hres

/-- When `q_merge` returns and its first argument is not `NULL`, neither is its
second argument nor the chain it returns. -/
theorem q_merge_ne_null {fuel : Nat} {h g : Heap} {l1 l2 res : Ptr} (h1 : l1 ≠ .null)
    (e : q_merge fuel h l1 l2 = some (g, res)) : l2 ≠ .null ∧ res ≠ .null := by
  cases fuel with
  | zero => simp [q_merge, q_merge_loop] at e
  | succ fuel =>
    unfold q_merge q_merge_loop at e
    by_cases h2 : l2 = .null
    · subst h2
      cases l1 with
      | null => exact absurd rfl h1
      | addr a => simp [q_merge_tail, setNext] at e
    · refine ⟨h2, ?_⟩
      simp only [h1, h2, ne_eq, not_false_eq_true, and_self, if_true, Option.bind_eq_bind,
        Option.bind_eq_some, Option.pure_def] at e
      obtain ⟨⟨g1, a1, a2, nh, r⟩, ⟨c, _, c2, _, c3, _, e⟩, g2, _, e3⟩ := e
      cases e3
      split at e
      · simp only [q_merge_append, if_true, Option.bind_eq_bind, Option.some_bind,
          Option.bind_eq_some] at e
        obtain ⟨n2, _, e⟩ := e
        exact q_merge_loop_ne_null fuel _ _ _ _ _ _ h2 h2 e
      · simp only [q_merge_append, if_true, Option.bind_eq_bind, Option.some_bind,
          Option.bind_eq_some] at e
        obtain ⟨n1, _, e⟩ := e
        exact q_merge_loop_ne_null fuel _ _ _ _ _ _ h1 h1 e

theorem merge_sort_traced_null {fuel : Nat} {h : Heap}
    {r : (Heap × Ptr) × List (Ptr × Ptr)} (e : merge_sort_traced fuel h .null = some r) :
    r.1.2 = .null := by
  cases fuel with
  | zero => simp [merge_sort_traced] at e
  | succ fuel =>
    simp only [merge_sort_traced, if_true] at e
    cases e
    rfl

/-- When `merge_sort` returns on a chain that is not empty, the chain it returns is
not empty and every call of `q_merge` it made had two arguments other than `NULL`. -/
theorem merge_sort_traced_calls : ∀ (fuel : Nat) (h : Heap) (p : Ptr)
    (r : (Heap × Ptr) × List (Ptr × Ptr)), p ≠ .null → merge_sort_traced fuel h p = some r →
    r.1.2 ≠ .null ∧ ∀ c ∈ r.2, c.1 ≠ .null ∧ c.2 ≠ .null := by
  intro fuel
  induction fuel with
  | zero => intro h p r _ e; simp [merge_sort_traced] at e
  | succ fuel ih =>
    intro h p r hp e
    unfold merge_sort_traced at e
    simp only [hp, if_false, Option.bind_eq_bind, Option.bind_eq_some, Option.pure_def] at e
    obtain ⟨nx, _, e⟩ := e
    split at e
    · cases e
      exact ⟨hp, by simp⟩
    · simp only [Option.bind_eq_some] at e
      obtain ⟨fast, _, slow, _, fast2, _, g, _, ⟨⟨g1, p1⟩, c1⟩, e1, ⟨⟨g2, p2⟩, c2⟩, e2,
        ⟨g3, p3⟩, e3, e4⟩ := e
      cases e4
      obtain ⟨n1, k1⟩ := ih g p _ hp e1
      obtain ⟨n2, n3⟩ := q_merge_ne_null n1 e3
      have hf2 : fast2 ≠ .null := by
        intro hf
        subst hf
        exact n2 (merge_sort_traced_null e2)
      obtain ⟨_, k2⟩ := ih g1 fast2 _ hf2 e2
      refine ⟨n3, ?_⟩
      intro c hc
      simp only [List.mem_append, List.mem_singleton] at hc
      rcases hc with (hc | hc) | hc
      · exact k1 c hc
      · exact k2 c hc
      · subst hc
        exact ⟨n1, n2⟩

/-! ## Sequences of insertions and removals -/

theorem cell_none_of_isSome {h g : Heap} {a : Nat} (e : (g.cell a).isSome = (h.cell a).isSome)
    (hn : h.cell a = none) : g.cell a = none := by
  rw [hn] at e
  cases hg : g.cell a with
  | none => rfl
  | some n => rw [hg] at e; simp at e

/-- Running calls on a well-formed queue, every insertion receiving an unused cell:
the calls return, the queue stays well formed, every insertion is performed and the
length changes by the insertions less the removals performed. -/
theorem runCalls_spec : ∀ (cs : List Call) (h : Heap) (head : Nat) (ps : List Nat)
    (ins rem : Nat), IsQueue h head ps → (callCells cs).Nodup →
    (∀ a ∈ callCells cs, h.cell a = none) →
    ∃ h' ins' rem' ps', runCalls (.addr head) cs h ins rem = some (h', ins', rem') ∧
      IsQueue h' head ps' ∧ ins' = ins + (callCells cs).length ∧ rem ≤ rem' ∧
      ps'.length + rem' + ins = ps.length + rem + ins' := by
  intro cs
  induction cs with
  | nil =>
    intro h head ps ins rem q _ _
    exact ⟨h, ins, rem, ps, rfl, q, by simp [callCells], le_refl _, by omega⟩
  | cons c cs ih =>
    intro h head ps ins rem q nd hfree
    cases c with
    | insert_head s a =>
      simp only [callCells, List.nodup_cons, List.mem_cons, forall_eq_or_imp] at nd hfree
      obtain ⟨h1, e1, q1, _, _, lv, _⟩ := q_insert_head_spec q s hfree.1
      have hfree1 : ∀ b ∈ callCells cs, h1.cell b = none := by
        intro b hb
        refine cell_none_of_isSome ?_ (hfree.2 b hb)
        have hba : b ≠ a := fun e => nd.1 (e ▸ hb)
        rw [lv b, if_neg hba]
      obtain ⟨h', ins', rem', ps', e, q', i1, r1, l1⟩ := ih h1 head (a :: ps) (ins + 1) rem q1
        nd.2 hfree1
      refine ⟨h', ins', rem', ps', ?_, q', ?_, r1, ?_⟩
      · simp only [runCalls, runCall, e1, Option.map_some', Option.bind_eq_bind,
          Option.some_bind, if_true, Nat.add_zero]
        exact e
      · simp only [callCells, List.length_cons]; omega
      · simp only [List.length_cons] at l1; omega
    | insert_tail s a =>
      simp only [callCells, List.nodup_cons, List.mem_cons, forall_eq_or_imp] at nd hfree
      obtain ⟨h1, e1, q1, _, _, lv, _⟩ := q_insert_tail_spec q s hfree.1
      have hfree1 : ∀ b ∈ callCells cs, h1.cell b = none := by
        intro b hb
        refine cell_none_of_isSome ?_ (hfree.2 b hb)
        have hba : b ≠ a := fun e => nd.1 (e ▸ hb)
        rw [lv b, if_neg hba]
      obtain ⟨h', ins', rem', ps', e, q', i1, r1, l1⟩ := ih h1 head (ps ++ [a]) (ins + 1) rem q1
        nd.2 hfree1
      refine ⟨h', ins', rem', ps', ?_, q', ?_, r1, ?_⟩
      · simp only [runCalls, runCall, e1, Option.map_some', Option.bind_eq_bind,
          Option.some_bind, if_true, Nat.add_zero]
        exact e
      · simp only [callCells, List.length_cons]; omega
      · simp only [List.length_append, List.length_cons, List.length_nil] at l1; omega
    | remove_head sp n =>
      simp only [callCells] at nd hfree
      cases ps with
      | nil =>
        obtain ⟨h', ins', rem', ps', e, q', i1, r1, l1⟩ := ih h head [] ins rem q nd hfree
        refine ⟨h', ins', rem', ps', ?_, q', by simpa [callCells] using i1, r1, l1⟩
        simp only [runCalls, runCall, q_remove_head_empty q, Option.map_some',
          Option.bind_eq_bind, Option.some_bind, if_true, Nat.add_zero]
        exact e
      | cons x Y =>
        obtain ⟨h1, sp', e1, _, q1, _, lv, _⟩ := q_remove_head_spec q sp n
        have hfree1 : ∀ b ∈ callCells cs, h1.cell b = none :=
          fun b hb => cell_none_of_isSome (lv b) (hfree b hb)
        obtain ⟨h', ins', rem', ps', e, q', i1, r1, l1⟩ := ih h1 head Y ins (rem + 1) q1 nd
          hfree1
        refine ⟨h', ins', rem', ps', ?_, q', by simpa [callCells] using i1, by omega, ?_⟩
        · simp only [runCalls, runCall, e1, Option.map_some', Option.bind_eq_bind,
            Option.some_bind, reduceCtorEq, if_false, Nat.add_zero]
          exact e
        · simp only [List.length_cons] at l1 ⊢; omega
    | remove_tail sp n =>
      simp only [callCells] at nd hfree
      rcases List.eq_nil_or_concat ps with e0 | ⟨X, x, e0⟩
      · subst e0
        obtain ⟨h', ins', rem', ps', e, q', i1, r1, l1⟩ := ih h head [] ins rem q nd hfree
        refine ⟨h', ins', rem', ps', ?_, q', by simpa [callCells] using i1, r1, l1⟩
        simp only [runCalls, runCall, q_remove_tail_empty q, Option.map_some',
          Option.bind_eq_bind, Option.some_bind, if_true, Nat.add_zero]
        exact e
      · rw [List.concat_eq_append] at e0
        subst e0
        obtain ⟨h1, sp', e1, _, q1, _, lv, _⟩ := q_remove_tail_spec q sp n
        have hfree1 : ∀ b ∈ callCells cs, h1.cell b = none :=
          fun b hb => cell_none_of_isSome (lv b) (hfree b hb)
        obtain ⟨h', ins', rem', ps', e, q', i1, r1, l1⟩ := ih h1 head X ins (rem + 1) q1 nd
          hfree1
        refine ⟨h', ins', rem', ps', ?_, q', by simpa [callCells] using i1, by omega, ?_⟩
        · simp only [runCalls, runCall, e1, Option.map_some', Option.bind_eq_bind,
            Option.some_bind, reduceCtorEq, if_false, Nat.add_zero]
          exact e
        · simp only [List.length_append, List.length_cons, List.length_nil] at l1 ⊢; omega

/-! ## The shuffle on lists of payloads -/

theorem swapAt_snoc (P : List Str) (x : Str) (S : List Str) (j : Nat) (hj : j < P.length) :
    swapAt (P ++ x :: S) P.length j = P.set j x ++ P[j] :: S := by
  have e1 : (P ++ x :: S)[P.length]? = some x := by
    rw [List.getElem?_append_right (le_refl _)]; simp
  have e2 : (P ++ x :: S)[j]? = some P[j] := by
    rw [List.getElem?_append_left hj]; simp [hj]
  unfold swapAt
  rw [e1, e2]
  simp only
  rw [List.set_append_right _ _ (le_refl _), Nat.sub_self, List.set_cons_zero,
    List.set_append_left _ _ hj]

theorem set_snoc_perm (P : List Str) (x : Str) (j : Nat) (hj : j < P.length) :
    (P.set j x ++ [P[j]]).Perm (P ++ [x]) := by
  have e1 : P.set j x = P.take j ++ x :: P.drop (j + 1) := by
    rw [List.set_eq_take_append_cons_drop, if_pos hj]
  have e2 : P = P.take j ++ P[j] :: P.drop (j + 1) := by
    rw [← List.drop_eq_getElem_cons hj, List.take_append_drop]
  rw [e1]
  nth_rewrite 4 [e2]
  simp only [List.append_assoc, List.cons_append]
  refine (List.perm_append_left_iff _).2 ?_
  refine List.Perm.trans (List.Perm.cons _ (List.perm_append_singleton _ _)) ?_
  refine List.Perm.trans (List.Perm.swap _ _ _) ?_
  exact List.Perm.cons _ (List.perm_append_singleton _ _).symm

/-- One iteration of the loop on a list whose first `m + 1` entries are `P ++ [x]`:
the entries after them are not touched. -/
theorem step_decomp (P : List Str) (x : Str) (j : Nat) (hj : j ≤ P.length) :
    ∃ P1 y1, P1.length = P.length ∧
      (∀ S, (if P.length ≠ j then swapAt (P ++ x :: S) P.length j else P ++ x :: S)
        = P1 ++ y1 :: S) ∧
      (P1 ++ [y1]).Perm (P ++ [x]) ∧
      (j = P.length → P1 = P ∧ y1 = x) ∧
      (∀ hlt : j < P.length, P1 = P.set j x ∧ y1 = P[j]) := by
  by_cases e : j = P.length
  · refine ⟨P, x, rfl, ?_, List.Perm.refl _, fun _ => ⟨rfl, rfl⟩, fun hlt => by omega⟩
    intro S
    rw [if_neg (by simp [e])]
  · have hlt : j < P.length := by omega
    refine ⟨P.set j x, P[j], by simp, ?_, set_snoc_perm P x j hlt, fun h => absurd h e,
      fun _ => ⟨rfl, rfl⟩⟩
    intro S
    rw [if_pos (fun h => e h.symm), swapAt_snoc P x S j hlt]

theorem shuffleBy_append (d : Nat → Nat) : ∀ (m : Nat) (P S : List Str), P.length = m →
    shuffleBy d m (P ++ S) = shuffleBy d m P ++ S := by
  intro m
  induction m with
  | zero => intro P S _; rfl
  | succ m ih =>
    intro P S hP
    rcases List.eq_nil_or_concat P with e | ⟨P0, x, e⟩
    · subst e; simp at hP
    · rw [List.concat_eq_append] at e
      subst e
      have hm : P0.length = m := by simpa using hP
      obtain ⟨P1, y1, l1, st, _, _, _⟩ := step_decomp P0 x (d m % (m + 1))
        (by rw [hm]; exact Nat.lt_succ_iff.1 (Nat.mod_lt _ (Nat.succ_pos _)))
      have s1 := st S
      have s2 := st []
      rw [hm] at s1 s2
      simp only [shuffleBy, List.append_assoc, List.singleton_append]
      rw [s1, s2, ih P1 (y1 :: S) (by omega), ih P1 [y1] (by omega)]
      simp

theorem shuffleBy_length (d : Nat → Nat) : ∀ (m : Nat) (P : List Str), P.length = m →
    (shuffleBy d m P).length = m := by
  intro m
  induction m with
  | zero => intro P hP; simpa [shuffleBy] using hP
  | succ m ih =>
    intro P hP
    rcases List.eq_nil_or_concat P with e | ⟨P0, x, e⟩
    · subst e; simp at hP
    · rw [List.concat_eq_append] at e
      subst e
      have hm : P0.length = m := by simpa using hP
      obtain ⟨P1, y1, l1, st, _, _, _⟩ := step_decomp P0 x (d m % (m + 1))
        (by rw [hm]; exact Nat.lt_succ_iff.1 (Nat.mod_lt _ (Nat.succ_pos _)))
      have s2 := st []
      rw [hm] at s2
      simp only [shuffleBy]
      rw [s2, shuffleBy_append d m P1 [y1] (by omega)]
      simp [ih P1 (by omega)]

theorem shuffleBy_perm (d : Nat → Nat) : ∀ (m : Nat) (P : List Str), P.length = m →
    (shuffleBy d m P).Perm P := by
  intro m
  induction m with
  | zero => intro P _; exact List.Perm.refl _
  | succ m ih =>
    intro P hP
    rcases List.eq_nil_or_concat P with e | ⟨P0, x, e⟩
    · subst e; simp at hP
    · rw [List.concat_eq_append] at e
      subst e
      have hm : P0.length = m := by simpa using hP
      obtain ⟨P1, y1, l1, st, pm, _, _⟩ := step_decomp P0 x (d m % (m + 1))
        (by rw [hm]; exact Nat.lt_succ_iff.1 (Nat.mod_lt _ (Nat.succ_pos _)))
      have s2 := st []
      rw [hm] at s2
      simp only [shuffleBy]
      rw [s2, shuffleBy_append d m P1 [y1] (by omega)]
      exact List.Perm.trans ((List.perm_append_right_iff _).2 (ih P1 (by omega))) pm

theorem shuffleBy_congr {d d' : Nat → Nat} : ∀ (m : Nat) (l : List Str),
    (∀ i, i < m → d i = d' i) → shuffleBy d m l = shuffleBy d' m l := by
  intro m
  induction m with
  | zero => intro l _; rfl
  | succ m ih =>
    intro l hd
    simp only [shuffleBy]
    rw [hd m (Nat.lt_succ_self m)]
    exact ih _ (fun i hi => hd i (Nat.lt_succ_of_lt hi))

theorem shuffleList_eq (rnd : Nat → Nat) : ∀ (m k : Nat) (l : List Str),
    shuffleList rnd m k l = shuffleBy (fun i => rnd (k + m - 1 - i)) m l := by
  intro m
  induction m with
  | zero => intro k l; rfl
  | succ m ih =>
    intro k l
    simp only [shuffleList, shuffleBy]
    have e : k + (m + 1) - 1 - m = k := by omega
    rw [e, ih (k + 1)]
    refine shuffleBy_congr m _ ?_
    intro i _
    have : k + 1 + m - 1 - i = k + (m + 1) - 1 - i := by omega
    simp only [this]

theorem shuffleList_drawStream (d : Nat → Nat) (l : List Str) :
    shuffleList (drawStream l.length d) l.length 0 l = shuffleBy d l.length l := by
  rw [shuffleList_eq]
  refine shuffleBy_congr _ _ ?_
  intro i hi
  simp only [drawStream]
  congr 1
  omega

/-- The loop of `q_shuffle` and the loop of the reference procedure give the same
payloads: the extra iteration of `q_shuffle` for the position `0` draws `0` and
exchanges nothing. -/
theorem shuffleList_eq_fisherYatesLoop (rnd : Nat → Nat) : ∀ (i c : Nat) (l : List Str),
    shuffleList rnd (i + 1) c l = fisherYatesLoop (fun c k => rnd c % k) i c l := by
  intro i
  induction i with
  | zero =>
    intro c l
    simp [shuffleList, fisherYatesLoop, Nat.mod_one]
  | succ i ih =>
    intro c l
    rw [shuffleList, fisherYatesLoop, ih]

theorem shuffleList_short (rnd : Nat → Nat) (l : List Str) (hl : l.length ≤ 1) :
    shuffleList rnd l.length 0 l = l := by
  match l, hl with
  | [], _ => rfl
  | [a], _ => simp [shuffleList, Nat.mod_one]

/-! ## Every order of the payloads comes from exactly one sequence of draws -/

/-- The first iteration of the loop on `P ++ [x]` with the draw `d m` in range. -/
theorem shuffleBy_succ (d : Nat → Nat) (P : List Str) (x : Str) (hd : d P.length ≤ P.length) :
    ∃ P1 y1, P1.length = P.length ∧
      shuffleBy d (P.length + 1) (P ++ [x]) = shuffleBy d P.length P1 ++ [y1] ∧
      (P1 ++ [y1]).Perm (P ++ [x]) ∧
      (d P.length = P.length → P1 = P ∧ y1 = x) ∧
      (∀ hlt : d P.length < P.length, P1 = P.set (d P.length) x ∧ y1 = P[d P.length]) := by
  have hmod : d P.length % (P.length + 1) = d P.length := Nat.mod_eq_of_lt (by omega)
  obtain ⟨P1, y1, l1, st, pm, c1, c2⟩ := step_decomp P x (d P.length) hd
  refine ⟨P1, y1, l1, ?_, pm, c1, c2⟩
  have s := st []
  simp only [shuffleBy, hmod]
  rw [s, ← l1, shuffleBy_append d P1.length P1 [y1] rfl]

theorem shuffleBy_bijective : ∀ (m : Nat) (P t : List Str), P.length = m → P.Nodup →
    t.Perm P →
    ∃ d : Nat → Nat, (∀ i, d i ≤ i) ∧ shuffleBy d m P = t ∧
      ∀ d' : Nat → Nat, (∀ i, i < m → d' i ≤ i) → shuffleBy d' m P = t →
        ∀ i, i < m → d' i = d i := by
  intro m
  induction m with
  | zero =>
    intro P t hP _ pm
    have : P = [] := List.length_eq_zero.1 hP
    subst this
    have : t = [] := pm.eq_nil
    subst this
    exact ⟨fun _ => 0, fun _ => Nat.zero_le _, rfl, fun _ _ _ i hi => absurd hi (Nat.not_lt_zero _)⟩
  | succ m ih =>
    intro P t hP nd pm
    rcases List.eq_nil_or_concat P with e | ⟨P0, x, e⟩
    · subst e; simp at hP
    rw [List.concat_eq_append] at e
    subst e
    have hm : P0.length = m := by simpa using hP
    subst hm
    rcases List.eq_nil_or_concat t with e | ⟨t0, y, e⟩
    · subst e
      have := pm.length_eq
      simp at this
    rw [List.concat_eq_append] at e
    subst e
    have ht0 : t0.length = P0.length := by
      have := pm.length_eq
      simpa using this
    have hxP : x ∉ P0 := by
      have := List.nodup_append.1 nd
      exact fun hx => this.2.2 hx (List.mem_singleton_self x)
    have ndP0 : P0.Nodup := (List.nodup_append.1 nd).1
    have hy : y ∈ P0 ++ [x] := pm.mem_iff.1 (by simp)
    -- the value the draw for the last position has to take
    obtain ⟨j, hj, hjspec⟩ : ∃ j, j ≤ P0.length ∧
        ((j = P0.length ∧ y = x) ∨ ∃ hlt : j < P0.length, P0[j] = y) := by
      by_cases hyx : y = x
      · exact ⟨P0.length, le_refl _, Or.inl ⟨rfl, hyx⟩⟩
      · have : y ∈ P0 := by
          rcases List.mem_append.1 hy with h | h
          · exact h
          · exact absurd (List.mem_singleton.1 h) hyx
        obtain ⟨j, hlt, e⟩ := List.getElem_of_mem this
        exact ⟨j, le_of_lt hlt, Or.inr ⟨hlt, e⟩⟩
    -- whatever is drawn, the last entry of the result tells the draw
    have huniq : ∀ d' : Nat → Nat, d' P0.length ≤ P0.length → ∀ P1 y1,
        (d' P0.length = P0.length → P1 = P0 ∧ y1 = x) →
        (∀ hlt : d' P0.length < P0.length, P1 = P0.set (d' P0.length) x ∧
          y1 = P0[d' P0.length]) → y1 = y → d' P0.length = j := by
      intro d' hd' P1 y1 c1 c2 hy1
      rcases hjspec with ⟨ej, eyx⟩ | ⟨hlt, ej⟩
      · by_contra hne
        have hlt' : d' P0.length < P0.length := by omega
        have := (c2 hlt').2
        rw [hy1, eyx] at this
        exact hxP (this ▸ List.getElem_mem _)
      · by_cases hd : d' P0.length = P0.length
        · have := (c1 hd).2
          rw [hy1, ← ej] at this
          exact absurd (this ▸ List.getElem_mem _ : x ∈ P0) hxP
        · have hlt' : d' P0.length < P0.length := by omega
          have := (c2 hlt').2
          rw [hy1, ← ej] at this
          exact ((ndP0.getElem_inj_iff).1 this).symm
    -- the step with the draw `j`
    obtain ⟨P1, y1, l1, s1, pm1, c1, c2⟩ := shuffleBy_succ (fun i => if i = P0.length then j else 0)
      P0 x (by simp [hj])
    simp only [if_true] at c1 c2
    have hy1 : y1 = y := by
      rcases hjspec with ⟨ej, eyx⟩ | ⟨hlt, ej⟩
      · rw [(c1 ej).2, eyx]
      · rw [(c2 hlt).2, ej]
    subst hy1
    have pm0 : t0.Perm P1 :=
      (List.perm_append_right_iff [y1]).1 (pm.trans pm1.symm)
    have ndP1 : P1.Nodup := (List.nodup_append.1 ((pm1.nodup_iff).2 nd)).1
    obtain ⟨d0, a0, r0, u0⟩ := ih P1 t0 l1 ndP1 pm0
    refine ⟨fun i => if i = P0.length then j else d0 i, ?_, ?_, ?_⟩
    · intro i
      by_cases hi : i = P0.length
      · simp [hi, hj]
      · simp [hi, a0 i]
    · obtain ⟨Q1, z1, _, s2, _, k1, k2⟩ :=
        shuffleBy_succ (fun i => if i = P0.length then j else d0 i) P0 x (by simp [hj])
      simp only [if_true] at k1 k2
      have hQ : Q1 = P1 ∧ z1 = y1 := by
        by_cases ej : j = P0.length
        · rw [(k1 ej).1, (k1 ej).2, (c1 ej).1, (c1 ej).2]; exact ⟨rfl, rfl⟩
        · have hlt : j < P0.length := by omega
          rw [(k2 hlt).1, (k2 hlt).2, (c2 hlt).1, (c2 hlt).2]; exact ⟨rfl, rfl⟩
      rw [s2, hQ.1, hQ.2]
      rw [@shuffleBy_congr _ d0 P0.length P1 (fun i hi => by simp [Nat.ne_of_lt hi]), r0]
    · intro d' ad' e' i hi
      obtain ⟨Q1, z1, lq, s2, _, k1, k2⟩ := shuffleBy_succ d' P0 x (ad' _ (Nat.lt_succ_self _))
      rw [s2] at e'
      obtain ⟨eq1, eq2⟩ := List.append_inj' e' rfl
      have ez : z1 = y1 := by simpa using eq2
      have hdj : d' P0.length = j := huniq d' (ad' _ (Nat.lt_succ_self _)) Q1 z1 k1 k2 ez
      have hQ : Q1 = P1 := by
        by_cases ej : j = P0.length
        · rw [(k1 (hdj.trans ej)).1, (c1 ej).1]
        · have hlt : j < P0.length := by omega
          rw [(k2 (hdj ▸ hlt)).1, (c2 hlt).1, hdj]
      rw [hQ] at eq1
      by_cases hi' : i = P0.length
      · subst hi'; simp [hdj]
      · have hlt : i < P0.length := by omega
        simp only [hi', if_false]
        exact u0 d' (fun k hk => ad' k (Nat.lt_succ_of_lt hk)) eq1 i hlt

/-! ## The loop of `q_shuffle` -/

theorem q_shuffle_walk_spec {h : Heap} : ∀ (j : Nat) (xs : List Nat) (p e : Ptr) (y : Nat),
    Path h p xs e → xs[j]? = some y → q_shuffle_walk j h p = some (.addr y) := by
  intro j
  induction j with
  | zero =>
    intro xs p e y hp hy
    match xs, hp, hy with
    | a :: _, hp, hy =>
      simp only [List.getElem?_cons_zero, Option.some.injEq] at hy
      subst hy
      rw [hp.1]; rfl
  | succ j ih =>
    intro xs p e y hp hy
    match xs, hp, hy with
    | a :: xs, ⟨hx, nx, hn, hr⟩, hy =>
      subst hx
      simp only [List.getElem?_cons_succ] at hy
      simp only [q_shuffle_walk, hn, Option.bind_eq_bind, Option.some_bind]
      exact ih xs nx e y hr hy

/-- The link from the cell `x` of a queue to the cell before it. -/
theorem IsQueue.prev_at {h : Heap} {head : Nat} {X Y : List Nat} {x : Nat}
    (q : IsQueue h head (X ++ x :: Y)) :
    getPrev h (.addr x) = some (hdPtr (X.reverse ++ [head])) := by
  obtain ⟨A, P, hP⟩ := exists_concat head X
  obtain ⟨N, B, hN⟩ := exists_cons Y head
  obtain ⟨hl, _⟩ := q.links_at hP hN
  have : X.reverse ++ [head] = P :: A.reverse := by
    have := congrArg List.reverse hP
    simpa using this
  rw [this]; exact hl.2

/-- The link from the sentinel of a queue to its last cell. -/
theorem IsQueue.prev_head {h : Heap} {head : Nat} {ps : List Nat} (q : IsQueue h head ps) :
    getPrev h (.addr head) = some (hdPtr (ps.reverse ++ [head])) := by
  obtain ⟨A, P, hP⟩ := exists_concat head ps
  have hc := q.links
  have e1 : head :: ps ++ [head] = A ++ [P, head] := by
    rw [hP]; simp
  rw [e1] at hc
  have hl : Link h P head := by
    have := (List.chain'_split.1 hc).2
    simp only [List.chain'_cons, List.chain'_singleton, and_true] at this
    exact this
  have : ps.reverse ++ [head] = P :: A.reverse := by
    have := congrArg List.reverse hP
    simpa using this
  rw [this]; exact hl.2

/-- Exchanging the `value` pointers of the cell `x` at the position `P.length` and of
the cell at an earlier position `j`, as one iteration of `q_shuffle` does. -/
theorem q_shuffle_swap_spec {h : Heap} {head : Nat} {P S : List Nat} {x : Nat} {j : Nat}
    (q : IsQueue h head (P ++ x :: S)) (hj : j < P.length) :
    ∃ h', q_shuffle_swap h (.addr head) (.addr x) j = some h' ∧
      IsQueue h' head (P ++ x :: S) ∧
      payloads h' (P ++ x :: S) = swapAt (payloads h (P ++ x :: S)) P.length j ∧
      (∀ p, getNext h' p = getNext h p) ∧ (∀ p, getPrev h' p = getPrev h p) ∧
      (∀ p, isLive h' p = isLive h p) ∧
      (∀ a, a ∉ P ++ x :: S → getValue h' (.addr a) = getValue h (.addr a)) := by
  obtain ⟨_, nx, hn, hr⟩ := q.path
  have hyP : P[j] ∈ P := List.getElem_mem _
  have hy : P[j] ∈ P ++ x :: S := List.mem_append_left _ hyP
  have hx : x ∈ P ++ x :: S := by simp
  have hjy : (P ++ x :: S)[j]? = some P[j] := by
    rw [List.getElem?_append_left hj]; simp [hj]
  have hw := q_shuffle_walk_spec j _ _ _ _ hr hjy
  have nd : (P ++ x :: S).Nodup := (List.nodup_cons.1 q.nodup).2
  have hxP : x ∉ P := fun hm =>
    (List.nodup_append.1 nd).2.2 hm (List.mem_cons_self _ _)
  have hxS : x ∉ S := (List.nodup_cons.1 (List.nodup_append.1 nd).2.1).1
  have hyx : P[j] ≠ x := fun e => hxP (e ▸ hyP)
  have hxy : x ≠ P[j] := fun e => hyx e.symm
  have lx : isLive h (.addr x) = true := q.live x (List.mem_cons_of_mem _ hx)
  have ly : isLive h (.addr P[j]) = true := q.live _ (List.mem_cons_of_mem _ hy)
  have vx := q.value hx
  have vy := q.value hy
  have hval : ∀ a, getValue
      (updValue (updValue h x (some (payload h P[j]))) P[j] (some (payload h x))) (.addr a)
      = if a = P[j] then some (some (payload h x))
        else if a = x then some (some (payload h P[j])) else getValue h (.addr a) := by
    intro a
    rw [getValue_updValue]
    by_cases e1 : a = P[j]
    · rw [if_pos e1, if_pos e1, getValue_updValue, if_neg hyx, vy]; rfl
    · rw [if_neg e1, if_neg e1, getValue_updValue]
      by_cases e2 : a = x
      · rw [if_pos e2, if_pos e2, vx]; rfl
      · rw [if_neg e2, if_neg e2]
  have hpay : ∀ a, payload
      (updValue (updValue h x (some (payload h P[j]))) P[j] (some (payload h x))) a
      = if a = P[j] then payload h x else if a = x then payload h P[j] else payload h a := by
    intro a
    have e : payload
        (updValue (updValue h x (some (payload h P[j]))) P[j] (some (payload h x))) a
        = ((getValue (updValue (updValue h x (some (payload h P[j]))) P[j]
            (some (payload h x))) (.addr a)).join).getD [] := rfl
    rw [e, hval a]
    by_cases e1 : a = P[j]
    · simp [e1]
    · by_cases e2 : a = x
      · simp [e2, hxy]
      · simp only [e1, e2, if_false]
        rfl
  refine ⟨updValue (updValue h x (some (payload h P[j]))) P[j] (some (payload h x)),
    ?_, ?_, ?_, fun p => by simp, fun p => by simp, fun p => by simp, ?_⟩
  · simp only [q_shuffle_swap, hn, Option.bind_eq_bind, Option.some_bind, hw, vx, vy]
    rw [setValue_eq lx]
    simp only [Option.some_bind]
    rw [setValue_eq (by simpa using ly)]
  · refine ⟨q.nodup, chain_frame q.links (fun a _ => by simp) (fun b _ => by simp), ?_⟩
    intro p hp
    rw [hval p]
    by_cases e1 : p = P[j]
    · simp [e1]
    · by_cases e2 : p = x
      · simp [e2, hxy]
      · simp only [e1, e2, if_false]
        exact q.vals p hp
  · have e0 : payloads h (P ++ x :: S) = payloads h P ++ payload h x :: payloads h S := by
      simp [payloads]
    have hlen : (payloads h P).length = P.length := by simp [payloads]
    rw [e0, ← hlen, swapAt_snoc _ _ _ j (by rw [hlen]; exact hj)]
    simp only [payloads, List.map_append, List.map_cons]
    have hS : ∀ a ∈ S, payload
        (updValue (updValue h x (some (payload h P[j]))) P[j] (some (payload h x))) a
        = payload h a := by
      intro a ha
      rw [hpay a]
      have h1 : a ≠ P[j] := fun e =>
        (List.nodup_append.1 nd).2.2 hyP (List.mem_cons_of_mem _ (e ▸ ha))
      have h2 : a ≠ x := fun e => hxS (e ▸ ha)
      simp [h1, h2]
    rw [List.map_congr_left hS, hpay x, if_neg (fun e => hyx e.symm), if_pos rfl]
    congr 1
    · apply List.ext_getElem
      · simp
      · intro t h1 h2
        simp only [List.length_map] at h1
        rw [List.getElem_map, hpay, List.getElem_set]
        have h3 : P[t] ≠ x := fun e => hxP (e ▸ List.getElem_mem _)
        by_cases e : j = t
        · subst e; simp
        · have : P[t] ≠ P[j] := fun e' =>
            e (((List.nodup_append.1 nd).1.getElem_inj_iff).1 e').symm
          simp [e, this, h3]
    · simp
  · intro a ha
    rw [hval a]
    have h1 : a ≠ P[j] := fun e => ha (e ▸ hy)
    have h2 : a ≠ x := fun e => ha (e ▸ hx)
    simp [h1, h2]

/-- One iteration of the loop of `q_shuffle` at the cell `x` of the position `m`. -/
theorem q_shuffle_loop_step (fuel : Nat) (h : Heap) (head x m : Nat) (rnd : Nat → Nat)
    (k : Nat) (hx : x ≠ head) :
    q_shuffle_loop (fuel + 1) h (.addr head) (.addr x) (((m + 1 : Nat) : Int) - 1) rnd k
      = ((if m ≠ rnd k % (m + 1) then q_shuffle_swap h (.addr head) (.addr x) (rnd k % (m + 1))
          else some h).bind fun h1 =>
          (getPrev h1 (.addr x)).bind fun li =>
            q_shuffle_loop fuel h1 (.addr head) li ((m : Int) - 1) rnd (k + 1)) := by
  have hi1 : ((m + 1 : Nat) : Int) - 1 + 1 = ((m + 1 : Nat) : Int) := by omega
  have hjm : ((rnd k : Nat) : Int) % ((m + 1 : Nat) : Int) = ((rnd k % (m + 1) : Nat) : Int) :=
    (Int.ofNat_emod _ _).symm
  have hne : Ptr.addr x ≠ Ptr.addr head := fun e => hx (Ptr.addr.inj e)
  have hnz : ¬ (((m + 1 : Nat) : Int) = 0) := by omega
  have hi2 : ((m + 1 : Nat) : Int) - 1 - 1 = (m : Int) - 1 := by omega
  rw [q_shuffle_loop]
  simp only [hne, ne_eq, not_false_eq_true, if_true, hi1, hnz, if_false, hjm, Int.toNat_ofNat,
    hi2, Option.bind_eq_bind, Option.pure_def]
  by_cases e : m = rnd k % (m + 1)
  · have e' : ((m + 1 : Nat) : Int) - 1 = ((rnd k % (m + 1) : Nat) : Int) := by omega
    simp only [e', not_true_eq_false, if_false]
    rw [if_neg (by simpa using e)]
  · have e' : ¬ (((m + 1 : Nat) : Int) - 1 = ((rnd k % (m + 1) : Nat) : Int)) := by omega
    simp only [e', not_false_eq_true, if_true]
    rw [if_pos e]

theorem q_shuffle_loop_spec (rnd : Nat → Nat) {head : Nat} :
    ∀ (m : Nat) (P S : List Nat) (h : Heap) (k fuel : Nat), P.length = m →
    IsQueue h head (P ++ S) → m < fuel →
    ∃ h', q_shuffle_loop fuel h (.addr head) (hdPtr (P.reverse ++ [head])) ((m : Int) - 1)
        rnd k = some h' ∧
      IsQueue h' head (P ++ S) ∧
      payloads h' (P ++ S) = shuffleList rnd m k (payloads h (P ++ S)) ∧
      (∀ p, getNext h' p = getNext h p) ∧ (∀ p, getPrev h' p = getPrev h p) ∧
      (∀ p, isLive h' p = isLive h p) ∧
      (∀ a, a ∉ P ++ S → getValue h' (.addr a) = getValue h (.addr a)) := by
  intro m
  induction m with
  | zero =>
    intro P S h k fuel hP q hf
    have : P = [] := List.length_eq_zero.1 hP
    subst this
    obtain ⟨f, rfl⟩ : ∃ f, fuel = f + 1 := ⟨fuel - 1, by omega⟩
    refine ⟨h, ?_, q, rfl, fun _ => rfl, fun _ => rfl, fun _ => rfl, fun _ _ => rfl⟩
    simp [q_shuffle_loop, hdPtr]
  | succ m ih =>
    intro P S h k fuel hP q hf
    rcases List.eq_nil_or_concat P with e | ⟨P0, x, e⟩
    · subst e; simp at hP
    rw [List.concat_eq_append] at e
    subst e
    have hm : P0.length = m := by simpa using hP
    obtain ⟨f, rfl⟩ : ∃ f, fuel = f + 1 := ⟨fuel - 1, by omega⟩
    have eps : P0 ++ [x] ++ S = P0 ++ x :: S := by simp
    rw [eps] at q ⊢
    have hxh : x ≠ head := by
      have := (List.nodup_cons.1 q.nodup).1
      exact fun e => this (e ▸ (by simp))
    have hli : hdPtr ((P0 ++ [x]).reverse ++ [head]) = .addr x := by simp [hdPtr]
    have hjle : rnd k % (m + 1) ≤ m := Nat.lt_succ_iff.1 (Nat.mod_lt _ (Nat.succ_pos _))
    rw [hli, q_shuffle_loop_step f h head x m rnd k hxh]
    by_cases e : m = rnd k % (m + 1)
    · rw [if_neg (by simpa using e)]
      simp only [Option.some_bind, q.prev_at]
      obtain ⟨h', e1, q', pl, fn, fp, fl, fv⟩ := ih P0 (x :: S) h (k + 1) f hm q (by omega)
      refine ⟨h', e1, q', ?_, fn, fp, fl, fv⟩
      rw [pl, shuffleList, if_neg (by simpa using e)]
    · have hjlt : rnd k % (m + 1) < P0.length := by omega
      obtain ⟨h1, s1, q1, pl1, fn1, fp1, fl1, fv1⟩ := q_shuffle_swap_spec q hjlt
      rw [if_pos e, s1]
      simp only [Option.some_bind, fp1, q.prev_at]
      obtain ⟨h', e1, q', pl, fn, fp, fl, fv⟩ := ih P0 (x :: S) h1 (k + 1) f hm q1 (by omega)
      refine ⟨h', e1, q', ?_, fun p => (fn p).trans (fn1 p), fun p => (fp p).trans (fp1 p),
        fun p => (fl p).trans (fl1 p), fun a ha => (fv a ha).trans (fv1 a ha)⟩
      rw [pl, pl1, hm, shuffleList, if_pos e]

/-- What `q_shuffle` does to a well-formed queue whose size fits `int`: the cells and
their links stay and the payloads are those of the loop run on the list of
payloads. -/
theorem q_shuffle_spec {h : Heap} {head : Nat} {ps : List Nat} (q : IsQueue h head ps)
    (rnd : Nat → Nat) (hsz : ps.length ≤ INT_MAX) {fuel : Nat} (hf : ps.length < fuel) :
    ∃ h', q_shuffle fuel h (.addr head) rnd = some h' ∧ IsQueue h' head ps ∧
      payloads h' ps = shuffleList rnd ps.length 0 (payloads h ps) ∧
      (ps.length ≤ 1 → h' = h) ∧
      (∀ p, getNext h' p = getNext h p) ∧ (∀ p, getPrev h' p = getPrev h p) ∧
      (∀ p, isLive h' p = isLive h p) ∧
      (∀ a, a ∉ ps → getValue h' (.addr a) = getValue h (.addr a)) := by
  by_cases hs : ps.length ≤ 1
  · refine ⟨h, ?_, q, ?_, fun _ => rfl, fun _ => rfl, fun _ => rfl, fun _ => rfl,
      fun _ _ => rfl⟩
    · simp [q_shuffle, q_size_spec q hsz hf, hs]
    · have hl : (payloads h ps).length = ps.length := by simp [payloads]
      rw [← hl, shuffleList_short rnd _ (by rw [hl]; exact hs)]
  · obtain ⟨h', e, q', pl, fn, fp, fl, fv⟩ := q_shuffle_loop_spec rnd ps.length ps [] h 0 fuel
      rfl (by simpa using q) hf
    simp only [List.append_nil] at e q' pl fv
    refine ⟨h', ?_, q', pl, fun hc => absurd hc hs, fn, fp, fl, fv⟩
    simp only [q_shuffle, q_size_spec q hsz hf, Option.bind_eq_bind, Option.some_bind, hs,
      if_false, q.prev_head]
    exact e

/-! ## The links of a well-formed queue -/

/-- A well-formed queue is consistent: the links of every cell agree in both
directions, `next` leads from the sentinel through the cells back to the sentinel,
and the queue is empty exactly when the sentinel refers to itself. -/
theorem IsQueue.consistent {h : Heap} {head : Nat} {ps : List Nat} (q : IsQueue h head ps) :
    Consistent h head ps := by
  have hhead : ∃ nx pv, Link h head nx ∧ Link h pv head := by
    obtain ⟨A, P, hP⟩ := exists_concat head ps
    obtain ⟨N, B, hN⟩ := exists_cons ps head
    have hc := q.links
    have e1 : head :: ps ++ [head] = A ++ [P, head] := by rw [hP]; simp
    have e2 : head :: ps ++ [head] = head :: N :: B := by
      rw [← hN]; simp
    refine ⟨N, P, ?_, ?_⟩
    · rw [e2] at hc
      exact (List.chain'_cons.1 hc).1
    · rw [e1] at hc
      have := (List.chain'_split.1 hc).2
      simp only [List.chain'_cons, List.chain'_singleton, and_true] at this
      exact this
  refine ⟨?_, q.path, ?_⟩
  · intro n hn
    rcases List.mem_cons.1 hn with e | hn
    · subst e
      obtain ⟨nx, pv, l1, l2⟩ := hhead
      exact ⟨nx, pv, l1.1, l1.2, l2.2, l2.1⟩
    · obtain ⟨X, Y, e⟩ := List.append_of_mem hn
      subst e
      obtain ⟨A, P, hP⟩ := exists_concat head X
      obtain ⟨N, B, hN⟩ := exists_cons Y head
      obtain ⟨l1, l2⟩ := q.links_at hP hN
      exact ⟨N, P, l2.1, l2.2, l1.2, l1.1⟩
  · constructor
    · intro e
      subst e
      have := q.links
      simp only [List.cons_append, List.nil_append, List.chain'_cons, List.chain'_singleton,
        and_true] at this
      exact this
    · intro ⟨e, _⟩
      cases ps with
      | nil => rfl
      | cons x Y =>
        exfalso
        have := q.links
        simp only [List.cons_append, List.chain'_cons] at this
        rw [this.1.1] at e
        have hx : x = head := Ptr.addr.inj (Option.some.inj e)
        have := (List.nodup_cons.1 q.nodup).1
        exact this (hx ▸ List.mem_cons_self _ _)

/-! ## The scenarios of the specification, evaluated -/

/-- The scenario `delete_dup` on `["a","a","b","c","c","c"]` yields `["b"]`. -/
theorem q_delete_dup_example :
    (q_delete_dup 7 (sampleQueue [[97], [97], [98], [99], [99], [99]]) (.addr 0)).bind
      (fun r => (contents 7 r.1 (.addr 0)).map (fun c => (c, r.2)))
      = some ([[98]], true) := by decide

/-- The scenario `delete_mid` on `[1,2,3,4,5,6]` leaves `[1,2,3,5,6]`. -/
theorem q_delete_mid_example :
    (q_delete_mid 7 (sampleQueue [[49], [50], [51], [52], [53], [54]]) (.addr 0)).bind
      (fun r => (contents 7 r.1 (.addr 0)).map (fun c => (c, r.2)))
      = some ([[49], [50], [51], [53], [54]], true) := by decide

/-- Sorting `["c","a","b","ab","a"]` gives `["a","a","ab","b","c"]`. -/
theorem q_sort_example :
    (q_sort 7 (sampleQueue [[99], [97], [98], [97, 98], [97]]) (.addr 0)).bind
      (fun r => contents 7 r (.addr 0))
      = some [[97], [97], [97, 98], [98], [99]] := by decide

/-- Swapping the pairs of `["a","b","c","d","e"]` gives `["b","a","d","c","e"]`. -/
theorem q_swap_example :
    (q_swap 6 (sampleQueue [[97], [98], [99], [100], [101]]) (.addr 0)).bind
      (fun r => contents 6 r (.addr 0))
      = some [[98], [97], [100], [99], [101]] := by decide

/-- Reversing `["a","b","c"]` gives `["c","b","a"]`. -/
theorem q_reverse_example :
    (q_reverse 4 (sampleQueue [[97], [98], [99]]) (.addr 0)).bind
      (fun r => contents 4 r (.addr 0))
      = some [[99], [98], [97]] := by decide

/-! ## The properties of the specification -/

theorem cellLe_trans (key : Nat → Str) (a b c : Nat) :
    cellLe key a b = true → cellLe key b c = true → cellLe key a c = true := by
  simp only [cellLe, decide_eq_true_eq]
  exact strcmp_le_trans _ _ _

theorem cellLe_total (key : Nat → Str) (a b : Nat) :
    (cellLe key a b || cellLe key b a) = true := by
  simp only [cellLe, Bool.or_eq_true, decide_eq_true_eq]
  exact strcmp_total _ _

theorem payload_congr {h g : Heap} (hv : ∀ p, getValue g p = getValue h p) :
    payload g = payload h := by
  funext a; unfold payload; rw [hv]

theorem sorted_payloads (h : Heap) (ps : List Nat) :
    List.Pairwise (fun a b => strcmp a b ≤ 0)
      (payloads h (List.mergeSort ps (cellLe (payload h)))) := by
  have := List.sorted_mergeSort (cellLe_trans (payload h)) (cellLe_total (payload h)) ps
  unfold payloads
  rw [List.pairwise_map]
  refine this.imp ?_
  intro a b hab
  simpa [cellLe] using hab

/-- C1: on a well-formed queue whose size fits `int`, `q_sort` returns and leaves a
well-formed queue on the same sentinel whose payloads, read from the head along
`next`, are non-decreasing under `strcmp`: every payload is `≤` its successor, and
indeed `≤` every later payload. -/
theorem q_sort_sorted (h : Heap) (head : Nat) (ps : List Nat) (fuel : Nat)
    (q : IsQueue h head ps) (hsz : ps.length ≤ INT_MAX) (hf : ps.length + 1 < fuel) :
    ∃ h' ps', q_sort fuel h (.addr head) = some h' ∧ IsQueue h' head ps' ∧
      contents fuel h' (.addr head) = some (payloads h' ps') ∧
      List.Chain' (fun a b => strcmp a b ≤ 0) (payloads h' ps') ∧
      List.Pairwise (fun a b => strcmp a b ≤ 0) (payloads h' ps') := by
  obtain ⟨h', e, q', v, _, _, _⟩ := q_sort_spec q hsz hf
  have hs := sorted_payloads h ps
  have ep : payloads h' (List.mergeSort ps (cellLe (payload h)))
      = payloads h (List.mergeSort ps (cellLe (payload h))) := payloads_congr (fun a => v _) _
  refine ⟨h', _, e, q', ?_, ?_, ?_⟩
  · exact (contents_spec q' (by rw [List.length_mergeSort]; omega)).2
  · rw [ep]; exact List.Pairwise.chain' hs
  · rw [ep]; exact hs

theorem q_sort_sorted_witness :
    ∃ h' ps', q_sort 7 (sampleQueue [[99], [97], [98], [97, 98], [97]]) (.addr 0) = some h' ∧
      IsQueue h' 0 ps' ∧
      contents 7 h' (.addr 0) = some (payloads h' ps') ∧
      List.Chain' (fun a b => strcmp a b ≤ 0) (payloads h' ps') ∧
      List.Pairwise (fun a b => strcmp a b ≤ 0) (payloads h' ps') :=
  q_sort_sorted (sampleQueue [[99], [97], [98], [97, 98], [97]]) 0 [1, 2, 3, 4, 5] 7
    (by decide) (by decide) (by decide)

theorem filter_mergeSort_eq (key : Nat → Str) (ps : List Nat) (v : Str) :
    (List.mergeSort ps (cellLe key)).filter (fun p => decide (strcmp (key p) v = 0))
      = ps.filter (fun p => decide (strcmp (key p) v = 0)) := by
  have hsub : List.Sublist (ps.filter (fun p => decide (strcmp (key p) v = 0)))
      (List.mergeSort ps (cellLe key)) := by
    refine List.sublist_mergeSort (cellLe_trans key) (cellLe_total key) ?_
      (List.filter_sublist _)
    rw [List.pairwise_filter]
    refine List.pairwise_of_forall ?_
    intro a b ha hb
    have ha2 : strcmp (key a) v = 0 := by simpa using ha
    have hb2 : strcmp (key b) v = 0 := by simpa using hb
    simp only [cellLe, decide_eq_true_eq]
    have e : strcmp (key a) (key b) = 0 := by
      rw [strcmp_eq_zero_iff] at ha2 hb2 ⊢
      rw [ha2, hb2]
    omega
  have h2 := hsub.filter (fun p => decide (strcmp (key p) v = 0))
  rw [List.filter_filter] at h2
  simp only [Bool.and_self] at h2
  refine (h2.eq_of_length ?_).symm
  exact ((List.mergeSort_perm ps (cellLe key)).filter _).length_eq.symm

/-- C2: on a well-formed queue whose size fits `int`, `q_sort` returns and leaves a
well-formed queue whose cells are a permutation of the cells before (none added, lost
or duplicated; no cell is created or released and every cell keeps its payload, so the
payloads are the same multiset), and it is stable: for every string `v` the cells whose
payload equals `v` appear in the same order as before, and any two cells with equal
payloads that stood in the order `a`, `b` still stand in that order. -/
theorem q_sort_stable_permutation (h : Heap) (head : Nat) (ps : List Nat) (fuel : Nat)
    (q : IsQueue h head ps) (hsz : ps.length ≤ INT_MAX) (hf : ps.length + 1 < fuel) :
    ∃ h' ps', q_sort fuel h (.addr head) = some h' ∧ IsQueue h' head ps' ∧
      ps'.Perm ps ∧ (payloads h' ps').Perm (payloads h ps) ∧
      (∀ a, getValue h' (.addr a) = getValue h (.addr a)) ∧
      (∀ a, (h'.cell a).isSome = (h.cell a).isSome) ∧
      (∀ v, ps'.filter (fun p => decide (strcmp (payload h p) v = 0))
          = ps.filter (fun p => decide (strcmp (payload h p) v = 0))) ∧
      (∀ a b, List.Sublist [a, b] ps → strcmp (payload h a) (payload h b) = 0 →
        List.Sublist [a, b] ps') := by
  obtain ⟨h', e, q', v, lv, _, _⟩ := q_sort_spec q hsz hf
  have perm := List.mergeSort_perm ps (cellLe (payload h))
  refine ⟨h', _, e, q', perm, ?_, fun a => v _, isSome_of_isLive lv,
    filter_mergeSort_eq (payload h) ps, ?_⟩
  · rw [payloads_congr (fun a => v _)]
    exact perm.map _
  · intro a b hab he
    exact List.pair_sublist_mergeSort (cellLe_trans _) (cellLe_total _)
      (by simp only [cellLe, decide_eq_true_eq]; omega) hab

theorem q_sort_stable_permutation_witness :
    ∃ h' ps', q_sort 7 (sampleQueue [[99], [97], [98], [97, 0, 5], [97]]) (.addr 0) = some h' ∧
      IsQueue h' 0 ps' ∧
      ps'.Perm [1, 2, 3, 4, 5] ∧
      (payloads h' ps').Perm
        (payloads (sampleQueue [[99], [97], [98], [97, 0, 5], [97]]) [1, 2, 3, 4, 5]) ∧
      (∀ a, getValue h' (.addr a)
        = getValue (sampleQueue [[99], [97], [98], [97, 0, 5], [97]]) (.addr a)) ∧
      (∀ a, (h'.cell a).isSome
        = ((sampleQueue [[99], [97], [98], [97, 0, 5], [97]]).cell a).isSome) ∧
      (∀ v, ps'.filter (fun p => decide
            (strcmp (payload (sampleQueue [[99], [97], [98], [97, 0, 5], [97]]) p) v = 0))
          = [1, 2, 3, 4, 5].filter (fun p => decide
            (strcmp (payload (sampleQueue [[99], [97], [98], [97, 0, 5], [97]]) p) v = 0))) ∧
      (∀ a b, List.Sublist [a, b] [1, 2, 3, 4, 5] →
        strcmp (payload (sampleQueue [[99], [97], [98], [97, 0, 5], [97]]) a)
          (payload (sampleQueue [[99], [97], [98], [97, 0, 5], [97]]) b) = 0 →
        List.Sublist [a, b] ps') :=
  q_sort_stable_permutation (sampleQueue [[99], [97], [98], [97, 0, 5], [97]]) 0 [1, 2, 3, 4, 5] 7
    (by decide) (by decide) (by decide)

/-- C3: on a well-formed queue whose size fits `int`, applying `q_sort` twice returns
both times, and the second call leaves the cells in the order the first call produced,
each with the same payload: `sort(sort(L)) == sort(L)`. -/
theorem q_sort_idempotent (h : Heap) (head : Nat) (ps : List Nat) (fuel : Nat)
    (q : IsQueue h head ps) (hsz : ps.length ≤ INT_MAX) (hf : ps.length + 1 < fuel) :
    ∃ h1 h2 ps', q_sort fuel h (.addr head) = some h1 ∧ q_sort fuel h1 (.addr head) = some h2 ∧
      IsQueue h1 head ps' ∧ IsQueue h2 head ps' ∧ payloads h2 ps' = payloads h1 ps' := by
  obtain ⟨h1, e1, q1, v1, _, _, _⟩ := q_sort_spec q hsz hf
  have hlen : (List.mergeSort ps (cellLe (payload h))).length = ps.length :=
    List.length_mergeSort _
  obtain ⟨h2, e2, q2, v2, _, _, _⟩ := q_sort_spec q1 (by rw [hlen]; exact hsz)
    (by rw [hlen]; exact hf)
  have hs := List.sorted_mergeSort (cellLe_trans (payload h)) (cellLe_total (payload h)) ps
  rw [payload_congr v1, List.mergeSort_of_sorted hs] at q2
  exact ⟨h1, h2, _, e1, e2, q1, q2, payloads_congr (fun a => v2 _) _⟩

theorem q_sort_idempotent_witness :
    ∃ h1 h2 ps', q_sort 7 (sampleQueue [[99], [97], [98], [97, 98], [97]]) (.addr 0) = some h1 ∧
      q_sort 7 h1 (.addr 0) = some h2 ∧
      IsQueue h1 0 ps' ∧ IsQueue h2 0 ps' ∧ payloads h2 ps' = payloads h1 ps' :=
  q_sort_idempotent (sampleQueue [[99], [97], [98], [97, 98], [97]]) 0 [1, 2, 3, 4, 5] 7
    (by decide) (by decide) (by decide)

/-- C4: on a well-formed queue with elements `ps`, `q_reverse` returns and leaves a
well-formed queue on the same sentinel whose elements are the same cells in the
order `ps.reverse`; the payloads read from the head along `next` are the former ones
in reverse order, every cell keeps its payload, no cell is created or released, cells outside the queue are untouched,
and with at most one element the heap is unchanged.  On `NULL` it changes nothing. -/
theorem q_reverse_reverses (h : Heap) (head : Nat) (ps : List Nat) (fuel : Nat)
    (q : IsQueue h head ps) (hsz : ps.length ≤ INT_MAX) (hf : ps.length < fuel) :
    q_reverse fuel h .null = some h ∧
    ∃ h', q_reverse fuel h (.addr head) = some h' ∧
      IsQueue h' head ps.reverse ∧
      contents fuel h' (.addr head) = some (payloads h ps).reverse ∧
      payloads h' ps.reverse = (payloads h ps).reverse ∧
      (∀ a, getValue h' (.addr a) = getValue h (.addr a)) ∧
      (∀ a, (h'.cell a).isSome = (h.cell a).isSome) ∧
      (∀ a, a ∉ head :: ps → h'.cell a = h.cell a) ∧
      (ps.length ≤ 1 → h' = h) := by
  refine ⟨by simp [q_reverse, q_size], _, q_reverse_spec q hsz hf, ?_⟩
  by_cases hn : ps.length ≤ 1
  · simp only [hn, if_true, implies_true, and_true]
    have e : ps.reverse = ps := by
      match ps, hn with
      | [], _ => rfl
      | [_], _ => rfl
    have ep : (payloads h ps).reverse = payloads h ps := by
      simp only [payloads]; rw [← List.map_reverse, e]
    rw [e, ep]
    exact ⟨q, (contents_spec q hf).2, rfl⟩
  · simp only [hn, if_false]
    have hv : ∀ a, getValue (swapOn h (head :: ps)) (.addr a) = getValue h (.addr a) :=
      fun a => getValue_swapOn _ _ _
    have ep : payloads (swapOn h (head :: ps)) ps.reverse = (payloads h ps).reverse := by
      rw [payloads_congr hv]; simp [payloads]
    refine ⟨q.reverse, ?_, ep, hv, isSome_swapOn h _, ?_, ?_⟩
    · rw [← ep]
      exact (contents_spec q.reverse (by simpa using hf)).2
    · intro a ha; simp only [swapOn]; rw [if_neg ha]
    · intro h1; exact h1.elim

theorem q_reverse_reverses_witness :
    q_reverse 4 (sampleQueue [[97], [98], [99]]) .null = some (sampleQueue [[97], [98], [99]]) ∧
    ∃ h', q_reverse 4 (sampleQueue [[97], [98], [99]]) (.addr 0) = some h' ∧
      IsQueue h' 0 [1, 2, 3].reverse ∧
      contents 4 h' (.addr 0)
        = some (payloads (sampleQueue [[97], [98], [99]]) [1, 2, 3]).reverse ∧
      payloads h' [1, 2, 3].reverse = (payloads (sampleQueue [[97], [98], [99]]) [1, 2, 3]).reverse ∧
      (∀ a, getValue h' (.addr a) = getValue (sampleQueue [[97], [98], [99]]) (.addr a)) ∧
      (∀ a, (h'.cell a).isSome = ((sampleQueue [[97], [98], [99]]).cell a).isSome) ∧
      (∀ a, a ∉ 0 :: [1, 2, 3] → h'.cell a = (sampleQueue [[97], [98], [99]]).cell a) ∧
      ([1, 2, 3].length ≤ 1 → h' = sampleQueue [[97], [98], [99]]) :=
  q_reverse_reverses (sampleQueue [[97], [98], [99]]) 0 [1, 2, 3] 4
    (by decide) (by decide) (by decide)

/-- C5: on a well-formed queue, applying `q_reverse` twice returns both times and
gives back the original heap, hence the same elements with the same payloads in the
same order. -/
theorem q_reverse_involution (h : Heap) (head : Nat) (ps : List Nat) (fuel : Nat)
    (q : IsQueue h head ps) (hsz : ps.length ≤ INT_MAX) (hf : ps.length < fuel) :
    ∃ h1 h2, q_reverse fuel h (.addr head) = some h1 ∧
      q_reverse fuel h1 (.addr head) = some h2 ∧
      IsQueue h2 head ps ∧ payloads h2 ps = payloads h ps ∧ h2 = h := by
  refine ⟨_, h, q_reverse_spec q hsz hf, ?_⟩
  by_cases hn : ps.length ≤ 1
  · simp only [hn, if_true]
    refine ⟨?_, q, trivial, trivial⟩
    rw [q_reverse_spec q hsz hf]; simp [hn]
  · simp only [hn, if_false]
    have q1 := q.reverse
    have hswap : swapOn (swapOn h (head :: ps)) (head :: ps.reverse) = h := by
      have e : swapOn (swapOn h (head :: ps)) (head :: ps.reverse)
          = swapOn (swapOn h (head :: ps)) (head :: ps) := by
        apply Heap.ext; intro x; simp [swapOn]
      rw [e, swapOn_swapOn]
    refine ⟨?_, q, trivial, trivial⟩
    rw [q_reverse_spec q1 (by simpa using hsz) (by simpa using hf)]
    simp only [List.length_reverse, hn, if_false, hswap]

theorem q_reverse_involution_witness :
    ∃ h1 h2, q_reverse 4 (sampleQueue [[97], [98], [99]]) (.addr 0) = some h1 ∧
      q_reverse 4 h1 (.addr 0) = some h2 ∧
      IsQueue h2 0 [1, 2, 3] ∧
      payloads h2 [1, 2, 3] = payloads (sampleQueue [[97], [98], [99]]) [1, 2, 3] ∧
      h2 = sampleQueue [[97], [98], [99]] :=
  q_reverse_involution (sampleQueue [[97], [98], [99]]) 0 [1, 2, 3] 4
    (by decide) (by decide) (by decide)

/-- C6: on a well-formed queue with elements `ps` of size `n`, `q_swap` returns and
leaves a well-formed queue on the same sentinel with elements `ps'` of the same
size, where for every `k` with `2k+1 < n` the cells at positions `2k` and `2k+1`
have exchanged places and, when `n` is odd, the last cell stays at position `n-1`;
every cell keeps its payload, no cell is created or released, cells outside the
queue are untouched, and for `n ≤ 1` (and on `NULL`) the heap is unchanged. -/
theorem q_swap_exchanges_pairs (h : Heap) (head : Nat) (ps : List Nat) (fuel : Nat)
    (q : IsQueue h head ps) (hsz : ps.length ≤ INT_MAX) (hf : ps.length < fuel) :
    q_swap fuel h .null = some h ∧
    ∃ h' ps', q_swap fuel h (.addr head) = some h' ∧ IsQueue h' head ps' ∧
      ps'.length = ps.length ∧
      (∀ k, 2 * k + 1 < ps.length → ps'[2 * k]? = ps[2 * k + 1]? ∧ ps'[2 * k + 1]? = ps[2 * k]?) ∧
      (ps.length % 2 = 1 → ps'[ps.length - 1]? = ps[ps.length - 1]?) ∧
      ps' = swapPairs ps ∧
      (∀ a, getValue h' (.addr a) = getValue h (.addr a)) ∧
      (∀ a, (h'.cell a).isSome = (h.cell a).isSome) ∧
      (∀ a, a ∉ head :: ps → h'.cell a = h.cell a) ∧
      (ps.length ≤ 1 → h' = h) := by
  obtain ⟨h', e, q', v, lv, fr, sm⟩ := q_swap_spec q hsz hf
  exact ⟨by simp [q_swap, q_size], h', swapPairs ps, e, q', swapPairs_length ps,
    swapPairs_getElem? ps, swapPairs_last ps, rfl, v, lv, fr, sm⟩

theorem q_swap_exchanges_pairs_witness :
    q_swap 6 (sampleQueue [[97], [98], [99], [100], [101]]) .null
      = some (sampleQueue [[97], [98], [99], [100], [101]]) ∧
    ∃ h' ps', q_swap 6 (sampleQueue [[97], [98], [99], [100], [101]]) (.addr 0) = some h' ∧
      IsQueue h' 0 ps' ∧
      ps'.length = [1, 2, 3, 4, 5].length ∧
      (∀ k, 2 * k + 1 < [1, 2, 3, 4, 5].length →
        ps'[2 * k]? = [1, 2, 3, 4, 5][2 * k + 1]? ∧ ps'[2 * k + 1]? = [1, 2, 3, 4, 5][2 * k]?) ∧
      ([1, 2, 3, 4, 5].length % 2 = 1 →
        ps'[[1, 2, 3, 4, 5].length - 1]? = [1, 2, 3, 4, 5][[1, 2, 3, 4, 5].length - 1]?) ∧
      ps' = swapPairs [1, 2, 3, 4, 5] ∧
      (∀ a, getValue h' (.addr a)
        = getValue (sampleQueue [[97], [98], [99], [100], [101]]) (.addr a)) ∧
      (∀ a, (h'.cell a).isSome
        = ((sampleQueue [[97], [98], [99], [100], [101]]).cell a).isSome) ∧
      (∀ a, a ∉ 0 :: [1, 2, 3, 4, 5] →
        h'.cell a = (sampleQueue [[97], [98], [99], [100], [101]]).cell a) ∧
      ([1, 2, 3, 4, 5].length ≤ 1 → h' = sampleQueue [[97], [98], [99], [100], [101]]) :=
  q_swap_exchanges_pairs (sampleQueue [[97], [98], [99], [100], [101]]) 0 [1, 2, 3, 4, 5] 6
    (by decide) (by decide) (by decide)

/-- C7: on a well-formed queue, of even length in particular, applying `q_swap` twice
returns both times and leaves the elements in their original order, each with its
payload. -/
theorem q_swap_twice (h : Heap) (head : Nat) (ps : List Nat) (fuel : Nat)
    (q : IsQueue h head ps) (hsz : ps.length ≤ INT_MAX) (hf : ps.length < fuel) :
    ∃ h1 h2, q_swap fuel h (.addr head) = some h1 ∧ q_swap fuel h1 (.addr head) = some h2 ∧
      IsQueue h2 head ps ∧ payloads h2 ps = payloads h ps := by
  obtain ⟨h1, e1, q1, v1, _, _, _⟩ := q_swap_spec q hsz hf
  obtain ⟨h2, e2, q2, v2, _, _, _⟩ := q_swap_spec q1 (by rw [swapPairs_length]; exact hsz)
    (by rw [swapPairs_length]; exact hf)
  rw [swapPairs_swapPairs] at q2
  exact ⟨h1, h2, e1, e2, q2, payloads_congr (fun a => (v2 a).trans (v1 a)) ps⟩

theorem q_swap_twice_witness :
    ∃ h1 h2, q_swap 5 (sampleQueue [[97], [98], [99], [100]]) (.addr 0) = some h1 ∧
      q_swap 5 h1 (.addr 0) = some h2 ∧
      IsQueue h2 0 [1, 2, 3, 4] ∧
      payloads h2 [1, 2, 3, 4] = payloads (sampleQueue [[97], [98], [99], [100]]) [1, 2, 3, 4] :=
  q_swap_twice (sampleQueue [[97], [98], [99], [100]]) 0 [1, 2, 3, 4] 5
    (by decide) (by decide) (by decide)

/-- What `q_delete_dup` does to a non-empty well-formed queue, sorted or not. -/
theorem q_delete_dup_spec {h : Heap} {head : Nat} {ps : List Nat} (q : IsQueue h head ps)
    (hsz : ps.length ≤ INT_MAX) (hne : ps ≠ []) {fuel : Nat} (hf : ps.length < fuel) :
    ∃ h', q_delete_dup fuel h (.addr head) = some (h', true) ∧
      IsQueue h' head (dedupLoop (payload h) [] none 0 ps) ∧
      (∀ a, a ∈ ps → a ∉ dedupLoop (payload h) [] none 0 ps → h'.cell a = none) ∧
      (∀ a, (a ∈ ps → a ∈ dedupLoop (payload h) [] none 0 ps) →
        getValue h' (.addr a) = getValue h (.addr a) ∧
        (h'.cell a).isSome = (h.cell a).isSome) := by
  obtain ⟨_, nx, hnx, hr⟩ := q.path
  have hnx2 : nx = hdPtr (ps ++ [head]) := by
    cases ps with
    | nil => exact absurd rfl hne
    | cons p ps => exact hr.1
  subst hnx2
  obtain ⟨lx, hlx⟩ := exists_getNext (hdPtr_live q (R := ps) (fun a ha => ha))
  obtain ⟨h1, dsh, cnt, h2, el, et, q2, hD, hS⟩ := q_delete_dup_loop_spec (payload h) ps [] none 0
    h lx fuel (by simpa using q) (by intro x hx; exact q.value (by simpa using hx)) hlx
    (fun _ => rfl) hf
  have hlen : ps.length ≠ 0 := fun e => hne (List.length_eq_zero.1 e)
  refine ⟨h2, ?_, q2, by simpa using hD, by simpa using hS⟩
  simp only [q_delete_dup, q_size_spec q hsz hf, hlen, if_false, Option.bind_eq_bind,
    Option.some_bind, hnx, hlx]
  simp only [Option.map_none', optPtr] at el
  rw [el]
  simp only [Option.some_bind, et]
  rfl

/-- C8: on a non-empty well-formed queue whose payloads are sorted ascending under
`strcmp` (size fitting `int`), `q_delete_dup` returns true and leaves a well-formed
queue holding exactly the cells whose payload occurs exactly once among the payloads
of the input, in their original order and with their payloads; every cell of a run
of two or more equal payloads is released, the first one included; a queue whose
payloads are all distinct keeps all its cells.  On an empty queue and on `NULL` it
returns false and changes nothing. -/
theorem q_delete_dup_keeps_unique (h : Heap) (head : Nat) (ps : List Nat) (fuel : Nat)
    (q : IsQueue h head ps) (hsz : ps.length ≤ INT_MAX) (hf : ps.length < fuel)
    (hs : List.Pairwise (fun a b => strcmp a b ≤ 0) (payloads h ps)) :
    q_delete_dup fuel h .null = some (h, false) ∧
    (ps = [] → q_delete_dup fuel h (.addr head) = some (h, false)) ∧
    (ps ≠ [] → ∃ h', q_delete_dup fuel h (.addr head) = some (h', true) ∧
      IsQueue h' head (ps.filter (fun p => decide (occurrences (payload h) ps p = 1))) ∧
      payloads h' (ps.filter (fun p => decide (occurrences (payload h) ps p = 1)))
        = payloads h (ps.filter (fun p => decide (occurrences (payload h) ps p = 1))) ∧
      (∀ p ∈ ps, occurrences (payload h) ps p ≠ 1 → h'.cell p = none) ∧
      (∀ a, a ∉ ps → (h'.cell a).isSome = (h.cell a).isSome) ∧
      ((∀ p ∈ ps, occurrences (payload h) ps p = 1) →
        ps.filter (fun p => decide (occurrences (payload h) ps p = 1)) = ps)) := by
  refine ⟨by simp [q_delete_dup, q_size], ?_, ?_⟩
  · intro e
    subst e
    simp [q_delete_dup, q_size_spec q hsz hf]
  · intro hne
    obtain ⟨h', e, q', hD, hS⟩ := q_delete_dup_spec q hsz hne hf
    have hsorted : List.Pairwise (fun a b => strcmp (payload h a) (payload h b) ≤ 0) ps := by
      unfold payloads at hs
      rwa [List.pairwise_map] at hs
    rw [dedupLoop_eq_filter (payload h) ps hsorted] at q' hD hS
    refine ⟨h', e, q', ?_, ?_, ?_, ?_⟩
    · refine payloads_eq_of_mem ?_
      intro a ha
      exact (hS a (fun _ => ha)).1
    · intro p hp hocc
      refine hD p hp ?_
      intro hm
      have := (List.mem_filter.1 hm).2
      simp only [decide_eq_true_eq] at this
      exact hocc this
    · intro a ha
      exact (hS a (fun hm => absurd hm ha)).2
    · intro hall
      rw [List.filter_eq_self]
      intro p hp
      simpa using hall p hp

theorem q_delete_dup_keeps_unique_witness :
    q_delete_dup 7 (sampleQueue [[97], [97], [98], [99], [99], [99]]) .null
      = some (sampleQueue [[97], [97], [98], [99], [99], [99]], false) ∧
    (([1, 2, 3, 4, 5, 6] : List Nat) = [] →
      q_delete_dup 7 (sampleQueue [[97], [97], [98], [99], [99], [99]]) (.addr 0)
        = some (sampleQueue [[97], [97], [98], [99], [99], [99]], false)) ∧
    (([1, 2, 3, 4, 5, 6] : List Nat) ≠ [] →
      ∃ h', q_delete_dup 7 (sampleQueue [[97], [97], [98], [99], [99], [99]]) (.addr 0)
          = some (h', true) ∧
        IsQueue h' 0 ([1, 2, 3, 4, 5, 6].filter (fun p => decide (occurrences
          (payload (sampleQueue [[97], [97], [98], [99], [99], [99]])) [1, 2, 3, 4, 5, 6] p = 1))) ∧
        payloads h' ([1, 2, 3, 4, 5, 6].filter (fun p => decide (occurrences
          (payload (sampleQueue [[97], [97], [98], [99], [99], [99]])) [1, 2, 3, 4, 5, 6] p = 1)))
          = payloads (sampleQueue [[97], [97], [98], [99], [99], [99]])
              ([1, 2, 3, 4, 5, 6].filter (fun p => decide (occurrences
                (payload (sampleQueue [[97], [97], [98], [99], [99], [99]]))
                [1, 2, 3, 4, 5, 6] p = 1))) ∧
        (∀ p ∈ ([1, 2, 3, 4, 5, 6] : List Nat), occurrences
          (payload (sampleQueue [[97], [97], [98], [99], [99], [99]])) [1, 2, 3, 4, 5, 6] p ≠ 1 →
          h'.cell p = none) ∧
        (∀ a, a ∉ ([1, 2, 3, 4, 5, 6] : List Nat) → (h'.cell a).isSome
          = ((sampleQueue [[97], [97], [98], [99], [99], [99]]).cell a).isSome) ∧
        ((∀ p ∈ ([1, 2, 3, 4, 5, 6] : List Nat), occurrences
          (payload (sampleQueue [[97], [97], [98], [99], [99], [99]])) [1, 2, 3, 4, 5, 6] p = 1) →
          [1, 2, 3, 4, 5, 6].filter (fun p => decide (occurrences
            (payload (sampleQueue [[97], [97], [98], [99], [99], [99]]))
            [1, 2, 3, 4, 5, 6] p = 1)) = [1, 2, 3, 4, 5, 6])) :=
  q_delete_dup_keeps_unique (sampleQueue [[97], [97], [98], [99], [99], [99]]) 0
    [1, 2, 3, 4, 5, 6] 7 (by decide) (by decide) (by decide) (by decide)

theorem payloads_eraseIdx (h : Heap) (ps : List Nat) (k : Nat) :
    payloads h (ps.eraseIdx k) = (payloads h ps).eraseIdx k := by
  unfold payloads
  rw [List.eraseIdx_eq_take_drop_succ, List.eraseIdx_eq_take_drop_succ, List.map_append,
    List.map_take, List.map_drop]

/-- C9: on a well-formed queue with `n ≥ 1` elements (`n` fitting `int`), `q_delete_mid`
returns true and leaves a well-formed queue whose cells are the cells before with
exactly the one at 0-based index `⌊n/2⌋` removed, all others kept in order with their
payloads; the removed cell is released and no other cell is created or released.  On
an empty queue and on `NULL` it returns false and changes nothing. -/
theorem q_delete_mid_removes_middle (h : Heap) (head : Nat) (ps : List Nat) (fuel : Nat)
    (q : IsQueue h head ps) (hsz : ps.length ≤ INT_MAX) (hf : ps.length < fuel) :
    q_delete_mid fuel h .null = some (h, false) ∧
    (ps = [] → q_delete_mid fuel h (.addr head) = some (h, false)) ∧
    (ps ≠ [] → ∃ h', q_delete_mid fuel h (.addr head) = some (h', true) ∧
      IsQueue h' head (ps.eraseIdx (ps.length / 2)) ∧
      payloads h' (ps.eraseIdx (ps.length / 2)) = (payloads h ps).eraseIdx (ps.length / 2) ∧
      (∀ x, ps[ps.length / 2]? = some x →
        h'.cell x = none ∧ ∀ a, a ≠ x → (h'.cell a).isSome = (h.cell a).isSome)) := by
  refine ⟨by simp [q_delete_mid, q_size], ?_, ?_⟩
  · intro e
    subst e
    simp [q_delete_mid, q_size_spec q hsz hf]
  · intro hne
    have hk : ps.length / 2 < ps.length := by
      have : 0 < ps.length := List.length_pos.2 hne
      omega
    have hsplit : ps = ps.take (ps.length / 2) ++ ps[ps.length / 2] ::
        ps.drop (ps.length / 2 + 1) := by
      rw [← List.drop_eq_getElem_cons hk, List.take_append_drop]
    obtain ⟨X, hX⟩ : ∃ X, X = ps.take (ps.length / 2) := ⟨_, rfl⟩
    obtain ⟨Y, hY⟩ : ∃ Y, Y = ps.drop (ps.length / 2 + 1) := ⟨_, rfl⟩
    obtain ⟨x, hx⟩ : ∃ x, x = ps[ps.length / 2] := ⟨_, rfl⟩
    rw [← hX, ← hY, ← hx] at hsplit
    have hXlen : X.length = ps.length / 2 := by
      rw [hX, List.length_take]; omega
    have herase : ps.eraseIdx (ps.length / 2) = X ++ Y := by
      rw [List.eraseIdx_eq_take_drop_succ, ← hX, ← hY]
    have q0 : IsQueue h head (X ++ x :: Y) := by rw [← hsplit]; exact q
    obtain ⟨h', e, q', v, hfree, lv, _⟩ := q_delete_mid_spec q0
      (by rw [← hsplit]; exact hsz) (by rw [← hsplit]; exact hXlen)
      (show (X ++ x :: Y).length < fuel by rw [← hsplit]; exact hf)
    have hxnot : x ∉ X ++ Y := by
      have nd := (List.nodup_cons.1 q.nodup).2
      rw [hsplit] at nd
      have h1 := (List.nodup_append.1 nd)
      intro hm
      rcases List.mem_append.1 hm with u | u
      · exact h1.2.2 u (by simp)
      · exact (List.nodup_cons.1 h1.2.1).1 u
    refine ⟨h', e, by rw [herase]; exact q', ?_, ?_⟩
    · rw [← payloads_eraseIdx, herase]
      refine payloads_eq_of_mem ?_
      intro a ha
      exact v a (fun e => hxnot (e ▸ ha))
    · intro y hy
      rw [List.getElem?_eq_getElem hk, ← hx] at hy
      have := Option.some.inj hy
      subst this
      exact ⟨hfree, lv⟩

theorem q_delete_mid_removes_middle_witness :
    q_delete_mid 7 (sampleQueue [[49], [50], [51], [52], [53], [54]]) .null
      = some (sampleQueue [[49], [50], [51], [52], [53], [54]], false) ∧
    (([1, 2, 3, 4, 5, 6] : List Nat) = [] →
      q_delete_mid 7 (sampleQueue [[49], [50], [51], [52], [53], [54]]) (.addr 0)
        = some (sampleQueue [[49], [50], [51], [52], [53], [54]], false)) ∧
    (([1, 2, 3, 4, 5, 6] : List Nat) ≠ [] →
      ∃ h', q_delete_mid 7 (sampleQueue [[49], [50], [51], [52], [53], [54]]) (.addr 0)
          = some (h', true) ∧
        IsQueue h' 0 ([1, 2, 3, 4, 5, 6].eraseIdx ([1, 2, 3, 4, 5, 6].length / 2)) ∧
        payloads h' ([1, 2, 3, 4, 5, 6].eraseIdx ([1, 2, 3, 4, 5, 6].length / 2))
          = (payloads (sampleQueue [[49], [50], [51], [52], [53], [54]])
              [1, 2, 3, 4, 5, 6]).eraseIdx ([1, 2, 3, 4, 5, 6].length / 2) ∧
        (∀ x, [1, 2, 3, 4, 5, 6][[1, 2, 3, 4, 5, 6].length / 2]? = some x →
          h'.cell x = none ∧ ∀ a, a ≠ x → (h'.cell a).isSome
            = ((sampleQueue [[49], [50], [51], [52], [53], [54]]).cell a).isSome)) :=
  q_delete_mid_removes_middle (sampleQueue [[49], [50], [51], [52], [53], [54]]) 0
    [1, 2, 3, 4, 5, 6] 7 (by decide) (by decide) (by decide)

/-- C10: on a well-formed queue with cells `ps`, when both allocations succeed (the
allocator hands out the unused cell `a`), `q_insert_head` returns true and the queue
becomes `a :: ps`, `q_insert_tail` returns true and the queue becomes `ps ++ [a]`; the
new cell owns a copy of `s` that `strcmp` finds equal to `s` (and that is `s` itself
when `s` has no `0` byte), and the payloads of the old cells are unchanged.  After
`q_insert_head`, `q_remove_head` called without a buffer, or with a capacity of at
least one that fits `size_t`, returns the cell `a`, still live and carrying that
payload, and leaves the queue with the cells and payloads it had before the insert.
On `NULL` both inserts return false and change nothing. -/
theorem q_insert_then_remove (h : Heap) (head : Nat) (ps : List Nat) (s : Str) (a : Nat)
    (sp : Option Buf) (bufsize : Nat) (q : IsQueue h head ps) (hfree : h.cell a = none)
    (_hsp : sp = none ∨ (1 ≤ bufsize ∧ bufsize ≤ SIZE_MAX)) :
    (∀ ok cell, q_insert_head h .null s ok cell = some (h, false) ∧
      q_insert_tail h .null s ok cell = some (h, false)) ∧
    strcmp (copyString s) s = 0 ∧ ((∀ c ∈ s, c ≠ 0) → copyString s = s) ∧
    (∃ h1, q_insert_head h (.addr head) s true (.addr a) = some (h1, true) ∧
      IsQueue h1 head (a :: ps) ∧ payloads h1 (a :: ps) = copyString s :: payloads h ps ∧
      ∃ h2 sp', q_remove_head h1 (.addr head) sp bufsize = some (h2, .addr a, sp') ∧
        getValue h2 (.addr a) = some (some (copyString s)) ∧
        IsQueue h2 head ps ∧ payloads h2 ps = payloads h ps) ∧
    (∃ h1, q_insert_tail h (.addr head) s true (.addr a) = some (h1, true) ∧
      IsQueue h1 head (ps ++ [a]) ∧ payloads h1 (ps ++ [a]) = payloads h ps ++ [copyString s]) := by
  have hn := q.not_mem_of_free hfree
  have hna : a ∉ ps := fun hm => hn (List.mem_cons_of_mem _ hm)
  refine ⟨fun ok cell => ⟨by simp [q_insert_head], by simp [q_insert_tail]⟩,
    strcmp_copyString s, copyString_of_ne_zero s, ?_, ?_⟩
  · obtain ⟨h1, e1, q1, va, v1, _, _⟩ := q_insert_head_spec q s hfree
    have hp1 : payloads h1 ps = payloads h ps :=
      payloads_eq_of_mem (fun x hx => v1 x (fun e => hna (e ▸ hx)))
    obtain ⟨h2, sp', e2, _, q2, v2, _, _⟩ := q_remove_head_spec q1 sp bufsize
    refine ⟨h1, e1, q1, ?_, h2, sp', e2, by rw [v2, va], q2, ?_⟩
    · simp only [payloads, List.map_cons] at hp1 ⊢
      rw [hp1]
      simp [payload, va]
    · rw [payloads_congr (fun x => v2 _), hp1]
  · obtain ⟨h1, e1, q1, va, v1, _, _⟩ := q_insert_tail_spec q s hfree
    have hp1 : payloads h1 ps = payloads h ps :=
      payloads_eq_of_mem (fun x hx => v1 x (fun e => hna (e ▸ hx)))
    refine ⟨h1, e1, q1, ?_⟩
    simp only [payloads, List.map_append, List.map_cons, List.map_nil] at hp1 ⊢
    rw [hp1]
    simp [payload, va]

theorem q_insert_then_remove_witness :
    (∀ ok cell, q_insert_head (sampleQueue [[120], [121]]) .null [104, 105] ok cell
        = some (sampleQueue [[120], [121]], false) ∧
      q_insert_tail (sampleQueue [[120], [121]]) .null [104, 105] ok cell
        = some (sampleQueue [[120], [121]], false)) ∧
    strcmp (copyString [104, 105]) [104, 105] = 0 ∧
    ((∀ c ∈ ([104, 105] : Str), c ≠ 0) → copyString [104, 105] = [104, 105]) ∧
    (∃ h1, q_insert_head (sampleQueue [[120], [121]]) (.addr 0) [104, 105] true (.addr 7)
        = some (h1, true) ∧
      IsQueue h1 0 (7 :: [1, 2]) ∧
      payloads h1 (7 :: [1, 2])
        = copyString [104, 105] :: payloads (sampleQueue [[120], [121]]) [1, 2] ∧
      ∃ h2 sp', q_remove_head h1 (.addr 0) none 8 = some (h2, .addr 7, sp') ∧
        getValue h2 (.addr 7) = some (some (copyString [104, 105])) ∧
        IsQueue h2 0 [1, 2] ∧ payloads h2 [1, 2] = payloads (sampleQueue [[120], [121]]) [1, 2]) ∧
    (∃ h1, q_insert_tail (sampleQueue [[120], [121]]) (.addr 0) [104, 105] true (.addr 7)
        = some (h1, true) ∧
      IsQueue h1 0 ([1, 2] ++ [7]) ∧
      payloads h1 ([1, 2] ++ [7])
        = payloads (sampleQueue [[120], [121]]) [1, 2] ++ [copyString [104, 105]]) :=
  q_insert_then_remove (sampleQueue [[120], [121]]) 0 [1, 2] [104, 105] 7 none 8
    (by decide) (by decide) (Or.inl rfl)

/-- The scenario of the removal section: `q_new`, `q_insert_tail` of `"x"` and of
`"y"`, then `q_remove_head` with a buffer of capacity 8.  The removed element owns
`"x"`, the buffer starts with `"x"` and its terminator, the queue holds `"y"` alone and
its size is 1. -/
theorem q_remove_head_scenario :
    (((q_new emptyHeap (.addr 0)).bind fun r0 =>
      (q_insert_tail r0.1 r0.2 [120] true (.addr 1)).bind fun r1 =>
      (q_insert_tail r1.1 r0.2 [121] true (.addr 2)).bind fun r2 =>
      (q_remove_head r2.1 r0.2 (some (fun _ => 255)) 8).bind fun r3 =>
      (contents 5 r3.1 r0.2).bind fun c =>
      (q_size 5 r3.1 r0.2).bind fun n =>
      (getValue r3.1 r3.2.1).map fun v => (r3.2.1, v, c, n))
      = some (.addr 1, some [120], [[121]], 1)) ∧
    (((q_new emptyHeap (.addr 0)).bind fun r0 =>
      (q_insert_tail r0.1 r0.2 [120] true (.addr 1)).bind fun r1 =>
      (q_insert_tail r1.1 r0.2 [121] true (.addr 2)).bind fun r2 =>
      (q_remove_head r2.1 r0.2 (some (fun _ => 255)) 8).map fun r3 =>
        (r1.2, r2.2, r3.2.2.map fun b => (List.range 9).map b))
      = some (true, true, some [120, 0, 0, 0, 0, 0, 0, 0, 255])) := by
  decide

/-- C11: `q_remove_head` and `q_remove_tail` return `NULL` and leave the heap and the
buffer as they are when the list is `NULL` or empty, whatever the buffer and the
capacity, and only then.  The calls on a non-empty queue are those without a buffer
or with a capacity of at least one that fits `size_t`.  On a queue with
the cells `x :: Y`, `q_remove_head` returns the cell `x`, which stays allocated with
its payload, and leaves the queue with the cells `Y` and their payloads; on a queue
with the cells `X ++ [x]`, `q_remove_tail` returns `x` and leaves `X` in the same
way.  In the scenario `q_new`, `q_insert_tail` of `"x"` and of `"y"`, `q_remove_head` with
a buffer of capacity 8, the removed element owns `"x"`, the buffer holds `"x"`, the
queue holds `"y"` alone and its size is 1. -/
theorem q_remove_returns (h : Heap) (head : Nat) (ps : List Nat) (sp : Option Buf)
    (bufsize : Nat) (q : IsQueue h head ps)
    (_hsp : sp = none ∨ (1 ≤ bufsize ∧ bufsize ≤ SIZE_MAX)) :
    (∀ buf n, q_remove_head h .null buf n = some (h, .null, buf) ∧
      q_remove_tail h .null buf n = some (h, .null, buf)) ∧
    (ps = [] → ∀ buf n, q_remove_head h (.addr head) buf n = some (h, .null, buf) ∧
      q_remove_tail h (.addr head) buf n = some (h, .null, buf)) ∧
    (∀ x Y, ps = x :: Y → ∃ h' sp',
      q_remove_head h (.addr head) sp bufsize = some (h', .addr x, sp') ∧
      IsQueue h' head Y ∧ payloads h' Y = payloads h Y ∧
      getValue h' (.addr x) = some (some (payload h x)) ∧ isLive h' (.addr x) = true) ∧
    (∀ X x, ps = X ++ [x] → ∃ h' sp',
      q_remove_tail h (.addr head) sp bufsize = some (h', .addr x, sp') ∧
      IsQueue h' head X ∧ payloads h' X = payloads h X ∧
      getValue h' (.addr x) = some (some (payload h x)) ∧ isLive h' (.addr x) = true) ∧
    (∀ r, q_remove_head h (.addr head) sp bufsize = some r → (r.2.1 = .null ↔ ps = [])) ∧
    (∀ r, q_remove_tail h (.addr head) sp bufsize = some r → (r.2.1 = .null ↔ ps = [])) ∧
    ((((q_new emptyHeap (.addr 0)).bind fun r0 =>
      (q_insert_tail r0.1 r0.2 [120] true (.addr 1)).bind fun r1 =>
      (q_insert_tail r1.1 r0.2 [121] true (.addr 2)).bind fun r2 =>
      (q_remove_head r2.1 r0.2 (some (fun _ => 255)) 8).bind fun r3 =>
      (contents 5 r3.1 r0.2).bind fun c =>
      (q_size 5 r3.1 r0.2).bind fun n =>
      (getValue r3.1 r3.2.1).map fun v => (r3.2.1, v, c, n))
      = some (.addr 1, some [120], [[121]], 1)) ∧
    (((q_new emptyHeap (.addr 0)).bind fun r0 =>
      (q_insert_tail r0.1 r0.2 [120] true (.addr 1)).bind fun r1 =>
      (q_insert_tail r1.1 r0.2 [121] true (.addr 2)).bind fun r2 =>
      (q_remove_head r2.1 r0.2 (some (fun _ => 255)) 8).map fun r3 =>
        (r1.2, r2.2, r3.2.2.map fun b => (List.range 9).map b))
      = some (true, true, some [120, 0, 0, 0, 0, 0, 0, 0, 255]))) := by
  have hH : ∀ x Y, ps = x :: Y → ∃ h' sp',
      q_remove_head h (.addr head) sp bufsize = some (h', .addr x, sp') ∧
      IsQueue h' head Y ∧ payloads h' Y = payloads h Y ∧
      getValue h' (.addr x) = some (some (payload h x)) ∧ isLive h' (.addr x) = true := by
    intro x Y e
    subst e
    obtain ⟨h', sp', e1, _, q', v, lv, _⟩ := q_remove_head_spec q sp bufsize
    refine ⟨h', sp', e1, q', payloads_congr (fun p => v _) _, ?_, ?_⟩
    · rw [v]; exact q.value (List.mem_cons_self _ _)
    · rw [isLive_addr, lv, ← isLive_addr]
      exact q.live x (List.mem_cons_of_mem _ (List.mem_cons_self _ _))
  have hT : ∀ X x, ps = X ++ [x] → ∃ h' sp',
      q_remove_tail h (.addr head) sp bufsize = some (h', .addr x, sp') ∧
      IsQueue h' head X ∧ payloads h' X = payloads h X ∧
      getValue h' (.addr x) = some (some (payload h x)) ∧ isLive h' (.addr x) = true := by
    intro X x e
    subst e
    obtain ⟨h', sp', e1, _, q', v, lv, _⟩ := q_remove_tail_spec q sp bufsize
    refine ⟨h', sp', e1, q', payloads_congr (fun p => v _) _, ?_, ?_⟩
    · rw [v]; exact q.value (by simp)
    · rw [isLive_addr, lv, ← isLive_addr]
      exact q.live x (by simp)
  refine ⟨fun _ _ => ⟨rfl, rfl⟩, ?_, hH, hT, ?_, ?_, q_remove_head_scenario⟩
  · intro e buf n
    subst e
    exact ⟨q_remove_head_empty q buf n, q_remove_tail_empty q buf n⟩
  · intro r hr
    cases ps with
    | nil =>
      rw [q_remove_head_empty q] at hr
      cases hr
      simp
    | cons x Y =>
      obtain ⟨h', sp', e1, _⟩ := hH x Y rfl
      rw [e1] at hr
      cases hr
      simp
  · intro r hr
    rcases List.eq_nil_or_concat ps with e | ⟨X, x, e⟩
    · subst e
      rw [q_remove_tail_empty q] at hr
      cases hr
      simp
    · rw [List.concat_eq_append] at e
      subst e
      obtain ⟨h', sp', e1, _⟩ := hT X x rfl
      rw [e1] at hr
      cases hr
      simp

theorem q_remove_returns_witness :
    ∃ h' sp', q_remove_head (sampleQueue [[120], [121], [122]]) (.addr 0)
        (some (fun _ => 255)) 4 = some (h', .addr 1, sp') ∧
      IsQueue h' 0 [2, 3] ∧ payloads h' [2, 3] = payloads (sampleQueue [[120], [121], [122]]) [2, 3] ∧
      getValue h' (.addr 1) = some (some (payload (sampleQueue [[120], [121], [122]]) 1)) ∧
      isLive h' (.addr 1) = true :=
  (q_remove_returns (sampleQueue [[120], [121], [122]]) 0 [1, 2, 3] (some (fun _ => 255)) 4
    (by decide) (Or.inr (by decide))).2.2.1 1 [2, 3] rfl

/-- C12: `q_size` of `NULL` and of the queue `q_new` has just created is `0`.  After
every sequence of calls of `q_insert_head`, `q_insert_tail`, `q_remove_head` and
`q_remove_tail` on that queue, every allocation succeeding (the insertions receive
unused, pairwise distinct cells), every removal called without a buffer or with a
capacity of at least one that fits `size_t`, and the insertions being at most
`INT_MAX`, all
the calls return, every insertion is performed, and `q_size` is the number of
insertions performed minus the number of removals that returned an element. -/
theorem q_size_counts_calls (h0 : Heap) (hd : Nat) (cs : List Call) (fuel : Nat)
    (hfree : h0.cell hd = none) (nd : (hd :: callCells cs).Nodup)
    (hcells : ∀ a ∈ callCells cs, h0.cell a = none) (_hfit : ∀ c ∈ cs, callFits c)
    (hsz : (callCells cs).length ≤ INT_MAX) (hf : (callCells cs).length < fuel) :
    q_size fuel h0 .null = some 0 ∧
    ∃ h1, q_new h0 (.addr hd) = some (h1, .addr hd) ∧ q_size fuel h1 (.addr hd) = some 0 ∧
      ∃ h' ins rem, runCalls (.addr hd) cs h1 0 0 = some (h', ins, rem) ∧
        ins = (callCells cs).length ∧ rem ≤ ins ∧
        q_size fuel h' (.addr hd) = some (ins - rem) := by
  refine ⟨q_size_null fuel h0, ?_⟩
  obtain ⟨h1, e1, q1, lv, fr⟩ := q_new_spec hfree
  have hne : ∀ a ∈ callCells cs, a ≠ hd := by
    intro a ha e
    exact (List.nodup_cons.1 nd).1 (e ▸ ha)
  have hfree1 : ∀ a ∈ callCells cs, h1.cell a = none := by
    intro a ha
    rw [fr a (hne a ha)]
    exact hcells a ha
  obtain ⟨h', ins, rem, ps, e, q', i1, _, l1⟩ := runCalls_spec cs h1 hd [] 0 0 q1
    (List.nodup_cons.1 nd).2 hfree1
  simp only [List.length_nil, Nat.zero_add, Nat.add_zero] at i1 l1
  refine ⟨h1, e1, q_size_spec q1 (by simp) (by simp only [List.length_nil]; omega),
    h', ins, rem, e, i1, by omega, ?_⟩
  have hl : ps.length = ins - rem := by omega
  rw [← hl]
  exact q_size_spec q' (by omega) (by omega)

theorem q_size_counts_calls_witness :
    q_size 5 emptyHeap .null = some 0 ∧
    ∃ h1, q_new emptyHeap (.addr 0) = some (h1, .addr 0) ∧ q_size 5 h1 (.addr 0) = some 0 ∧
      ∃ h' ins rem,
        runCalls (.addr 0)
          [.insert_tail [120] 1, .insert_head [121] 2, .remove_head none 0,
            .remove_tail (some (fun _ => 255)) 4, .remove_head none 0,
            .insert_tail [122] 3] h1 0 0
          = some (h', ins, rem) ∧
        ins = (callCells [.insert_tail [120] 1, .insert_head [121] 2, .remove_head none 0,
            .remove_tail (some (fun _ => 255)) 4, .remove_head none 0,
            .insert_tail [122] 3]).length ∧
        rem ≤ ins ∧ q_size 5 h' (.addr 0) = some (ins - rem) :=
  q_size_counts_calls emptyHeap 0
    [.insert_tail [120] 1, .insert_head [121] 2, .remove_head none 0,
      .remove_tail (some (fun _ => 255)) 4, .remove_head none 0, .insert_tail [122] 3] 5
    rfl (by decide) (fun _ _ => rfl) (by simp [callFits, SIZE_MAX]) (by decide) (by decide)

/-- C13: on a non-empty queue, with a buffer and a capacity `bufsize` of at least one
(and at most `SIZE_MAX`, as every `size_t`), `q_remove_head` and `q_remove_tail`
leave in the buffer the first `min (strlen v) (bufsize - 1)` bytes of the payload `v`
of the removed element, none of them `0`, followed by a `0` byte; the bytes from
`bufsize` on are untouched; the returned element still owns the whole payload. -/
theorem q_remove_copies_truncated (h : Heap) (head : Nat) (ps : List Nat) (buf : Buf)
    (bufsize : Nat) (q : IsQueue h head ps) (h1 : 1 ≤ bufsize) (h2 : bufsize ≤ SIZE_MAX) :
    (∀ x Y, ps = x :: Y → ∃ h' buf',
      q_remove_head h (.addr head) (some buf) bufsize = some (h', .addr x, some buf') ∧
      (List.range (min (strlen (payload h x)) (bufsize - 1))).map buf'
        = (payload h x).take (min (strlen (payload h x)) (bufsize - 1)) ∧
      (∀ c ∈ (payload h x).take (min (strlen (payload h x)) (bufsize - 1)), c ≠ 0) ∧
      buf' (min (strlen (payload h x)) (bufsize - 1)) = 0 ∧
      (∀ i, bufsize ≤ i → buf' i = buf i) ∧
      getValue h' (.addr x) = some (some (payload h x))) ∧
    (∀ X x, ps = X ++ [x] → ∃ h' buf',
      q_remove_tail h (.addr head) (some buf) bufsize = some (h', .addr x, some buf') ∧
      (List.range (min (strlen (payload h x)) (bufsize - 1))).map buf'
        = (payload h x).take (min (strlen (payload h x)) (bufsize - 1)) ∧
      (∀ c ∈ (payload h x).take (min (strlen (payload h x)) (bufsize - 1)), c ≠ 0) ∧
      buf' (min (strlen (payload h x)) (bufsize - 1)) = 0 ∧
      (∀ i, bufsize ≤ i → buf' i = buf i) ∧
      getValue h' (.addr x) = some (some (payload h x))) := by
  have hn := bufsize_pred h1 h2
  constructor
  · intro x Y e
    subst e
    have hx : x ∈ x :: Y := List.mem_cons_self _ _
    obtain ⟨h', sp', e1, c, _, v, _, _⟩ := q_remove_head_spec q (some buf) bufsize
    rw [copyOut_some (q.vals x hx), hn] at c
    cases c
    obtain ⟨c1, c2, c3, c4⟩ := copied_bytes buf (payload h x) (bufsize - 1)
    exact ⟨h', _, e1, c1, c2, c3, fun i hi => c4 i (by omega), by rw [v]; exact q.value hx⟩
  · intro X x e
    subst e
    have hx : x ∈ X ++ [x] := by simp
    obtain ⟨h', sp', e1, c, _, v, _, _⟩ := q_remove_tail_spec q (some buf) bufsize
    rw [copyOut_some (q.vals x hx), hn] at c
    cases c
    obtain ⟨c1, c2, c3, c4⟩ := copied_bytes buf (payload h x) (bufsize - 1)
    exact ⟨h', _, e1, c1, c2, c3, fun i hi => c4 i (by omega), by rw [v]; exact q.value hx⟩

theorem q_remove_copies_truncated_witness :
    ∃ h' buf',
      q_remove_head (sampleQueue [[104, 101, 108, 108, 111], [121]]) (.addr 0)
        (some (fun _ => 255)) 3 = some (h', .addr 1, some buf') ∧
      (List.range (min (strlen (payload (sampleQueue [[104, 101, 108, 108, 111], [121]]) 1))
          (3 - 1))).map buf'
        = (payload (sampleQueue [[104, 101, 108, 108, 111], [121]]) 1).take
            (min (strlen (payload (sampleQueue [[104, 101, 108, 108, 111], [121]]) 1)) (3 - 1)) ∧
      (∀ c ∈ (payload (sampleQueue [[104, 101, 108, 108, 111], [121]]) 1).take
            (min (strlen (payload (sampleQueue [[104, 101, 108, 108, 111], [121]]) 1)) (3 - 1)),
          c ≠ 0) ∧
      buf' (min (strlen (payload (sampleQueue [[104, 101, 108, 108, 111], [121]]) 1)) (3 - 1)) = 0 ∧
      (∀ i, 3 ≤ i → buf' i = (fun _ => 255) i) ∧
      getValue h' (.addr 1)
        = some (some (payload (sampleQueue [[104, 101, 108, 108, 111], [121]]) 1)) :=
  (q_remove_copies_truncated (sampleQueue [[104, 101, 108, 108, 111], [121]]) 0 [1, 2]
    (fun _ => 255) 3 (by decide) (by decide) (by decide)).1 1 [2] rfl

/-- C20: with the capacity `0` the claim fails.  On the queue that holds `"x"`, with a
buffer filled with the byte `255`, `q_remove_head` and `q_remove_tail` called with
`bufsize = 0` compute `bufsize - 1 = SIZE_MAX`: the positions `0` (the byte of
`"x"`), `1` (padding) and `SIZE_MAX` (the terminator) of the buffer are written,
though none of them is below the capacity. -/
theorem q_remove_zero_capacity :
    ((q_remove_head (sampleQueue [[120]]) (.addr 0) (some (fun _ => 255)) 0).bind fun r =>
        r.2.2.map fun b => [b 0, b 1, b SIZE_MAX, b (SIZE_MAX + 1)]) = some [120, 0, 0, 255] ∧
    ((q_remove_tail (sampleQueue [[120]]) (.addr 0) (some (fun _ => 255)) 0).bind fun r =>
        r.2.2.map fun b => [b 0, b 1, b SIZE_MAX, b (SIZE_MAX + 1)]) = some [120, 0, 0, 255] := by
  decide

/-- C14: whatever `rand()` answers, on a well-formed queue whose size fits `int`
`q_shuffle` returns and leaves every cell where it was, with the same links: the
queue has the same cells in the same order and only payloads moved between them.
The payloads read from the head are a permutation of the payloads before. -/
theorem q_shuffle_permutes (h : Heap) (head : Nat) (ps : List Nat) (fuel : Nat)
    (rnd : Nat → Nat) (q : IsQueue h head ps) (hsz : ps.length ≤ INT_MAX)
    (hf : ps.length < fuel) :
    ∃ h', q_shuffle fuel h (.addr head) rnd = some h' ∧ IsQueue h' head ps ∧
      cellsOf fuel h' (.addr head) = some ps ∧
      contents fuel h' (.addr head) = some (payloads h' ps) ∧
      (payloads h' ps).Perm (payloads h ps) ∧
      (∀ p, getNext h' p = getNext h p) ∧ (∀ p, getPrev h' p = getPrev h p) ∧
      (∀ p, isLive h' p = isLive h p) := by
  obtain ⟨h', e, q', pl, _, fn, fp, fl, _⟩ := q_shuffle_spec q rnd hsz hf
  obtain ⟨c1, c2⟩ := contents_spec q' hf
  refine ⟨h', e, q', c1, c2, ?_, fn, fp, fl⟩
  rw [pl, shuffleList_eq]
  exact shuffleBy_perm _ _ _ (by simp [payloads])

theorem q_shuffle_permutes_witness :
    ∃ h', q_shuffle 5 (sampleQueue [[97], [98], [99], [100]]) (.addr 0)
        (fun k => 7 * k + 3) = some h' ∧
      IsQueue h' 0 [1, 2, 3, 4] ∧
      cellsOf 5 h' (.addr 0) = some [1, 2, 3, 4] ∧
      contents 5 h' (.addr 0) = some (payloads h' [1, 2, 3, 4]) ∧
      (payloads h' [1, 2, 3, 4]).Perm
        (payloads (sampleQueue [[97], [98], [99], [100]]) [1, 2, 3, 4]) ∧
      (∀ p, getNext h' p = getNext (sampleQueue [[97], [98], [99], [100]]) p) ∧
      (∀ p, getPrev h' p = getPrev (sampleQueue [[97], [98], [99], [100]]) p) ∧
      (∀ p, isLive h' p = isLive (sampleQueue [[97], [98], [99], [100]]) p) :=
  q_shuffle_permutes (sampleQueue [[97], [98], [99], [100]]) 0 [1, 2, 3, 4] 5
    (fun k => 7 * k + 3) (by decide) (by decide) (by decide)

/-- C15: on a well-formed queue of `n ≥ 2` elements (`n` fitting `int`), whatever
`rand()` answers, the payloads `q_shuffle` leaves are those of the reference
Fisher–Yates procedure run on the payloads with `rand_below (k) = rand() % k`: from
the index `n - 1` down to `1` it draws `j = rand_below (i + 1)` and exchanges the
payloads at `i` and `j` when they differ.  On a queue of at most one element
`q_shuffle` changes nothing. -/
theorem q_shuffle_refines_fisher_yates (h : Heap) (head : Nat) (ps : List Nat) (fuel : Nat)
    (rnd : Nat → Nat) (q : IsQueue h head ps) (hsz : ps.length ≤ INT_MAX)
    (hf : ps.length < fuel) :
    (2 ≤ ps.length → ∃ h', q_shuffle fuel h (.addr head) rnd = some h' ∧
      IsQueue h' head ps ∧
      contents fuel h' (.addr head)
        = some (fisherYates (fun c k => rnd c % k) (payloads h ps))) ∧
    (ps.length ≤ 1 → q_shuffle fuel h (.addr head) rnd = some h) := by
  obtain ⟨h', e, q', pl, hs, _⟩ := q_shuffle_spec q rnd hsz hf
  constructor
  · intro h2
    refine ⟨h', e, q', ?_⟩
    rw [(contents_spec q' hf).2, pl]
    have hl : (payloads h ps).length = ps.length := by simp [payloads]
    obtain ⟨i, hi⟩ : ∃ i, ps.length = i + 1 := ⟨ps.length - 1, by omega⟩
    unfold fisherYates
    rw [hl, hi, shuffleList_eq_fisherYatesLoop]
    rfl
  · intro h1
    rw [e, hs h1]

theorem q_shuffle_refines_fisher_yates_witness :
    ∃ h', q_shuffle 5 (sampleQueue [[97], [98], [99], [100]]) (.addr 0)
        (fun k => 7 * k + 3) = some h' ∧
      IsQueue h' 0 [1, 2, 3, 4] ∧
      contents 5 h' (.addr 0)
        = some (fisherYates (fun c k => (fun k => 7 * k + 3) c % k)
            (payloads (sampleQueue [[97], [98], [99], [100]]) [1, 2, 3, 4])) :=
  (q_shuffle_refines_fisher_yates (sampleQueue [[97], [98], [99], [100]]) 0 [1, 2, 3, 4] 5
    (fun k => 7 * k + 3) (by decide) (by decide) (by decide)).1 (by decide)

/-- C16: on a well-formed queue of `n` elements with pairwise distinct payloads (`n`
fitting `int`), every order `t` of the payloads is the result of `q_shuffle` for
exactly one admissible sequence of draws: there is a sequence `d` with `d i ≤ i` for
which `q_shuffle`, its loop drawing `d i` at the index `i`, leaves the payloads
`t`, and every sequence with `d' i ≤ i` below `n` that leaves `t` agrees with `d`
below `n`.  Every admissible sequence leaves a permutation of the payloads, and
the permutations are `n!` in number. -/
theorem q_shuffle_draws_bijective (h : Heap) (head : Nat) (ps : List Nat) (fuel : Nat)
    (q : IsQueue h head ps) (hd : (payloads h ps).Nodup) (hsz : ps.length ≤ INT_MAX)
    (hf : ps.length < fuel) :
    (∀ t : List Str, t.Perm (payloads h ps) →
      ∃ d : Nat → Nat, (∀ i, d i ≤ i) ∧
        (∃ h', q_shuffle fuel h (.addr head) (drawStream ps.length d) = some h' ∧
          contents fuel h' (.addr head) = some t) ∧
        ∀ d' : Nat → Nat, (∀ i, i < ps.length → d' i ≤ i) →
          (∃ h', q_shuffle fuel h (.addr head) (drawStream ps.length d') = some h' ∧
            contents fuel h' (.addr head) = some t) →
          ∀ i, i < ps.length → d' i = d i) ∧
    (∀ d : Nat → Nat, ∃ h' t, q_shuffle fuel h (.addr head) (drawStream ps.length d) = some h' ∧
      contents fuel h' (.addr head) = some t ∧ t.Perm (payloads h ps)) ∧
    (payloads h ps).permutations.length = ps.length.factorial ∧
    (payloads h ps).permutations.Nodup ∧
    (∀ t, t ∈ (payloads h ps).permutations ↔ t.Perm (payloads h ps)) := by
  have hl : (payloads h ps).length = ps.length := by simp [payloads]
  have key : ∀ d : Nat → Nat, ∃ h', q_shuffle fuel h (.addr head) (drawStream ps.length d)
      = some h' ∧ contents fuel h' (.addr head) = some (shuffleBy d ps.length (payloads h ps)) := by
    intro d
    obtain ⟨h', e, q', pl, _⟩ := q_shuffle_spec q (drawStream ps.length d) hsz hf
    refine ⟨h', e, ?_⟩
    rw [(contents_spec q' hf).2, pl]
    have := shuffleList_drawStream d (payloads h ps)
    rw [hl] at this
    rw [this]
  refine ⟨?_, ?_, ?_, List.nodup_permutations _ hd, fun t => List.mem_permutations⟩
  · intro t ht
    obtain ⟨d, ad, ed, ud⟩ := shuffleBy_bijective ps.length (payloads h ps) t hl hd ht
    refine ⟨d, ad, ?_, ?_⟩
    · obtain ⟨h', e1, e2⟩ := key d
      exact ⟨h', e1, by rw [e2, ed]⟩
    · intro d' ad' ⟨h', e1, e2⟩ i hi
      obtain ⟨h'', e3, e4⟩ := key d'
      rw [e1] at e3
      cases e3
      rw [e2] at e4
      exact ud d' ad' (Option.some.inj e4).symm i hi
  · intro d
    obtain ⟨h', e1, e2⟩ := key d
    exact ⟨h', _, e1, e2, shuffleBy_perm d _ _ hl⟩
  · rw [List.length_permutations, hl]

theorem q_shuffle_draws_bijective_witness :
    ∃ d : Nat → Nat, (∀ i, d i ≤ i) ∧
      (∃ h', q_shuffle 5 (sampleQueue [[97], [98], [99]]) (.addr 0)
          (drawStream [1, 2, 3].length d) = some h' ∧
        contents 5 h' (.addr 0) = some [[99], [97], [98]]) ∧
      ∀ d' : Nat → Nat, (∀ i, i < [1, 2, 3].length → d' i ≤ i) →
        (∃ h', q_shuffle 5 (sampleQueue [[97], [98], [99]]) (.addr 0)
            (drawStream [1, 2, 3].length d') = some h' ∧
          contents 5 h' (.addr 0) = some [[99], [97], [98]]) →
        ∀ i, i < [1, 2, 3].length → d' i = d i :=
  (q_shuffle_draws_bijective (sampleQueue [[97], [98], [99]]) 0 [1, 2, 3] 5
    (by decide) (by decide) (by decide) (by decide)).1 [[99], [97], [98]] (by decide)

/-- C17: a well-formed queue is consistent: every cell `n`, the sentinel included,
has `n.next.prev == n` and `n.prev.next == n`, `next` leads from the sentinel through
the cells back to the sentinel, and the queue is empty exactly when `next` and
`prev` of the sentinel are the sentinel.  `q_new` returns such a queue on the cell
`malloc` hands out, and on a well-formed queue whose size fits `int` each of
`q_insert_head`, `q_insert_tail` (also when an allocation fails), `q_remove_head`,
`q_remove_tail` (called without a buffer or with a capacity of at least one that fits
`size_t`), `q_delete_mid`, `q_delete_dup`, `q_swap`, `q_reverse`, `q_sort` and
`q_shuffle` returns and leaves a well-formed, consistent queue on the same
sentinel. -/
theorem queue_stays_consistent (h : Heap) (head : Nat) (ps : List Nat) (fuel : Nat)
    (s : Str) (a : Nat) (sp : Option Buf) (bufsize : Nat) (rnd : Nat → Nat)
    (q : IsQueue h head ps) (hfree : h.cell a = none)
    (_hsp : sp = none ∨ (1 ≤ bufsize ∧ bufsize ≤ SIZE_MAX)) (hsz : ps.length ≤ INT_MAX)
    (hf : ps.length + 1 < fuel) :
    Consistent h head ps ∧
    (∃ g, q_new h (.addr a) = some (g, .addr a) ∧ IsQueue g a [] ∧ Consistent g a []) ∧
    (∀ ok cell, ok = false ∨ cell = .null →
      q_insert_head h (.addr head) s ok cell = some (h, false) ∧
      q_insert_tail h (.addr head) s ok cell = some (h, false)) ∧
    (∃ g, q_insert_head h (.addr head) s true (.addr a) = some (g, true) ∧
      IsQueue g head (a :: ps) ∧ Consistent g head (a :: ps)) ∧
    (∃ g, q_insert_tail h (.addr head) s true (.addr a) = some (g, true) ∧
      IsQueue g head (ps ++ [a]) ∧ Consistent g head (ps ++ [a])) ∧
    (∃ g e sp', q_remove_head h (.addr head) sp bufsize = some (g, e, sp') ∧
      IsQueue g head ps.tail ∧ Consistent g head ps.tail) ∧
    (∃ g e sp', q_remove_tail h (.addr head) sp bufsize = some (g, e, sp') ∧
      IsQueue g head ps.dropLast ∧ Consistent g head ps.dropLast) ∧
    (∃ g r L, q_delete_mid fuel h (.addr head) = some (g, r) ∧
      IsQueue g head L ∧ Consistent g head L) ∧
    (∃ g r L, q_delete_dup fuel h (.addr head) = some (g, r) ∧
      IsQueue g head L ∧ Consistent g head L) ∧
    (∃ g, q_swap fuel h (.addr head) = some g ∧
      IsQueue g head (swapPairs ps) ∧ Consistent g head (swapPairs ps)) ∧
    (∃ g, q_reverse fuel h (.addr head) = some g ∧
      IsQueue g head ps.reverse ∧ Consistent g head ps.reverse) ∧
    (∃ g, q_sort fuel h (.addr head) = some g ∧
      IsQueue g head (List.mergeSort ps (cellLe (payload h))) ∧
      Consistent g head (List.mergeSort ps (cellLe (payload h)))) ∧
    (∃ g, q_shuffle fuel h (.addr head) rnd = some g ∧
      IsQueue g head ps ∧ Consistent g head ps) := by
  have hf1 : ps.length < fuel := by omega
  refine ⟨q.consistent, ?_, ?_, ?_, ?_, ?_, ?_, ?_, ?_, ?_, ?_, ?_, ?_⟩
  · obtain ⟨g, e, q', _⟩ := q_new_spec hfree
    exact ⟨g, e, q', q'.consistent⟩
  · intro ok cell hc
    rcases hc with e | e
    · subst e; exact ⟨by simp [q_insert_head], by simp [q_insert_tail]⟩
    · subst e
      cases ok <;> exact ⟨by simp [q_insert_head, malloc], by simp [q_insert_tail, malloc]⟩
  · obtain ⟨g, e, q', _⟩ := q_insert_head_spec q s hfree
    exact ⟨g, e, q', q'.consistent⟩
  · obtain ⟨g, e, q', _⟩ := q_insert_tail_spec q s hfree
    exact ⟨g, e, q', q'.consistent⟩
  · cases ps with
    | nil => exact ⟨h, .null, sp, q_remove_head_empty q sp bufsize, q, q.consistent⟩
    | cons x Y =>
      obtain ⟨g, sp', e, _, q', _⟩ := q_remove_head_spec q sp bufsize
      exact ⟨g, .addr x, sp', e, q', q'.consistent⟩
  · rcases List.eq_nil_or_concat ps with e0 | ⟨X, x, e0⟩
    · subst e0
      exact ⟨h, .null, sp, q_remove_tail_empty q sp bufsize, q, q.consistent⟩
    · rw [List.concat_eq_append] at e0
      subst e0
      obtain ⟨g, sp', e, _, q', _⟩ := q_remove_tail_spec q sp bufsize
      rw [List.dropLast_concat]
      exact ⟨g, .addr x, sp', e, q', q'.consistent⟩
  · by_cases hne : ps = []
    · subst hne
      refine ⟨h, false, [], ?_, q, q.consistent⟩
      simp [q_delete_mid, q_size_spec q hsz hf1]
    · have hk : ps.length / 2 < ps.length := by
        have : 0 < ps.length := List.length_pos.2 hne
        omega
      have hsplit : ps = ps.take (ps.length / 2) ++ ps[ps.length / 2] ::
          ps.drop (ps.length / 2 + 1) := by
        rw [← List.drop_eq_getElem_cons hk, List.take_append_drop]
      obtain ⟨X, hX⟩ : ∃ X, X = ps.take (ps.length / 2) := ⟨_, rfl⟩
      obtain ⟨Y, hY⟩ : ∃ Y, Y = ps.drop (ps.length / 2 + 1) := ⟨_, rfl⟩
      obtain ⟨x, hx⟩ : ∃ x, x = ps[ps.length / 2] := ⟨_, rfl⟩
      rw [← hX, ← hY, ← hx] at hsplit
      have hXlen : X.length = ps.length / 2 := by
        rw [hX, List.length_take]; omega
      have q0 : IsQueue h head (X ++ x :: Y) := by rw [← hsplit]; exact q
      obtain ⟨g, e, q', _⟩ := q_delete_mid_spec q0
        (by rw [← hsplit]; exact hsz) (by rw [← hsplit]; exact hXlen)
        (show (X ++ x :: Y).length < fuel by rw [← hsplit]; exact hf1)
      exact ⟨g, true, X ++ Y, e, q', q'.consistent⟩
  · by_cases hne : ps = []
    · subst hne
      refine ⟨h, false, [], ?_, q, q.consistent⟩
      simp [q_delete_dup, q_size_spec q hsz hf1]
    · obtain ⟨g, e, q', _⟩ := q_delete_dup_spec q hsz hne hf1
      exact ⟨g, true, _, e, q', q'.consistent⟩
  · obtain ⟨g, e, q', _⟩ := q_swap_spec q hsz hf1
    exact ⟨g, e, q', q'.consistent⟩
  · have e := q_reverse_spec q hsz hf1
    by_cases hn : ps.length ≤ 1
    · rw [if_pos hn] at e
      have er : ps.reverse = ps := by
        match ps, hn with
        | [], _ => rfl
        | [_], _ => rfl
      rw [er]
      exact ⟨h, e, q, q.consistent⟩
    · rw [if_neg hn] at e
      exact ⟨_, e, q.reverse, q.reverse.consistent⟩
  · obtain ⟨g, e, q', _⟩ := q_sort_spec q hsz hf
    exact ⟨g, e, q', q'.consistent⟩
  · obtain ⟨g, e, q', _⟩ := q_shuffle_spec q rnd hsz hf1
    exact ⟨g, e, q', q'.consistent⟩

theorem queue_stays_consistent_witness :
    Consistent (sampleQueue [[98], [97], [99]]) 0 [1, 2, 3] ∧
    (∃ g, q_new (sampleQueue [[98], [97], [99]]) (.addr 7) = some (g, .addr 7) ∧
      IsQueue g 7 [] ∧ Consistent g 7 []) ∧
    (∃ g, q_sort 5 (sampleQueue [[98], [97], [99]]) (.addr 0) = some g ∧
      IsQueue g 0 (List.mergeSort [1, 2, 3] (cellLe (payload (sampleQueue [[98], [97], [99]])))) ∧
      Consistent g 0
        (List.mergeSort [1, 2, 3] (cellLe (payload (sampleQueue [[98], [97], [99]]))))) ∧
    (∃ g, q_shuffle 5 (sampleQueue [[98], [97], [99]]) (.addr 0) (fun k => 5 * k + 2) = some g ∧
      IsQueue g 0 [1, 2, 3] ∧ Consistent g 0 [1, 2, 3]) :=
  have w := queue_stays_consistent (sampleQueue [[98], [97], [99]]) 0 [1, 2, 3] 5 [120] 7
    none 0 (fun k => 5 * k + 2) (by decide) (by decide) (Or.inl rfl) (by decide) (by decide)
  ⟨w.1, w.2.1, w.2.2.2.2.2.2.2.2.2.2.2.1, w.2.2.2.2.2.2.2.2.2.2.2.2⟩

/-- C18: for two non-empty `NULL`-terminated chains `L1` and `L2` of distinct cells
that own strings, each sorted in ascending `strcmp` order, `q_merge` returns the
chain `List.merge L1 L2`: it holds exactly the cells of `L1` and `L2`, its payloads
are in ascending order, the cells of `L1` keep their relative order and so do the
cells of `L2`, and a cell of `L1` comes before every cell of `L2` with an equal
payload.  No payload changes. -/
theorem q_merge_sorted_stable (h : Heap) (l1 l2 : Ptr) (L1 L2 : List Nat) (fuel : Nat)
    (hp1 : Path h l1 L1 .null) (hp2 : Path h l2 L2 .null) (h1 : L1 ≠ []) (h2 : L2 ≠ [])
    (nd : (L1 ++ L2).Nodup)
    (hv : ∀ x ∈ L1 ++ L2, ((getValue h (.addr x)).join).isSome = true)
    (s1 : L1.Pairwise (fun a b => strcmp (payload h a) (payload h b) ≤ 0))
    (s2 : L2.Pairwise (fun a b => strcmp (payload h a) (payload h b) ≤ 0))
    (hfu : L1.length + L2.length < fuel) :
    ∃ h' r, q_merge fuel h l1 l2 = some (h', r) ∧
      Path h' r (List.merge L1 L2 (cellLe (payload h))) .null ∧
      (List.merge L1 L2 (cellLe (payload h))).Perm (L1 ++ L2) ∧
      (List.merge L1 L2 (cellLe (payload h))).Pairwise
        (fun a b => strcmp (payload h' a) (payload h' b) ≤ 0) ∧
      L1.Sublist (List.merge L1 L2 (cellLe (payload h))) ∧
      L2.Sublist (List.merge L1 L2 (cellLe (payload h))) ∧
      (∀ a ∈ L1, ∀ b ∈ L2, strcmp (payload h a) (payload h b) = 0 →
        [a, b].Sublist (List.merge L1 L2 (cellLe (payload h)))) ∧
      (∀ p, getValue h' p = getValue h p) := by
  obtain ⟨h', r, e, pth, _, _, v, _⟩ := q_merge_spec (payload h) hp1 hp2 h1 h2 nd
    (fun x hx => value_of_isSome (hv x hx)) hfu
  have c1 : L1.Pairwise (fun a b => cellLe (payload h) a b = true) :=
    s1.imp (fun hab => by simpa [cellLe] using hab)
  have c2 : L2.Pairwise (fun a b => cellLe (payload h) a b = true) :=
    s2.imp (fun hab => by simpa [cellLe] using hab)
  refine ⟨h', r, e, pth, List.merge_perm_append _, ?_, sublist_merge_left _ _ _,
    sublist_merge_right _ _ _, ?_, v⟩
  · rw [payload_congr v]
    refine (List.sorted_merge (cellLe_trans (payload h)) (cellLe_total (payload h)) L1 L2
      c1 c2).imp ?_
    intro a b hab
    simpa [cellLe] using hab
  · intro a ha b hb hab
    exact pair_sublist_merge _ (cellLe_trans (payload h)) L1 L2 c1 a ha b hb
      (by simp [cellLe, hab])

theorem q_merge_sorted_stable_witness :
    ∃ h' r, q_merge 5 (sampleChains [[97], [99]] [[98], [99]]) (.addr 1) (.addr 3)
        = some (h', r) ∧
      Path h' r (List.merge [1, 2] [3, 4]
        (cellLe (payload (sampleChains [[97], [99]] [[98], [99]])))) .null ∧
      (List.merge [1, 2] [3, 4]
        (cellLe (payload (sampleChains [[97], [99]] [[98], [99]])))).Perm ([1, 2] ++ [3, 4]) ∧
      (List.merge [1, 2] [3, 4]
        (cellLe (payload (sampleChains [[97], [99]] [[98], [99]])))).Pairwise
        (fun a b => strcmp (payload h' a) (payload h' b) ≤ 0) ∧
      List.Sublist [1, 2] (List.merge [1, 2] [3, 4]
        (cellLe (payload (sampleChains [[97], [99]] [[98], [99]])))) ∧
      List.Sublist [3, 4] (List.merge [1, 2] [3, 4]
        (cellLe (payload (sampleChains [[97], [99]] [[98], [99]])))) ∧
      (∀ a ∈ [1, 2], ∀ b ∈ [3, 4],
        strcmp (payload (sampleChains [[97], [99]] [[98], [99]]) a)
          (payload (sampleChains [[97], [99]] [[98], [99]]) b) = 0 →
        [a, b].Sublist (List.merge [1, 2] [3, 4]
          (cellLe (payload (sampleChains [[97], [99]] [[98], [99]]))))) ∧
      (∀ p, getValue h' p = getValue (sampleChains [[97], [99]] [[98], [99]]) p) :=
  q_merge_sorted_stable (sampleChains [[97], [99]] [[98], [99]]) (.addr 1) (.addr 3)
    [1, 2] [3, 4] 5 ⟨rfl, .addr 2, by decide, rfl, .null, by decide, rfl⟩
    ⟨rfl, .addr 4, by decide, rfl, .null, by decide, rfl⟩ (by decide) (by decide)
    (by decide) (by decide) (by decide) (by decide) (by decide)

/-- C19: on a `NULL`-terminated chain `xs` of `n ≥ 2` distinct cells that own
strings, the slow/fast walk of `merge_sort` stops at a cell `x` and the cut at `x`
leaves the first `(n + 1) / 2` cells and the remaining `n / 2` cells as two chains,
both non-empty and shorter than `n`.  `merge_sort` returns the sorted chain, and
each call of `q_merge` made on the way has two arguments other than `NULL`; a call
with exactly one `NULL` argument, the one that dereferences `new_head == NULL`,
would not return. -/
theorem merge_sort_halves (h : Heap) (p : Ptr) (xs : List Nat) (fuel : Nat)
    (hp : Path h p xs .null) (nd : xs.Nodup)
    (hv : ∀ x ∈ xs, ((getValue h (.addr x)).join).isSome = true)
    (hlen : 2 ≤ xs.length) (hfu : xs.length + 1 < fuel) :
    (∃ x fast, getNext h p = some fast ∧ merge_sort_walk fuel h p fast = some (.addr x) ∧
      getNext h (.addr x) = some (hdPtr (xs.drop ((xs.length + 1) / 2))) ∧
      Path (updNext h x .null) p (xs.take ((xs.length + 1) / 2)) .null ∧
      Path (updNext h x .null) (hdPtr (xs.drop ((xs.length + 1) / 2)))
        (xs.drop ((xs.length + 1) / 2)) .null) ∧
    (xs.take ((xs.length + 1) / 2)).length = (xs.length + 1) / 2 ∧
    (xs.drop ((xs.length + 1) / 2)).length = xs.length / 2 ∧
    0 < xs.length / 2 ∧ (xs.length + 1) / 2 < xs.length ∧
    (∃ h' r calls, merge_sort_traced fuel h p = some ((h', r), calls) ∧
      merge_sort fuel h p = some (h', r) ∧
      Path h' r (List.mergeSort xs (cellLe (payload h))) .null ∧
      calls ≠ [] ∧ ∀ c ∈ calls, c.1 ≠ .null ∧ c.2 ≠ .null) ∧
    (∀ g a, q_merge fuel g (.addr a) .null = none ∧ q_merge fuel g .null (.addr a) = none) := by
  obtain ⟨slow, fast, x, e1, e2, e3, _, e4, pA, pB⟩ :=
    merge_sort_split hp nd hlen (show xs.length ≤ fuel by omega)
  subst e3
  refine ⟨⟨x, fast, e1, e2, e4, pA, pB⟩, ?_, ?_, by omega, by omega, ?_, ?_⟩
  · rw [List.length_take]; omega
  · rw [List.length_drop]; omega
  · obtain ⟨h', r, e, pth, _⟩ := merge_sort_spec (payload h) fuel xs h p hp nd
      (fun x hx => value_of_isSome (hv x hx)) hfu
    have hf := merge_sort_traced_fst fuel h p
    rw [e] at hf
    cases ht : merge_sort_traced fuel h p with
    | none => rw [ht] at hf; simp at hf
    | some t =>
      obtain ⟨⟨g, r'⟩, calls⟩ := t
      rw [ht] at hf
      simp only [Option.map_some', Option.some.injEq, Prod.mk.injEq] at hf
      obtain ⟨rfl, rfl⟩ := hf
      have hpn : p ≠ .null := by
        match xs, hp, hlen with
        | a :: _, hp, _ => rw [hp.1]; simp
      refine ⟨g, r', calls, rfl, e, pth, ?_, (merge_sort_traced_calls fuel h p _ hpn ht).2⟩
      intro hc
      subst hc
      -- a chain of two or more cells makes `merge_sort` call `q_merge`
      obtain ⟨f, hf⟩ : ∃ f, fuel = f + 1 := ⟨fuel - 1, by omega⟩
      subst hf
      have hfx : fast ≠ .null := by
        match xs, hp, hlen with
        | a :: b :: _, hp, _ =>
          obtain ⟨hp1, nx, hn, hb, _⟩ := hp
          rw [hp1, hn] at e1
          rw [← Option.some.inj e1, hb]; simp
      unfold merge_sort_traced at ht
      simp only [hpn, if_false, e1, Option.bind_eq_bind, Option.some_bind, hfx,
        Option.bind_eq_some, Option.pure_def] at ht
      obtain ⟨_, _, _, _, _, _, _, _, _, _, _, _, e9⟩ := ht
      simp at e9
  · intro g a
    obtain ⟨f, hf⟩ : ∃ f, fuel = f + 1 := ⟨fuel - 1, by omega⟩
    subst hf
    exact ⟨q_merge_null_right f g a, q_merge_null_left f g a⟩

theorem merge_sort_halves_witness :
    ∃ h' r calls, merge_sort_traced 5 (sampleChains [[99], [97], [98]] []) (.addr 1)
        = some ((h', r), calls) ∧
      merge_sort 5 (sampleChains [[99], [97], [98]] []) (.addr 1) = some (h', r) ∧
      Path h' r (List.mergeSort [1, 2, 3]
        (cellLe (payload (sampleChains [[99], [97], [98]] [])))) .null ∧
      calls ≠ [] ∧ ∀ c ∈ calls, c.1 ≠ .null ∧ c.2 ≠ .null :=
  (merge_sort_halves (sampleChains [[99], [97], [98]] []) (.addr 1) [1, 2, 3] 5
    ⟨rfl, .addr 2, by decide, rfl, .addr 3, by decide, rfl, .null, by decide, rfl⟩
    (by decide) (by decide) (by decide) (by decide)).2.2.2.2.2.1

end LabQueue
